import Mathlib

/-!
Verification of the core of `fchashmap` (`src/map.rs`): a fixed-capacity
Robin Hood hash map with backward-shift deletion, kept in two parallel
fixed arrays (a slot table `hash_table` of `HashIndex` records and a dense
bucket store `buckets`).

The shallow embedding below mirrors the source in the standard (non
`hugesize`) configuration: 15-bit truncated hashes with the sentinel value
`0x8000 = 32768` marking an empty slot, and `u16` bucket indices (modelled
by reduction modulo `65536` where the source casts `usize → u16`).  The
map is generic over the key type and its hash function, exactly as the
source is generic over `K: Hash`; `hashFn` stands for the composite
`FnvHasher` + `Hash` pipeline, whose output the source truncates with
`& 0x7fff` in `HashValue::new`.

The unbounded `loop`s of the source are modelled by fuel recursion, each
given fuel `capacity + 1`; `none` marks fuel exhaustion (or an
out-of-bounds `get_unchecked`, which is undefined behaviour in the
source).  The theorems show that on the invariant states this fuel is
never exhausted, i.e. every loop finishes within `capacity + 1`
iterations.
-/

set_option maxRecDepth 4000

namespace FcHashMap

/-- `HASH_VALUE_IS_EMPTY`: the `0x8000` bit pattern marking an empty slot. -/
def SENTINEL : Nat := 32768

/-- One entry of `hash_table`: a truncated hash plus an index into `buckets`
(`HashIndex` in the source).  An empty slot is marked by `hash = SENTINEL`;
its `b_idx` field is retained, as in `HashIndex::clear`. -/
structure HashIndex where
  hash : Nat
  b_idx : Nat
deriving DecidableEq, Repr

/-- `HashIndex::new`: the bucket index is stored in a `u16`. -/
def HashIndex.make (hash b_idx : Nat) : HashIndex :=
  ⟨hash, b_idx % 65536⟩

/-- `HashIndex::is_empty`. -/
def HashIndex.emptySlot (hi : HashIndex) : Bool :=
  hi.hash == SENTINEL

/-- `HashIndex::clear`: mark the slot empty, keeping the stale `b_idx`. -/
def HashIndex.clearSlot (hi : HashIndex) : HashIndex :=
  ⟨SENTINEL, hi.b_idx⟩

/-- The `hash_table` entry a fresh map is filled with in `Map::new`. -/
def emptyHI : HashIndex := ⟨SENTINEL, 0⟩

/-- One entry of the bucket store (`Bucket` in the source). -/
structure Bucket (K V : Type) where
  key : K
  value : V
  hash : Nat
deriving DecidableEq, Repr

/-- The map state: the dense bucket store and the slot table
(`Map { buckets, hash_table, .. }` in the source).  The capacity `CAP` is
passed to the operations explicitly; `hash_table` has length `CAP` in
every state produced by `Map::new` and the operations. -/
structure Map (K V : Type) where
  buckets : List (Bucket K V)
  hash_table : List HashIndex
deriving DecidableEq, Repr

/-- `Map::new`: no buckets, all slots empty. -/
def Map.new (K V : Type) (cap : Nat) : Map K V :=
  ⟨[], List.replicate cap emptyHI⟩

/-- `HashValue::new`: truncate the 32-bit hash to 15 bits (`hash & 0x7fff`). -/
def hashWith {K : Type} (hashFn : K → Nat) (k : K) : Nat :=
  hashFn k &&& 32767

/-- `HashValue::desired_h_idx`: the ideal slot of a hash, `hash & mask`
with `mask = capacity - 1`. -/
def desiredIdx (cap h : Nat) : Nat :=
  h &&& (cap - 1)

/-- `HashValue::h_idx_distance`: probe distance of hash `h` at position
`cur`.  The source computes `cur.wrapping_sub(desired) & mask`; for
`cur < cap` and a power-of-two `cap` (which divides the machine modulus
`2^32` or `2^64`) this equals `(cap + cur - desired) & mask`. -/
def hIdxDistance (cap h cur : Nat) : Nat :=
  (cap + cur - desiredIdx cap h) &&& (cap - 1)

/-- `h_idx += 1; h_idx &= mask`: advance a probe position by one. -/
def stepIdx (cap i : Nat) : Nat :=
  (i + 1) &&& (cap - 1)

section Ops

variable {K V : Type} [DecidableEq K]

/-- The displacement chain of `insert` (case 2 in the source): starting at
`h_idx` with the incoming record `hi`, repeatedly swap the incoming record
with the occupant and move forward until an empty slot is found. -/
def displaceLoop (cap : Nat) : Nat → Nat → HashIndex → List HashIndex → Option (List HashIndex)
  | 0, _, _, _ => none
  | fuel + 1, h_idx, hi, ht =>
    let cur := ht.getD h_idx emptyHI
    if cur.emptySlot then some (ht.set h_idx hi)
    else displaceLoop cap fuel (stepIdx cap h_idx) cur (ht.set h_idx hi)

/-- The probe loop of `Map::insert`.  Case 1: an empty slot takes the new
record.  Case 2: a richer occupant (smaller stored probe distance than the
distance travelled) starts the displacement chain.  Case 3: matching
truncated hash and equal key update the value in place.  Otherwise the
probe continues.  `none` models fuel exhaustion or an out-of-range
`get_unchecked`. -/
def insertLoop (cap : Nat) (hash : Nat) (key : K) (value : V) :
    Nat → Nat → Nat → Map K V → Option (Except (K × V) (Option V) × Map K V)
  | 0, _, _, _ => none
  | fuel + 1, h_idx, h_idx_dist, m =>
    let hi := m.hash_table.getD h_idx emptyHI
    if hi.emptySlot then
      some (Except.ok none,
        ⟨m.buckets ++ [⟨key, value, hash⟩],
         m.hash_table.set h_idx (HashIndex.make hash m.buckets.length)⟩)
    else if hIdxDistance cap hi.hash h_idx < h_idx_dist then
      match displaceLoop cap (cap + 1) h_idx (HashIndex.make hash m.buckets.length)
          m.hash_table with
      | none => none
      | some ht => some (Except.ok none, ⟨m.buckets ++ [⟨key, value, hash⟩], ht⟩)
    else if hi.hash = hash then
      match m.buckets.get? hi.b_idx with
      | none => none
      | some b =>
        if b.key = key then
          some (Except.ok (some b.value),
            ⟨m.buckets.set hi.b_idx ⟨b.key, value, b.hash⟩, m.hash_table⟩)
        else insertLoop cap hash key value fuel (stepIdx cap h_idx) (h_idx_dist + 1) m
    else insertLoop cap hash key value fuel (stepIdx cap h_idx) (h_idx_dist + 1) m

/-- `Map::insert`: fail on a full map, otherwise run the probe loop from
the ideal slot of the key's truncated hash. -/
def insert (hashFn : K → Nat) (cap : Nat) (m : Map K V) (key : K) (value : V) :
    Option (Except (K × V) (Option V) × Map K V) :=
  if m.buckets.length = cap then some (Except.error (key, value), m)
  else
    insertLoop cap (hashWith hashFn key) key value (cap + 1)
      (desiredIdx cap (hashWith hashFn key)) 0 m

/-- The probe loop of `Map::find`: stop at an empty slot, or when the
distance travelled exceeds the distance of the searched hash at the
current position (the "give up after full table scan" guard of the
source), or at a slot with matching truncated hash whose bucket holds an
equal key. -/
def findLoop (cap : Nat) (hash : Nat) (key : K) (bs : List (Bucket K V))
    (ht : List HashIndex) : Nat → Nat → Nat → Option (Option (Nat × Nat))
  | 0, _, _ => none
  | fuel + 1, h_idx, h_idx_dist =>
    let hi := ht.getD h_idx emptyHI
    if hi.emptySlot then some none
    else if h_idx_dist > hIdxDistance cap hash h_idx then some none
    else if hi.hash = hash then
      match bs.get? hi.b_idx with
      | none => none
      | some b =>
        if b.key = key then some (some (h_idx, hi.b_idx))
        else findLoop cap hash key bs ht fuel (stepIdx cap h_idx) (h_idx_dist + 1)
    else findLoop cap hash key bs ht fuel (stepIdx cap h_idx) (h_idx_dist + 1)

/-- `Map::find`: empty maps short-circuit; otherwise probe from the ideal
slot.  Returns `some (some (h_idx, b_idx))` when found, `some none` when
absent. -/
def find (hashFn : K → Nat) (cap : Nat) (m : Map K V) (key : K) :
    Option (Option (Nat × Nat)) :=
  if m.buckets.length = 0 then some none
  else
    findLoop cap (hashWith hashFn key) key m.buckets m.hash_table (cap + 1)
      (desiredIdx cap (hashWith hashFn key)) 0

/-- `Map::get`, defined from `find` as in the source. -/
def get (hashFn : K → Nat) (cap : Nat) (m : Map K V) (key : K) : Option (Option V) :=
  match find hashFn cap m key with
  | none => none
  | some none => some none
  | some (some (_, b_idx)) =>
    match m.buckets.get? b_idx with
    | none => none
    | some b => some (some b.value)

/-- `ArrayVec::swap_pop`: remove the element at `i`, moving the last
element into its place; `none` when `i` is out of range. -/
def swapPop {α : Type} (l : List α) (i : Nat) : Option (α × List α) :=
  match l.get? i, l.get? (l.length - 1) with
  | some x, some z => some (x, (l.set i z).dropLast)
  | _, _ => none

/-- The repointing loop of `Map::remove_found`: scan forward from the
relocated bucket's ideal slot for the first slot whose `b_idx` is out of
range (`>= buckets.len()`) and overwrite it with the bucket's hash and new
position. -/
def repointLoop (cap len found_b_idx bhash : Nat) :
    Nat → Nat → List HashIndex → Option (List HashIndex)
  | 0, _, _ => none
  | fuel + 1, h_idx, ht =>
    if len ≤ (ht.getD h_idx emptyHI).b_idx then
      some (ht.set h_idx (HashIndex.make bhash found_b_idx))
    else repointLoop cap len found_b_idx bhash fuel (stepIdx cap h_idx) ht

/-- The backward-shift loop of `Map::remove_found`: starting from the
cleared slot, repeatedly inspect the next slot; a non-empty occupant with
positive probe distance is shifted back into the gap and its old position
cleared; an empty slot or an occupant at its ideal position stops the
loop. -/
def shiftLoop (cap : Nat) : Nat → Nat → List HashIndex → Option (List HashIndex)
  | 0, _, _ => none
  | fuel + 1, h_idx, ht =>
    let nxt := stepIdx cap h_idx
    let hi := ht.getD nxt emptyHI
    if hi.emptySlot then some ht
    else if 0 < hIdxDistance cap hi.hash nxt then
      shiftLoop cap fuel nxt ((ht.set h_idx hi).set nxt hi.clearSlot)
    else some ht

/-- `Map::remove_found`: clear the found slot, swap-remove the bucket,
repoint the slot of the relocated bucket (when one was relocated), then
run the backward-shift deletion from the cleared slot. -/
def remove_found (cap : Nat) (m : Map K V) (found_h_idx found_b_idx : Nat) :
    Option ((K × V) × Map K V) :=
  let ht0 := m.hash_table.set found_h_idx
    ((m.hash_table.getD found_h_idx emptyHI).clearSlot)
  match swapPop m.buckets found_b_idx with
  | none => none
  | some (deleted, bs) =>
    let step2 : Option (List HashIndex) :=
      if found_b_idx < bs.length then
        match bs.get? found_b_idx with
        | none => none
        | some bucket =>
          repointLoop cap bs.length found_b_idx bucket.hash (cap + 1)
            (desiredIdx cap bucket.hash) ht0
      else some ht0
    match step2 with
    | none => none
    | some ht1 =>
      match shiftLoop cap (cap + 1) found_h_idx ht1 with
      | none => none
      | some ht2 => some ((deleted.key, deleted.value), ⟨bs, ht2⟩)

/-- `Map::remove`, defined from `find` and `remove_found` as in the
source. -/
def remove (hashFn : K → Nat) (cap : Nat) (m : Map K V) (key : K) :
    Option (Option V × Map K V) :=
  match find hashFn cap m key with
  | none => none
  | some none => some (none, m)
  | some (some (h_idx, b_idx)) =>
    match remove_found cap m h_idx b_idx with
    | none => none
    | some (kv, m') => some (some kv.2, m')

/-- `Map::clear`: drop all buckets and mark every slot empty (the stale
`b_idx` fields are retained, as in `HashIndex::clear`). -/
def Map.clearAll (m : Map K V) : Map K V :=
  ⟨[], m.hash_table.map HashIndex.clearSlot⟩

end Ops

/-- Binary digit count, by structural recursion on a fuel bounding the bit
width. -/
def countOnesAux : Nat → Nat → Nat
  | 0, _ => 0
  | fuel + 1, n => if n = 0 then 0 else n % 2 + countOnesAux fuel (n / 2)

/-- `usize::count_ones` for a 64-bit `usize` (values below `2^64`). -/
def countOnes (n : Nat) : Nat := countOnesAux 64 n

/-- The two `debug_assert!`s of `Map::new` on a 64-bit host:
`(capacity as u32) < u32::MAX` (the cast truncates modulo `2^32`) and
`capacity.count_ones() == 1`. -/
def newDebugAsserts (cap : Nat) : Bool :=
  (cap % 4294967296 < 4294967295) && (countOnes cap == 1)

section InvDefs

variable {K V : Type} [DecidableEq K]

/-- Slot `i` of the table is occupied (not marked with the sentinel). -/
def occupiedIdx (ht : List HashIndex) (i : Nat) : Prop :=
  (ht.getD i emptyHI).emptySlot = false

instance (ht : List HashIndex) (i : Nat) : Decidable (occupiedIdx ht i) := by
  unfold occupiedIdx; infer_instance

/-- The truncated hash stored in slot `i`. -/
def slotHash (ht : List HashIndex) (i : Nat) : Nat :=
  (ht.getD i emptyHI).hash

/-- The bucket index stored in slot `i`. -/
def slotRef (ht : List HashIndex) (i : Nat) : Nat :=
  (ht.getD i emptyHI).b_idx

/-- The stored probe distance of the occupant of slot `i`: how far `i` is
from the ideal slot of the occupant's stored hash. -/
def slotDist (cap : Nat) (ht : List HashIndex) (i : Nat) : Nat :=
  hIdxDistance cap (slotHash ht i) i

/-- The state invariant of the map, maintained by every operation:
table length, bucket/slot mutual consistency (every occupied slot points
at a live bucket with the same stored hash, distinct slots point at
distinct buckets, every bucket is pointed at), correct bucket hashes,
distinct keys, the local Robin Hood ordering (an occupant with positive
probe distance has an occupied predecessor whose probe distance is at
least one less), and, when the map is full, the existence of a slot at
its ideal position. -/
structure Inv (hashFn : K → Nat) (cap : Nat) (m : Map K V) : Prop where
  htLen : m.hash_table.length = cap
  bsLen : m.buckets.length ≤ cap
  bHash : ∀ b ∈ m.buckets, b.hash = hashWith hashFn b.key
  nodup : (m.buckets.map Bucket.key).Nodup
  refOk : ∀ i < cap, occupiedIdx m.hash_table i →
    ∃ b, m.buckets.get? (slotRef m.hash_table i) = some b ∧
      slotHash m.hash_table i = b.hash
  surj : ∀ j < m.buckets.length, ∃ i, i < cap ∧ occupiedIdx m.hash_table i ∧
    slotRef m.hash_table i = j
  inj : ∀ i < cap, ∀ i' < cap, occupiedIdx m.hash_table i →
    occupiedIdx m.hash_table i' →
    slotRef m.hash_table i = slotRef m.hash_table i' → i = i'
  rh : ∀ i < cap, occupiedIdx m.hash_table (stepIdx cap i) →
    0 < slotDist cap m.hash_table (stepIdx cap i) →
    occupiedIdx m.hash_table i ∧
      slotDist cap m.hash_table (stepIdx cap i) ≤ slotDist cap m.hash_table i + 1
  fullZ : m.buckets.length = cap → ∃ i, i < cap ∧ occupiedIdx m.hash_table i ∧
    slotDist cap m.hash_table i = 0

/-- Intermediate state of the backward-shift phase of `remove_found`:
the gap `G` is empty, the slot/bucket consistency clauses hold, the local
Robin Hood clause holds at every position except the gap, and the
occupant just after the gap (when it sits at distance at least two) is
bounded by the occupant just before the gap. -/
structure ShiftState (hashFn : K → Nat) (cap : Nat) (bs : List (Bucket K V))
    (ht : List HashIndex) (G : Nat) : Prop where
  htLen : ht.length = cap
  Glt : G < cap
  Gempty : ¬ occupiedIdx ht G
  refOk : ∀ i < cap, occupiedIdx ht i →
    ∃ b, bs.get? (slotRef ht i) = some b ∧ slotHash ht i = b.hash
  surj : ∀ j < bs.length, ∃ i, i < cap ∧ occupiedIdx ht i ∧ slotRef ht i = j
  inj : ∀ i < cap, ∀ i' < cap, occupiedIdx ht i → occupiedIdx ht i' →
    slotRef ht i = slotRef ht i' → i = i'
  rhx : ∀ q < cap, q ≠ G → occupiedIdx ht (stepIdx cap q) →
    0 < slotDist cap ht (stepIdx cap q) →
    occupiedIdx ht q ∧
      slotDist cap ht (stepIdx cap q) ≤ slotDist cap ht q + 1
  hole : occupiedIdx ht (stepIdx cap G) → 2 ≤ slotDist cap ht (stepIdx cap G) →
    occupiedIdx ht ((G + (cap - 1)) % cap) ∧
      slotDist cap ht (stepIdx cap G) ≤
        slotDist cap ht ((G + (cap - 1)) % cap) + 2

/-- The states reachable from `Map::new` by the public operations. -/
inductive Reachable (hashFn : K → Nat) (cap : Nat) : Map K V → Prop where
  | new : Reachable hashFn cap (Map.new K V cap)
  | ins {m : Map K V} {r m' k v} : Reachable hashFn cap m →
      insert hashFn cap m k v = some (r, m') → Reachable hashFn cap m'
  | del {m : Map K V} {r m' k} : Reachable hashFn cap m →
      remove hashFn cap m k = some (r, m') → Reachable hashFn cap m'
  | clr {m : Map K V} : Reachable hashFn cap m → Reachable hashFn cap m.clearAll

end InvDefs

section RunDefs

variable {K V : Type} [DecidableEq K]

/-- An insert or remove request, for whole-run statements. -/
inductive Op (K V : Type) where
  | ins (k : K) (v : V)
  | del (k : K)

/-- Run a list of requests against the map, threading the state; `none`
when an operation's fuel is exhausted (which the theorems rule out). -/
def run (hashFn : K → Nat) (cap : Nat) : List (Op K V) → Map K V → Option (Map K V)
  | [], m => some m
  | Op.ins k v :: ops, m =>
    match insert hashFn cap m k v with
    | none => none
    | some (_, m') => run hashFn cap ops m'
  | Op.del k :: ops, m =>
    match remove hashFn cap m k with
    | none => none
    | some (_, m') => run hashFn cap ops m'

/-- Run a list of removals against the map. -/
def runRemoves (hashFn : K → Nat) (cap : Nat) : List K → Map K V → Option (Map K V)
  | [], m => some m
  | k :: ks, m =>
    match remove hashFn cap m k with
    | none => none
    | some (_, m') => runRemoves hashFn cap ks m'

/-- The capacity-unbounded reference map: an association list. Insert
replaces the value of an existing key in place, otherwise appends. -/
def refInsert (l : List (K × V)) (k : K) (v : V) : List (K × V) :=
  if l.any (fun p => p.1 = k) then l.map (fun p => if p.1 = k then (k, v) else p)
  else l ++ [(k, v)]

/-- Reference removal: drop the key's entry. -/
def refRemove (l : List (K × V)) (k : K) : List (K × V) :=
  l.filter (fun p => ¬ p.1 = k)

/-- Run a list of requests against the reference map. -/
def refRun : List (Op K V) → List (K × V) → List (K × V)
  | [], l => l
  | Op.ins k v :: ops, l => refRun ops (refInsert l k v)
  | Op.del k :: ops, l => refRun ops (refRemove l k)

/-- Reference lookup. -/
def refLookup (l : List (K × V)) (k : K) : Option V :=
  (l.find? (fun p => p.1 = k)).map (fun p => p.2)

/-- Observable agreement between the map and the reference association
list: the same key/value entries, up to order. -/
def Sim (m : Map K V) (l : List (K × V)) : Prop :=
  (m.buckets.map (fun b => (b.key, b.value))).Perm l

end RunDefs

/-- Identity hash function on `Nat` keys, for the concrete examples. -/
def idFn : Nat → Nat := fun k => k

/-- Constant hash function, for concrete examples with collisions. -/
def zeroFn : Nat → Nat := fun _ => 0

/-- A map of capacity 4 under the constant hash: keys `0` and `1` both
want slot 0, so key `1` sits at slot 1 with probe distance 1. -/
def collide2 : Map Nat Nat :=
  ⟨[⟨0, 10, 0⟩, ⟨1, 20, 0⟩], [⟨0, 0⟩, ⟨0, 1⟩, ⟨32768, 0⟩, ⟨32768, 0⟩]⟩

/-- A full map of capacity 1 holding key `0`: the state produced by
inserting `(0, 5)` into `Map.new Nat Nat 1`. -/
def fullMap1 : Map Nat Nat := ⟨[⟨0, 5, 0⟩], [⟨0, 0⟩]⟩

/-- A map of capacity 4 holding key `0` (identity hash), as produced by
inserting `(0, 10)` into `Map.new Nat Nat 4`. -/
def oneMap4 : Map Nat Nat :=
  ⟨[⟨0, 10, 0⟩], [⟨0, 0⟩, ⟨32768, 0⟩, ⟨32768, 0⟩, ⟨32768, 0⟩]⟩

/-- The state after removing key `0` from `twoMap4`: the bucket of key
`1` was swap-relocated to position 0 and its slot repointed. -/
def oneMap4After : Map Nat Nat :=
  ⟨[⟨1, 20, 1⟩], [⟨32768, 0⟩, ⟨1, 0⟩, ⟨32768, 0⟩, ⟨32768, 0⟩]⟩

/-- A map of capacity 4 holding keys `0` and `1` (identity hash), as
produced by inserting `(0, 10)` then `(1, 20)` into `Map.new Nat Nat 4`:
slot 0 holds key 0 (probe distance 0), slot 1 holds key 1 (probe
distance 0). -/
def twoMap4 : Map Nat Nat :=
  ⟨[⟨0, 10, 0⟩, ⟨1, 20, 1⟩], [⟨0, 0⟩, ⟨1, 1⟩, ⟨32768, 0⟩, ⟨32768, 0⟩]⟩

/-- A map of capacity 4 holding keys `0`, `1`, `2` (identity hash), as
produced by inserting `(0, 10)`, `(1, 20)`, `(2, 30)` into
`Map.new Nat Nat 4`. -/
def threeMap4 : Map Nat Nat :=
  ⟨[⟨0, 10, 0⟩, ⟨1, 20, 1⟩, ⟨2, 30, 2⟩],
   [⟨0, 0⟩, ⟨1, 1⟩, ⟨2, 2⟩, ⟨32768, 0⟩]⟩

/-- The state of `threeMap4` after `remove_found 4 threeMap4 0 0`: the
last bucket (key `2`) was swapped into position 0 and its slot repointed. -/
def threeMap4After : Map Nat Nat :=
  ⟨[⟨2, 30, 2⟩, ⟨1, 20, 1⟩],
   [⟨32768, 0⟩, ⟨1, 1⟩, ⟨2, 0⟩, ⟨32768, 0⟩]⟩

section ModArith

theorem cap_pos {cap e : Nat} (hcap : cap = 2 ^ e) : 0 < cap := by
  subst hcap; positivity

theorem and_mask {cap e : Nat} (hcap : cap = 2 ^ e) (a : Nat) :
    a &&& (cap - 1) = a % cap := by
  subst hcap; exact Nat.and_pow_two_sub_one_eq_mod a e

theorem stepIdx_eq {cap e : Nat} (hcap : cap = 2 ^ e) (i : Nat) :
    stepIdx cap i = (i + 1) % cap := by
  unfold stepIdx; exact and_mask hcap _

theorem desiredIdx_lt {cap e : Nat} (hcap : cap = 2 ^ e) (h : Nat) :
    desiredIdx cap h < cap := by
  unfold desiredIdx; rw [and_mask hcap]; exact Nat.mod_lt _ (cap_pos hcap)

theorem hIdxDistance_eq {cap e : Nat} (hcap : cap = 2 ^ e) (h cur : Nat) :
    hIdxDistance cap h cur = (cap + cur - desiredIdx cap h) % cap := by
  unfold hIdxDistance; exact and_mask hcap _

theorem hIdxDistance_lt {cap e : Nat} (hcap : cap = 2 ^ e) (h cur : Nat) :
    hIdxDistance cap h cur < cap := by
  rw [hIdxDistance_eq hcap]; exact Nat.mod_lt _ (cap_pos hcap)

/-- The probe distance of hash `h` at the `t`-th probe position of its own
probe sequence is `t % cap`. -/
theorem dist_probe {cap e : Nat} (hcap : cap = 2 ^ e) (h t : Nat) :
    hIdxDistance cap h ((desiredIdx cap h + t) % cap) = t % cap := by
  have hc : 0 < cap := cap_pos hcap
  have hd : desiredIdx cap h < cap := desiredIdx_lt hcap h
  set d := desiredIdx cap h with hdef
  have h1 : (d + t) % cap = (d + t % cap) % cap := by
    rw [Nat.add_mod d t, Nat.mod_add_mod]
  rw [hIdxDistance_eq hcap, ← hdef, h1]
  set u := t % cap with hu
  have hu' : u < cap := Nat.mod_lt _ hc
  rcases Nat.lt_or_ge (d + u) cap with hlt | hge
  · rw [Nat.mod_eq_of_lt hlt]
    have : cap + (d + u) - d = cap + u := by omega
    rw [this, Nat.add_mod_left, Nat.mod_eq_of_lt hu']
  · have h2 : (d + u) % cap = d + u - cap := by
      rw [Nat.mod_eq_sub_mod hge, Nat.mod_eq_of_lt (by omega)]
    rw [h2]
    have : cap + (d + u - cap) - d = u := by omega
    rw [this, Nat.mod_eq_of_lt hu']

/-- Every position below `cap` is the `slotDist`-th probe position of its
occupant's hash. -/
theorem probe_reconstruct {cap e : Nat} (hcap : cap = 2 ^ e) (h i : Nat)
    (hi : i < cap) :
    (desiredIdx cap h + hIdxDistance cap h i) % cap = i := by
  have hd : desiredIdx cap h < cap := desiredIdx_lt hcap h
  set d := desiredIdx cap h with hdef
  rw [hIdxDistance_eq hcap, ← hdef]
  rcases le_or_lt d i with hle | hgt
  · have h1 : cap + i - d = cap + (i - d) := by omega
    have h2 : (cap + (i - d)) % cap = i - d := by
      rw [Nat.add_mod_left, Nat.mod_eq_of_lt (by omega)]
    rw [h1, h2, Nat.mod_eq_of_lt (by omega)]; omega
  · have h1 : (cap + i - d) % cap = cap + i - d := Nat.mod_eq_of_lt (by omega)
    rw [h1]
    have h2 : d + (cap + i - d) = cap + i := by omega
    rw [h2, Nat.add_comm cap i, Nat.add_mod_right, Nat.mod_eq_of_lt hi]

theorem probe_lt {cap e : Nat} (hcap : cap = 2 ^ e) (s t : Nat) :
    (s + t) % cap < cap :=
  Nat.mod_lt _ (cap_pos hcap)

theorem step_probe {cap e : Nat} (hcap : cap = 2 ^ e) (s t : Nat) :
    stepIdx cap ((s + t) % cap) = (s + (t + 1)) % cap := by
  rw [stepIdx_eq hcap, Nat.mod_add_mod, Nat.add_assoc]

theorem probe_inj {cap e : Nat} (hcap : cap = 2 ^ e) {s t u : Nat}
    (ht : t < cap) (hu : u < cap) (h : (s + t) % cap = (s + u) % cap) : t = u := by
  have h1 : t % cap = u % cap :=
    Nat.ModEq.add_left_cancel' s h
  rwa [Nat.mod_eq_of_lt ht, Nat.mod_eq_of_lt hu] at h1

theorem probe_add_cap {cap e : Nat} (hcap : cap = 2 ^ e) (s t : Nat) :
    (s + (t + cap)) % cap = (s + t) % cap := by
  rw [← Nat.add_assoc, Nat.add_mod_right]

theorem probe_zero {cap e : Nat} (hcap : cap = 2 ^ e) {s : Nat} (hs : s < cap) :
    (s + 0) % cap = s := by
  simp [Nat.mod_eq_of_lt hs]

end ModArith

section ListHelpers

theorem getD_set_self {α : Type} (l : List α) (i : Nat) (x d : α)
    (h : i < l.length) : (l.set i x).getD i d = x := by
  simp [List.getD, List.getElem?_set_self, h]

theorem getD_set_ne {α : Type} (l : List α) {i j : Nat} (x d : α)
    (h : i ≠ j) : (l.set i x).getD j d = l.getD j d := by
  simp [List.getD, List.getElem?_set_ne h]

theorem getD_eq_of_get? {α : Type} {l : List α} {i : Nat} {x : α} (d : α)
    (h : l.get? i = some x) : l.getD i d = x := by
  rw [List.get?_eq_getElem?] at h
  simp [List.getD, h]

end ListHelpers

section HashIndexLemmas

theorem make_eq {b : Nat} (h : Nat) (hb : b < 65536) :
    HashIndex.make h b = ⟨h, b⟩ := by
  unfold HashIndex.make; rw [Nat.mod_eq_of_lt hb]

theorem hashWith_lt {K : Type} (hashFn : K → Nat) (k : K) :
    hashWith hashFn k < 32768 :=
  Nat.lt_succ_of_le (Nat.and_le_right)

theorem emptySlot_false_iff (hi : HashIndex) :
    hi.emptySlot = false ↔ hi.hash ≠ SENTINEL := by
  unfold HashIndex.emptySlot; simp

theorem emptySlot_clearSlot (hi : HashIndex) : hi.clearSlot.emptySlot = true := by
  unfold HashIndex.clearSlot HashIndex.emptySlot; simp

end HashIndexLemmas

section ClaimC2

/-- C2: inserting any key/value into a map whose length equals the
capacity fails immediately with `Err((key, value))`, returning the
caller's key and value unchanged, and leaves the entire map state (bucket
store and slot table) unchanged. -/
theorem insert_full_err {K V : Type} [DecidableEq K] (hashFn : K → Nat)
    (cap : Nat) (m : Map K V) (k : K) (v : V)
    (hfull : m.buckets.length = cap) :
    insert hashFn cap m k v = some (Except.error (k, v), m) := by
  unfold insert; rw [if_pos hfull]

/-- Witness for `insert_full_err` at a concrete full map of capacity 1. -/
theorem insert_full_err_witness :
    fullMap1.buckets.length = 1 ∧
      insert idFn 1 fullMap1 7 8 = some (Except.error (7, 8), fullMap1) :=
  ⟨rfl, insert_full_err idFn 1 fullMap1 7 8 rfl⟩

end ClaimC2

section SwapPopLemmas

theorem swapPop_some {α : Type} {l : List α} {i : Nat} {x : α} {l' : List α}
    (h : swapPop l i = some (x, l')) :
    l.get? i = some x ∧ ∃ z, l.get? (l.length - 1) = some z ∧
      l' = (l.set i z).dropLast := by
  unfold swapPop at h
  split at h
  · rename_i x0 z heq1 heq2
    injection h with h'
    injection h' with hx hl
    subst hx; subst hl
    exact ⟨heq1, z, heq2, rfl⟩
  · exact absurd h (by simp)

theorem setDropLast_length {α : Type} (l : List α) (i : Nat) (z : α) :
    ((l.set i z).dropLast).length = l.length - 1 := by
  simp

theorem setDropLast_get?_ne {α : Type} (l : List α) {i j : Nat} (z : α)
    (hj : j < l.length - 1) (hne : j ≠ i) :
    ((l.set i z).dropLast).get? j = l.get? j := by
  rw [List.dropLast_eq_take, List.get?_take (by simpa using hj),
    List.get?_set_ne _ _ (Ne.symm hne)]

theorem setDropLast_get?_self {α : Type} (l : List α) {i : Nat} (z : α)
    (hi : i < l.length - 1) :
    ((l.set i z).dropLast).get? i = some z := by
  rw [List.dropLast_eq_take, List.get?_take (by simpa using hi)]
  have : i < l.length := by omega
  simp [List.get?_eq_getElem?, List.getElem?_set_self, this]

end SwapPopLemmas

section ClaimC10

/-- C10: when `remove_found` deletes the entry at bucket position `fb` of
a store holding `n` entries, the deleted key/value pair is the entry
previously at `fb`; afterwards the store holds `n - 1` entries; if
`fb < n - 1` exactly the entry previously at the last position `n - 1` now
sits at position `fb` and every other position is unchanged; if
`fb = n - 1` every remaining position is unchanged. -/
theorem remove_found_buckets {K V : Type} [DecidableEq K] (cap : Nat)
    (m : Map K V) (fh fb : Nat) (kv : K × V) (m' : Map K V)
    (h : remove_found cap m fh fb = some (kv, m')) :
    ∃ b, m.buckets.get? fb = some b ∧ kv = (b.key, b.value) ∧
      m'.buckets.length = m.buckets.length - 1 ∧
      (fb < m.buckets.length - 1 →
        m'.buckets.get? fb = m.buckets.get? (m.buckets.length - 1) ∧
        ∀ j < m.buckets.length - 1, j ≠ fb →
          m'.buckets.get? j = m.buckets.get? j) ∧
      (fb = m.buckets.length - 1 →
        ∀ j < m.buckets.length - 1, m'.buckets.get? j = m.buckets.get? j) := by
  unfold remove_found at h
  cases hsp : swapPop m.buckets fb with
  | none => rw [hsp] at h; simp at h
  | some dp =>
    obtain ⟨deleted, bs⟩ := dp
    rw [hsp] at h
    simp only at h
    obtain ⟨hget, z, hz, hbs⟩ := swapPop_some hsp
    have hkv : kv = (deleted.key, deleted.value) ∧ m'.buckets = bs := by
      split at h
      · simp at h
      · split at h
        · simp at h
        · injection h with h'
          injection h' with hk hm
          exact ⟨hk.symm, by rw [← hm]⟩
    obtain ⟨hkv1, hbuckets⟩ := hkv
    refine ⟨deleted, hget, ?_, ?_, ?_, ?_⟩
    · exact hkv1
    · rw [hbuckets, hbs]; simp
    · intro hlt
      constructor
      · rw [hbuckets, hbs, setDropLast_get?_self m.buckets z hlt]
        exact hz.symm
      · intro j hj hne
        rw [hbuckets, hbs]
        exact setDropLast_get?_ne _ z hj hne
    · intro heq j hj
      rw [hbuckets, hbs]
      exact setDropLast_get?_ne _ z hj (by omega)

/-- Witness for `remove_found_buckets` on a concrete three-entry map. -/
theorem remove_found_buckets_witness :
    remove_found 4 threeMap4 0 0 = some (((0 : Nat), (10 : Nat)), threeMap4After) ∧
      ∃ b, threeMap4.buckets.get? 0 = some b ∧ ((0 : Nat), (10 : Nat)) = (b.key, b.value) ∧
        threeMap4After.buckets.length = threeMap4.buckets.length - 1 ∧
        (0 < threeMap4.buckets.length - 1 →
          threeMap4After.buckets.get? 0 = threeMap4.buckets.get? (threeMap4.buckets.length - 1) ∧
          ∀ j < threeMap4.buckets.length - 1, j ≠ 0 →
            threeMap4After.buckets.get? j = threeMap4.buckets.get? j) ∧
        (0 = threeMap4.buckets.length - 1 →
          ∀ j < threeMap4.buckets.length - 1,
            threeMap4After.buckets.get? j = threeMap4.buckets.get? j) :=
  ⟨by decide, remove_found_buckets 4 threeMap4 0 0 (0, 10) threeMap4After (by decide)⟩

end ClaimC10

section ClaimC9

theorem countOnesAux_eq_zero {fuel n : Nat} (h : n < 2 ^ fuel) :
    countOnesAux fuel n = 0 ↔ n = 0 := by
  induction fuel generalizing n with
  | zero =>
    simp only [pow_zero, Nat.lt_one_iff] at h
    simp [countOnesAux, h]
  | succ f ih =>
    by_cases h0 : n = 0
    · simp [countOnesAux, h0]
    · rw [countOnesAux, if_neg h0]
      have hdiv : n / 2 < 2 ^ f := by
        rw [pow_succ] at h; omega
      constructor
      · intro he
        have h1 : n % 2 = 0 ∧ countOnesAux f (n / 2) = 0 := by omega
        have h2 : n / 2 = 0 := (ih hdiv).1 h1.2
        omega
      · intro hc; exact absurd hc h0

theorem countOnesAux_eq_one {fuel n : Nat} (h : n < 2 ^ fuel) :
    countOnesAux fuel n = 1 ↔ ∃ k, n = 2 ^ k := by
  induction fuel generalizing n with
  | zero =>
    simp only [pow_zero, Nat.lt_one_iff] at h
    subst h
    simp only [countOnesAux]
    constructor
    · intro h1; exact absurd h1 (by omega)
    · rintro ⟨k, hk⟩
      have h2 : 0 < 2 ^ k := pow_pos (by omega) k
      omega
  | succ f ih =>
    by_cases h0 : n = 0
    · subst h0
      have hz : countOnesAux (f + 1) 0 = 0 := by simp [countOnesAux]
      rw [hz]
      constructor
      · intro h1; exact absurd h1 (by omega)
      · rintro ⟨k, hk⟩
        have h2 : 0 < 2 ^ k := pow_pos (by omega) k
        omega
    · rw [countOnesAux, if_neg h0]
      have hdiv : n / 2 < 2 ^ f := by
        rw [pow_succ] at h; omega
      rcases Nat.mod_two_eq_zero_or_one n with hpar | hpar
      · rw [hpar, Nat.zero_add]
        rw [ih hdiv]
        constructor
        · rintro ⟨k, hk⟩
          refine ⟨k + 1, ?_⟩
          rw [pow_succ]
          omega
        · rintro ⟨k, hk⟩
          cases k with
          | zero => omega
          | succ k' =>
            refine ⟨k', ?_⟩
            rw [pow_succ] at hk
            omega
      · rw [hpar]
        have : ∀ c, 1 + c = 1 ↔ c = 0 := by omega
        rw [this, countOnesAux_eq_zero hdiv]
        constructor
        · intro hd
          exact ⟨0, by omega⟩
        · rintro ⟨k, hk⟩
          cases k with
          | zero => omega
          | succ k' =>
            rw [pow_succ] at hk
            omega

/-- C9 counterexample: capacity `32768` is a power of two that exceeds the
index-width limit `32767` of the standard configuration, yet both
`debug_assert!`s of `Map::new` pass for it (the claim states they must
fail for any capacity exceeding the limit). -/
theorem newDebugAsserts_32768_cx :
    newDebugAsserts 32768 = true ∧ 32767 < 32768 := by
  constructor
  · decide
  · decide

/-- C9 amended: on a 64-bit host the `debug_assert!`s of `Map::new`
accept exactly the power-of-two capacities: the `count_ones() == 1` check
enforces a power of two, while the `(capacity as u32) < u32::MAX` check is
vacuous for powers of two (the truncated value is `2^k` for `k < 32` and
`0` for `k ≥ 32`, never `u32::MAX`).  In particular the index-width limit
`32767` is not enforced. -/
theorem newDebugAsserts_iff_pow2 (cap : Nat) (hcap : cap < 2 ^ 64) :
    newDebugAsserts cap = true ↔ ∃ k, cap = 2 ^ k := by
  unfold newDebugAsserts countOnes
  rw [Bool.and_eq_true, decide_eq_true_eq, beq_iff_eq]
  constructor
  · rintro ⟨-, h1⟩
    exact (countOnesAux_eq_one hcap).1 h1
  · rintro ⟨k, rfl⟩
    refine ⟨?_, (countOnesAux_eq_one hcap).2 ⟨k, rfl⟩⟩
    rcases Nat.lt_or_ge k 32 with hk | hk
    · have h1 : (2 : Nat) ^ k < 4294967296 := by
        calc (2 : Nat) ^ k ≤ 2 ^ 31 := Nat.pow_le_pow_right (by omega) (by omega)
        _ < 4294967296 := by norm_num
      rw [Nat.mod_eq_of_lt h1]
      calc (2 : Nat) ^ k ≤ 2 ^ 31 := Nat.pow_le_pow_right (by omega) (by omega)
      _ < 4294967295 := by norm_num
    · have h1 : (4294967296 : Nat) ∣ 2 ^ k := by
        have : (4294967296 : Nat) = 2 ^ 32 := by norm_num
        rw [this]
        exact pow_dvd_pow 2 hk
      have h2 : 2 ^ k % 4294967296 = 0 := Nat.dvd_iff_mod_eq_zero.mp h1
      rw [h2]
      norm_num

/-- Witness for `newDebugAsserts_iff_pow2` at capacity 8. -/
theorem newDebugAsserts_iff_pow2_witness : newDebugAsserts 8 = true :=
  (newDebugAsserts_iff_pow2 8 (by norm_num)).2 ⟨3, rfl⟩

end ClaimC9

section ClaimC5

/-- C5 counterexample.  In the reachable state `twoMap4` (built by two
inserts below), searching for the absent key `4` (ideal slot 0) visits
slot 1 at travelled distance 1; that slot is occupied and its stored probe
distance, recomputed from its own stored hash, is `0 < 1`, so by the claim
the search must terminate there, i.e. within two probe iterations.  But
`findLoop` with fuel 2 runs out of fuel (`none`): the search continues
past the richer slot and only returns "not found" at the empty slot 2 on
the third iteration. -/
theorem find_no_early_exit_cx :
    run idFn 4 [Op.ins 0 10, Op.ins 1 20] (Map.new Nat Nat 4) = some twoMap4 ∧
    occupiedIdx twoMap4.hash_table 1 ∧
    slotDist 4 twoMap4.hash_table 1 < 1 ∧
    findLoop 4 (hashWith idFn 4) 4 twoMap4.buckets twoMap4.hash_table 2
      (desiredIdx 4 (hashWith idFn 4)) 0 = none ∧
    findLoop 4 (hashWith idFn 4) 4 twoMap4.buckets twoMap4.hash_table 3
      (desiredIdx 4 (hashWith idFn 4)) 0 = some none ∧
    find idFn 4 twoMap4 4 = some none := by
  refine ⟨by decide, by decide, by decide, by decide, by decide, by decide⟩

/-- C5 amended: the comparison `find` performs at a visited occupied slot
is between the travelled distance and the distance of the *searched* hash
at the current position - which along the probe sequence equals the
travelled distance modulo the capacity - so it never terminates the probe
before a full wraparound (for `t < cap` the test is false), and as soon as
the travelled distance reaches `cap` at an occupied slot the probe gives
up and returns "not found". -/
theorem find_guard_is_wraparound {K V : Type} [DecidableEq K] {cap e : Nat}
    (hcap : cap = 2 ^ e) (hash : Nat) (key : K) (bs : List (Bucket K V))
    (ht : List HashIndex) (fuel t : Nat) :
    (t < cap → ¬ (t > hIdxDistance cap hash ((desiredIdx cap hash + t) % cap))) ∧
    (occupiedIdx ht (desiredIdx cap hash) →
      findLoop cap hash key bs ht (fuel + 1) (desiredIdx cap hash) cap = some none) := by
  constructor
  · intro hlt
    rw [dist_probe hcap, Nat.mod_eq_of_lt hlt]
    omega
  · intro hocc
    have hd : hIdxDistance cap hash (desiredIdx cap hash) = 0 := by
      have h0 := dist_probe hcap hash 0
      rwa [probe_zero hcap (desiredIdx_lt hcap hash), Nat.zero_mod] at h0
    rw [findLoop]
    unfold occupiedIdx at hocc
    rw [if_neg (by rw [hocc]; simp), if_pos (by rw [hd]; exact cap_pos hcap)]

/-- Witness for `find_guard_is_wraparound` at a concrete instantiation. -/
theorem find_guard_is_wraparound_witness :
    (1 < 4 → ¬ (1 > hIdxDistance 4 (hashWith idFn 4) ((desiredIdx 4 (hashWith idFn 4) + 1) % 4))) ∧
    (occupiedIdx twoMap4.hash_table (desiredIdx 4 (hashWith idFn 4)) →
      findLoop 4 (hashWith idFn 4) (4 : Nat) twoMap4.buckets twoMap4.hash_table 5
        (desiredIdx 4 (hashWith idFn 4)) 4 = some none) :=
  @find_guard_is_wraparound Nat Nat instDecidableEqNat 4 2 rfl (hashWith idFn 4) 4
    twoMap4.buckets twoMap4.hash_table 4 1

end ClaimC5

section ClaimC3

/-- C3 counterexample.  In the reachable full map `fullMap1` the key `0`
is present, yet `insert` returns `Err((0, 99))` rather than
`Ok(Some(previous value))`: the capacity check precedes the
already-present check, so updating an existing key of a full map fails. -/
theorem insert_present_full_err_cx :
    run idFn 1 [Op.ins 0 5] (Map.new Nat Nat 1) = some fullMap1 ∧
    (∃ b ∈ fullMap1.buckets, b.key = 0) ∧
    insert idFn 1 fullMap1 0 99 = some (Except.error (0, 99), fullMap1) := by
  refine ⟨by decide, ⟨⟨0, 5, 0⟩, by decide, rfl⟩, by rfl⟩

end ClaimC3

section ProbeHelpers

theorem get?_lt_length {α : Type} {l : List α} {i : Nat} {a : α}
    (h : l.get? i = some a) : i < l.length := by
  by_contra hc
  rw [List.get?_eq_none.2 (by omega)] at h
  exact Option.noConfusion h

theorem nodup_key_inj {K V : Type} {bs : List (Bucket K V)}
    (hnd : (bs.map Bucket.key).Nodup) {j j' : Nat} {b b' : Bucket K V}
    (hj : bs.get? j = some b) (hj' : bs.get? j' = some b')
    (hk : b.key = b'.key) : j = j' := by
  have h1 : (bs.map Bucket.key).get? j = some b.key := by
    rw [List.get?_map, hj]; rfl
  have h2 : (bs.map Bucket.key).get? j' = some b'.key := by
    rw [List.get?_map, hj']; rfl
  have hlt : j < (bs.map Bucket.key).length := by
    rw [List.length_map]; exact get?_lt_length hj
  exact List.get?_inj hlt hnd (by rw [h1, h2, hk])

/-- Probe distance one step forward: advancing the position by one
advances the distance by one, modulo the capacity. -/
theorem hIdxDistance_succ {cap e : Nat} (hcap : cap = 2 ^ e) (h q : Nat)
    (hq : q < cap) :
    hIdxDistance cap h (stepIdx cap q) = (hIdxDistance cap h q + 1) % cap := by
  have h1 := probe_reconstruct hcap h q hq
  conv_lhs => rw [← h1]
  rw [step_probe hcap, dist_probe hcap]

/-- Probe distance one step backward: if the distance at the successor
position is positive, the distance at the current position is one less. -/
theorem hIdxDistance_back {cap e : Nat} (hcap : cap = 2 ^ e) (h q : Nat)
    (hq : q < cap) (hpos : 0 < hIdxDistance cap h (stepIdx cap q)) :
    hIdxDistance cap h q = hIdxDistance cap h (stepIdx cap q) - 1 := by
  have h1 := hIdxDistance_succ hcap h q hq
  have h2 : hIdxDistance cap h q < cap := hIdxDistance_lt hcap h q
  rcases Nat.lt_or_ge (hIdxDistance cap h q + 1) cap with hlt | hge
  · rw [Nat.mod_eq_of_lt hlt] at h1; omega
  · have h3 : hIdxDistance cap h q + 1 = cap := by omega
    rw [h3, Nat.mod_self] at h1; omega

/-- Every position is reached by some offset below `cap` along a probe
sequence. -/
theorem probe_offset {cap e : Nat} (hcap : cap = 2 ^ e) {s q : Nat}
    (hs : s < cap) (hq : q < cap) : ∃ j < cap, (s + j) % cap = q := by
  rcases le_or_lt s q with hle | hgt
  · exact ⟨q - s, by omega, by rw [Nat.add_sub_cancel' hle, Nat.mod_eq_of_lt hq]⟩
  · refine ⟨cap + q - s, by omega, ?_⟩
    have h1 : s + (cap + q - s) = cap + q := by omega
    rw [h1, Nat.add_comm cap q, Nat.add_mod_right, Nat.mod_eq_of_lt hq]

end ProbeHelpers

section CardinalityLemmas

/-- If every slot of the table is occupied then the bucket store has at
least `cap` entries (each occupied slot references a distinct live
bucket). -/
theorem all_occ_imp_len {K V : Type} {cap : Nat} {bs : List (Bucket K V)}
    {ht : List HashIndex}
    (hrefOk : ∀ i < cap, occupiedIdx ht i →
      ∃ b, bs.get? (slotRef ht i) = some b ∧ slotHash ht i = b.hash)
    (hinj : ∀ i < cap, ∀ i' < cap, occupiedIdx ht i → occupiedIdx ht i' →
      slotRef ht i = slotRef ht i' → i = i')
    (hall : ∀ i < cap, occupiedIdx ht i) : cap ≤ bs.length := by
  have hmaps : ∀ i ∈ Finset.range cap, slotRef ht i ∈ Finset.range bs.length := by
    intro i hi
    rw [Finset.mem_range] at hi ⊢
    obtain ⟨b, hb, -⟩ := hrefOk i hi (hall i hi)
    exact get?_lt_length hb
  have hinj' : Set.InjOn (slotRef ht) (Finset.range cap) := by
    intro i hi i' hi' heq
    rw [Finset.coe_range, Set.mem_Iio] at hi hi'
    exact hinj i hi i' hi' (hall i hi) (hall i' hi') heq
  have := Finset.card_le_card_of_injOn (slotRef ht) hmaps hinj'
  simpa using this

/-- The contiguous probe path of an occupied slot: walking back from the
slot toward the ideal position of its stored hash, every position is
occupied and sits at probe distance at least its offset from the ideal
position. -/
theorem rh_path {cap e : Nat} (hcap : cap = 2 ^ e) {ht : List HashIndex}
    (hrh : ∀ q < cap, occupiedIdx ht (stepIdx cap q) →
      0 < slotDist cap ht (stepIdx cap q) →
      occupiedIdx ht q ∧
        slotDist cap ht (stepIdx cap q) ≤ slotDist cap ht q + 1)
    {i : Nat} (hi : i < cap) (hocc : occupiedIdx ht i) :
    ∀ t, t ≤ slotDist cap ht i →
      occupiedIdx ht ((desiredIdx cap (slotHash ht i) + t) % cap) ∧
      t ≤ slotDist cap ht ((desiredIdx cap (slotHash ht i) + t) % cap) := by
  have hrec : (desiredIdx cap (slotHash ht i) + slotDist cap ht i) % cap = i :=
    probe_reconstruct hcap _ i hi
  intro t htle
  obtain ⟨k, hk⟩ : ∃ k, t + k = slotDist cap ht i := ⟨slotDist cap ht i - t, by omega⟩
  clear htle
  induction k generalizing t with
  | zero =>
    have h1 : t = slotDist cap ht i := by omega
    subst h1
    rw [hrec]
    exact ⟨hocc, le_refl _⟩
  | succ k ih =>
    have hnext := ih (t + 1) (by omega)
    have hstep : stepIdx cap ((desiredIdx cap (slotHash ht i) + t) % cap) =
        (desiredIdx cap (slotHash ht i) + (t + 1)) % cap := step_probe hcap _ _
    have hq : (desiredIdx cap (slotHash ht i) + t) % cap < cap := probe_lt hcap _ _
    have h2 := hrh _ hq (by rw [hstep]; exact hnext.1)
      (by rw [hstep]; omega)
    exact ⟨h2.1, by rw [hstep] at h2; omega⟩

/-- An occupied slot's probe distance is below the number of live
buckets: the positions of its probe path are distinct occupied slots
referencing distinct buckets. -/
theorem occ_dist_lt_len {K V : Type} {cap e : Nat} (hcap : cap = 2 ^ e)
    {bs : List (Bucket K V)} {ht : List HashIndex}
    (hrefOk : ∀ i < cap, occupiedIdx ht i →
      ∃ b, bs.get? (slotRef ht i) = some b ∧ slotHash ht i = b.hash)
    (hinj : ∀ i < cap, ∀ i' < cap, occupiedIdx ht i → occupiedIdx ht i' →
      slotRef ht i = slotRef ht i' → i = i')
    (hrh : ∀ q < cap, occupiedIdx ht (stepIdx cap q) →
      0 < slotDist cap ht (stepIdx cap q) →
      occupiedIdx ht q ∧
        slotDist cap ht (stepIdx cap q) ≤ slotDist cap ht q + 1)
    {i : Nat} (hi : i < cap) (hocc : occupiedIdx ht i) :
    slotDist cap ht i < bs.length := by
  set D := slotDist cap ht i with hD
  set d := desiredIdx cap (slotHash ht i) with hd
  have hpath := rh_path hcap hrh hi hocc
  have hmaps : ∀ t ∈ Finset.range (D + 1),
      slotRef ht ((d + t) % cap) ∈ Finset.range bs.length := by
    intro t htm
    rw [Finset.mem_range] at htm ⊢
    obtain ⟨b, hb, -⟩ := hrefOk _ (probe_lt hcap d t) (hpath t (by omega)).1
    exact get?_lt_length hb
  have hinj' : Set.InjOn (fun t => slotRef ht ((d + t) % cap))
      (Finset.range (D + 1)) := by
    intro t htm t' htm' heq
    rw [Finset.coe_range, Set.mem_Iio] at htm htm'
    have hD' : D < cap := hIdxDistance_lt hcap _ _
    have h1 := hinj _ (probe_lt hcap d t) _ (probe_lt hcap d t')
      (hpath t (by omega)).1 (hpath t' (by omega)).1 heq
    exact probe_inj hcap (by omega) (by omega) h1
  have hcard := Finset.card_le_card_of_injOn _ hmaps hinj'
  simpa using hcard

end CardinalityLemmas

section FindCorrect

variable {K V : Type} [DecidableEq K]

theorem findLoop_present {cap e : Nat} (hcap : cap = 2 ^ e)
    {hashFn : K → Nat} {m : Map K V} (hInv : Inv hashFn cap m)
    {j : Nat} {b : Bucket K V} (hj : m.buckets.get? j = some b)
    {i : Nat} (hi : i < cap) (hocc : occupiedIdx m.hash_table i)
    (href : slotRef m.hash_table i = j) :
    ∀ fuel u, slotDist cap m.hash_table i + 1 ≤ u + fuel →
      u ≤ slotDist cap m.hash_table i →
      findLoop cap (slotHash m.hash_table i) b.key m.buckets m.hash_table fuel
        ((desiredIdx cap (slotHash m.hash_table i) + u) % cap) u =
        some (some (i, j)) := by
  set D := slotDist cap m.hash_table i with hD
  set h := slotHash m.hash_table i with hh
  set d := desiredIdx cap h with hd
  have hDlt : D < cap := hIdxDistance_lt hcap _ _
  intro fuel
  induction fuel with
  | zero => intro u hfu hu; omega
  | succ f ih =>
    intro u hfu hu
    have hplt : (d + u) % cap < cap := probe_lt hcap _ _
    have hguard : hIdxDistance cap h ((d + u) % cap) = u := by
      rw [hd, dist_probe hcap, Nat.mod_eq_of_lt (by omega)]
    rcases Nat.eq_or_lt_of_le hu with heq | hlt
    · -- at the target slot
      have hpi : (d + u) % cap = i := by
        rw [heq, hD, hd, hh]
        exact probe_reconstruct hcap _ i hi
      rw [findLoop, hpi]
      rw [if_neg (by unfold occupiedIdx at hocc; rw [hocc]; simp)]
      rw [if_neg (by rw [← hpi, hguard]; omega)]
      rw [if_pos (show (m.hash_table.getD i emptyHI).hash = h from by rw [hh]; rfl)]
      unfold slotRef at href
      rw [href, hj]
      simp
    · -- on the path, before the target slot
      have hpath := rh_path hcap hInv.rh hi hocc u (by omega)
      rw [← hh, ← hd] at hpath
      have hpocc : occupiedIdx m.hash_table ((d + u) % cap) := hpath.1
      rw [findLoop]
      rw [if_neg (by unfold occupiedIdx at hpocc; rw [hpocc]; simp)]
      rw [if_neg (by rw [hguard]; omega)]
      have hcont : findLoop cap h b.key m.buckets m.hash_table f
          (stepIdx cap ((d + u) % cap)) (u + 1) = some (some (i, j)) := by
        rw [step_probe hcap]
        exact ih (u + 1) (by omega) (by omega)
      by_cases hhash : (m.hash_table.getD ((d + u) % cap) emptyHI).hash = h
      · rw [if_pos hhash]
        obtain ⟨b', hb', hbh⟩ := hInv.refOk _ hplt hpocc
        unfold slotRef at hb'
        rw [hb']
        dsimp only
        have hbk : ¬ b'.key = b.key := by
          intro hk
          have hjj := nodup_key_inj hInv.nodup hb' hj hk
          have hpi := hInv.inj _ hplt i hi hpocc hocc (by
            unfold slotRef; rw [hjj]; exact href.symm)
          rw [hpi, hh] at hguard
          have : slotDist cap m.hash_table i = u := hguard
          omega
        rw [if_neg hbk]
        exact hcont
      · rw [if_neg hhash]
        exact hcont

theorem findLoop_absent {cap e : Nat} (hcap : cap = 2 ^ e)
    {hashFn : K → Nat} {m : Map K V} (hInv : Inv hashFn cap m)
    {k : K} (hk : ∀ b ∈ m.buckets, ¬ b.key = k) :
    ∀ fuel u, u + fuel = cap + 1 → u ≤ cap →
      findLoop cap (hashWith hashFn k) k m.buckets m.hash_table fuel
        ((desiredIdx cap (hashWith hashFn k) + u) % cap) u = some none := by
  set h := hashWith hashFn k with hh
  set d := desiredIdx cap h with hd
  intro fuel
  induction fuel with
  | zero => intro u hfu hule; omega
  | succ f ih =>
    intro u hfu hule
    set p := (d + u) % cap with hp
    have hplt : p < cap := probe_lt hcap _ _
    rw [findLoop]
    by_cases hocc : occupiedIdx m.hash_table p
    · rw [if_neg (by unfold occupiedIdx at hocc; rw [hocc]; simp)]
      rcases Nat.lt_or_ge u cap with hu | hu
      · have hguard : hIdxDistance cap h p = u := by
          rw [hp, hd, dist_probe hcap, Nat.mod_eq_of_lt hu]
        rw [if_neg (by rw [hguard]; omega)]
        have hcont : findLoop cap h k m.buckets m.hash_table f
            (stepIdx cap p) (u + 1) = some none := by
          have hstep : stepIdx cap p = (d + (u + 1)) % cap := by
            rw [hp]; exact step_probe hcap _ _
          rw [hstep]
          exact ih (u + 1) (by omega) (by omega)
        by_cases hhash : (m.hash_table.getD p emptyHI).hash = h
        · rw [if_pos hhash]
          obtain ⟨b', hb', -⟩ := hInv.refOk p hplt hocc
          unfold slotRef at hb'
          rw [hb']
          dsimp only
          rw [if_neg (hk b' (List.get?_mem hb'))]
          exact hcont
        · rw [if_neg hhash]
          exact hcont
      · have hu' : u = cap := by omega
        have hguard : hIdxDistance cap h p = 0 := by
          rw [hp, hu', hd, dist_probe hcap, Nat.mod_self]
        rw [if_pos (by rw [hguard]; have := cap_pos hcap; omega)]
    · rw [if_pos (by
        unfold occupiedIdx at hocc
        simp only [Bool.not_eq_false] at hocc
        exact hocc)]

/-- Under the invariant, `find` locates every stored bucket: for the
bucket at store position `j` it returns `some (some (i, j))` where `i` is
the unique slot referencing `j`. -/
theorem find_present {cap e : Nat} (hcap : cap = 2 ^ e)
    {hashFn : K → Nat} {m : Map K V} (hInv : Inv hashFn cap m)
    {j : Nat} {b : Bucket K V} (hj : m.buckets.get? j = some b) :
    ∃ i, i < cap ∧ occupiedIdx m.hash_table i ∧ slotRef m.hash_table i = j ∧
      find hashFn cap m b.key = some (some (i, j)) := by
  have hjlt : j < m.buckets.length := get?_lt_length hj
  obtain ⟨i, hi, hocc, href⟩ := hInv.surj j hjlt
  refine ⟨i, hi, hocc, href, ?_⟩
  have hbmem : b ∈ m.buckets := List.get?_mem hj
  have hbh : b.hash = hashWith hashFn b.key := hInv.bHash b hbmem
  have hsh : slotHash m.hash_table i = hashWith hashFn b.key := by
    obtain ⟨b', hb', hbh'⟩ := hInv.refOk i hi hocc
    rw [href] at hb'
    rw [hj] at hb'
    injection hb' with hbb
    rw [hbh', ← hbb]
    exact hbh
  unfold find
  rw [if_neg (by omega)]
  have h0 := findLoop_present hcap hInv hj hi hocc href (cap + 1) 0
    (by unfold slotDist
        have := hIdxDistance_lt hcap (slotHash m.hash_table i) i
        omega)
    (by omega)
  rw [hsh] at h0
  rw [← h0]
  congr 1
  rw [probe_zero hcap (desiredIdx_lt hcap _)]

/-- Under the invariant, `find` reports an absent key as `some none`. -/
theorem find_absent {cap e : Nat} (hcap : cap = 2 ^ e)
    {hashFn : K → Nat} {m : Map K V} (hInv : Inv hashFn cap m)
    {k : K} (hk : ∀ b ∈ m.buckets, ¬ b.key = k) :
    find hashFn cap m k = some none := by
  unfold find
  by_cases hlen : m.buckets.length = 0
  · rw [if_pos hlen]
  · rw [if_neg hlen]
    have h0 := findLoop_absent hcap hInv hk (cap + 1) 0 (by omega) (by omega)
    rw [← h0]
    congr 1
    rw [probe_zero hcap (desiredIdx_lt hcap _)]

/-- Under the invariant, `get` returns the stored value of a present
key. -/
theorem get_present {cap e : Nat} (hcap : cap = 2 ^ e)
    {hashFn : K → Nat} {m : Map K V} (hInv : Inv hashFn cap m)
    {j : Nat} {b : Bucket K V} (hj : m.buckets.get? j = some b) :
    get hashFn cap m b.key = some (some b.value) := by
  obtain ⟨i, -, -, -, hfind⟩ := find_present hcap hInv hj
  unfold get
  rw [hfind]
  dsimp only
  rw [hj]

/-- Under the invariant, `get` reports an absent key as `some none`. -/
theorem get_absent {cap e : Nat} (hcap : cap = 2 ^ e)
    {hashFn : K → Nat} {m : Map K V} (hInv : Inv hashFn cap m)
    {k : K} (hk : ∀ b ∈ m.buckets, ¬ b.key = k) :
    get hashFn cap m k = some none := by
  unfold get
  rw [find_absent hcap hInv hk]

end FindCorrect

section SegmentHelpers

theorem probe_shift (cap s a b : Nat) :
    ((s + a) % cap + b) % cap = (s + (a + b)) % cap := by
  rw [Nat.mod_add_mod, Nat.add_assoc]

theorem stepIdx_inj {cap e : Nat} (hcap : cap = 2 ^ e) {i i' : Nat}
    (hi : i < cap) (hi' : i' < cap) (h : stepIdx cap i = stepIdx cap i') :
    i = i' := by
  rw [stepIdx_eq hcap, stepIdx_eq hcap] at h
  have h1 : i % cap = i' % cap := Nat.ModEq.add_right_cancel' 1 h
  rwa [Nat.mod_eq_of_lt hi, Nat.mod_eq_of_lt hi'] at h1

theorem occ_of_hash_lt {ht : List HashIndex} {i h : Nat}
    (hh : (ht.getD i emptyHI).hash = h) (hlt : h < 32768) :
    occupiedIdx ht i := by
  unfold occupiedIdx HashIndex.emptySlot
  simp only [beq_eq_false_iff_ne, ne_eq]
  unfold SENTINEL
  omega

theorem slotHash_congr {ht' ht : List HashIndex} {i q : Nat}
    (h : ht'.getD i emptyHI = ht.getD q emptyHI) :
    slotHash ht' i = slotHash ht q := by
  unfold slotHash; rw [h]

theorem slotRef_congr {ht' ht : List HashIndex} {i q : Nat}
    (h : ht'.getD i emptyHI = ht.getD q emptyHI) :
    slotRef ht' i = slotRef ht q := by
  unfold slotRef; rw [h]

theorem occ_congr {ht' ht : List HashIndex} {i q : Nat}
    (h : ht'.getD i emptyHI = ht.getD q emptyHI) :
    occupiedIdx ht' i ↔ occupiedIdx ht q := by
  unfold occupiedIdx; rw [h]

/-- When the bucket store has `cap - 1` entries, the empty slot is
unique. -/
theorem unique_empty {K V : Type} {cap : Nat} {bs : List (Bucket K V)}
    {ht : List HashIndex}
    (hsurj : ∀ j < bs.length, ∃ i, i < cap ∧ occupiedIdx ht i ∧
      slotRef ht i = j)
    (hlen : bs.length + 1 = cap) {p q : Nat} (hp : p < cap) (hq : q < cap)
    (hpe : ¬ occupiedIdx ht p) (hqe : ¬ occupiedIdx ht q) : p = q := by
  by_contra hne
  have hsub : (Finset.range cap).filter (fun i => occupiedIdx ht i) ⊆
      (Finset.range cap) \ {p, q} := by
    intro i hi
    rw [Finset.mem_filter] at hi
    rw [Finset.mem_sdiff]
    refine ⟨hi.1, ?_⟩
    intro hmem
    rw [Finset.mem_insert, Finset.mem_singleton] at hmem
    rcases hmem with rfl | rfl
    · exact hpe hi.2
    · exact hqe hi.2
  have hcard1 : ((Finset.range cap) \ {p, q}).card = cap - 2 := by
    rw [Finset.card_sdiff]
    · rw [Finset.card_range, Finset.card_insert_of_not_mem (by
        rw [Finset.mem_singleton]; exact hne), Finset.card_singleton]
    · intro i hi
      rw [Finset.mem_insert, Finset.mem_singleton] at hi
      rw [Finset.mem_range]
      rcases hi with rfl | rfl
      · exact hp
      · exact hq
  have hsurj' : Set.SurjOn (slotRef ht)
      ((Finset.range cap).filter (fun i => occupiedIdx ht i))
      (Finset.range bs.length) := by
    intro j hj
    rw [Finset.coe_range, Set.mem_Iio] at hj
    obtain ⟨i, hi, hocc, href⟩ := hsurj j hj
    refine ⟨i, ?_, href⟩
    rw [Finset.coe_filter]
    exact ⟨Finset.mem_range.2 hi, hocc⟩
  have hcard2 := Finset.card_le_card_of_surjOn _ hsurj'
  have hcard3 := Finset.card_le_card hsub
  rw [Finset.card_range] at hcard2
  omega

/-- The effect of the displacement chain: with `jstar` the first empty
offset ahead of `s`, the segment `s .. s + jstar` rotates forward by one
with the incoming record placed at `s`, and the rest of the table is
unchanged. -/
theorem displaceLoop_spec {cap e : Nat} (hcap : cap = 2 ^ e) :
    ∀ jstar (ht : List HashIndex) fuel s x, ht.length = cap → s < cap →
      jstar < cap → jstar < fuel →
      (∀ i2 < jstar, occupiedIdx ht ((s + i2) % cap)) →
      ¬ occupiedIdx ht ((s + jstar) % cap) →
      ∃ ht', displaceLoop cap fuel s x ht = some ht' ∧ ht'.length = cap ∧
        (∀ i2 ≤ jstar, ht'.getD ((s + i2) % cap) emptyHI =
          if i2 = 0 then x else ht.getD ((s + (i2 - 1)) % cap) emptyHI) ∧
        (∀ q < cap, (∀ i2 ≤ jstar, q ≠ (s + i2) % cap) →
          ht'.getD q emptyHI = ht.getD q emptyHI) := by
  intro jstar
  induction jstar with
  | zero =>
    intro ht fuel s x hlen hs hjc hjf hall hempty
    rw [probe_zero hcap hs] at hempty
    obtain ⟨f, rfl⟩ : ∃ f, fuel = f + 1 := ⟨fuel - 1, by omega⟩
    rw [displaceLoop]
    rw [if_pos (by
      unfold occupiedIdx at hempty
      simp only [Bool.not_eq_false] at hempty
      exact hempty)]
    refine ⟨ht.set s x, rfl, by simp [hlen], ?_, ?_⟩
    · intro i2 hi2
      have h0 : i2 = 0 := by omega
      subst h0
      rw [probe_zero hcap hs, if_pos rfl]
      exact getD_set_self _ _ _ _ (by omega)
    · intro q hqlt hq
      have hqs : q ≠ s := by
        have := hq 0 (le_refl 0)
        rwa [probe_zero hcap hs] at this
      exact getD_set_ne _ _ _ (Ne.symm hqs)
  | succ js ih =>
    intro ht fuel s x hlen hs hjc hjf hall hempty
    obtain ⟨f, rfl⟩ : ∃ f, fuel = f + 1 := ⟨fuel - 1, by omega⟩
    have hocc0 : occupiedIdx ht s := by
      have := hall 0 (by omega)
      rwa [probe_zero hcap hs] at this
    rw [displaceLoop]
    rw [if_neg (by unfold occupiedIdx at hocc0; rw [hocc0]; simp)]
    have hs' : stepIdx cap s = (s + 1) % cap := stepIdx_eq hcap s
    have hdistinct : ∀ a < cap, ∀ b < cap, a ≠ b →
        (s + a) % cap ≠ (s + b) % cap := by
      intro a ha b hb hab heq
      exact hab (probe_inj hcap ha hb heq)
    -- apply the induction hypothesis to the shifted call
    have hstep := ih (ht.set s x) f ((s + 1) % cap) (ht.getD s emptyHI)
      (by simp [hlen]) (probe_lt hcap s 1) (by omega) (by omega)
      (by
        intro i2 hi2
        rw [probe_shift]
        have hne : (s + (1 + i2)) % cap ≠ s := by
          have := hdistinct (1 + i2) (by omega) 0 (by omega) (by omega)
          rwa [probe_zero hcap hs] at this
        rw [occ_congr (getD_set_ne _ _ _ (Ne.symm hne))]
        exact hall (1 + i2) (by omega))
      (by
        rw [probe_shift]
        have hne : (s + (1 + js)) % cap ≠ s := by
          have := hdistinct (1 + js) (by omega) 0 (by omega) (by omega)
          rwa [probe_zero hcap hs] at this
        rw [occ_congr (getD_set_ne _ _ _ (Ne.symm hne))]
        have h1 : 1 + js = js + 1 := by omega
        rw [h1]
        exact hempty)
    obtain ⟨ht', hrun, hlen', hseg, hout⟩ := hstep
    rw [hs']
    refine ⟨ht', hrun, hlen', ?_, ?_⟩
    · intro i2 hi2
      rcases Nat.eq_zero_or_pos i2 with rfl | hpos
      · rw [if_pos rfl, probe_zero hcap hs]
        have hsout : ∀ i3 ≤ js, s ≠ ((s + 1) % cap + i3) % cap := by
          intro i3 hi3
          rw [probe_shift]
          have := hdistinct 0 (by omega) (1 + i3) (by omega) (by omega)
          rwa [probe_zero hcap hs] at this
        rw [hout s hs hsout]
        exact getD_set_self _ _ _ _ (by omega)
      · rw [if_neg (by omega)]
        have hrewrite : (s + i2) % cap = ((s + 1) % cap + (i2 - 1)) % cap := by
          rw [probe_shift]
          congr 1
          omega
        rw [hrewrite]
        rw [hseg (i2 - 1) (by omega)]
        rcases Nat.eq_or_lt_of_le hpos with h1 | h1
        · have h2 : i2 - 1 = 0 := by omega
          rw [if_pos h2, h2, probe_zero hcap hs]
        · rw [if_neg (by omega)]
          rw [probe_shift]
          have harg : 1 + (i2 - 1 - 1) = i2 - 1 := by omega
          rw [harg]
          have hne : (s + (i2 - 1)) % cap ≠ s := by
            have := hdistinct (i2 - 1) (by omega) 0 (by omega) (by omega)
            rwa [probe_zero hcap hs] at this
          exact getD_set_ne _ _ _ (Ne.symm hne)
    · intro q hqlt hq
      have hqs : q ≠ s := by
        have := hq 0 (by omega)
        rwa [probe_zero hcap hs] at this
      have hqout : ∀ i3 ≤ js, q ≠ ((s + 1) % cap + i3) % cap := by
        intro i3 hi3
        rw [probe_shift]
        exact hq (1 + i3) (by omega)
      rw [hout q hqlt hqout]
      exact getD_set_ne _ _ _ (Ne.symm hqs)

end SegmentHelpers

section InsertCase1

/-- Invariant preservation for case 1 of `insert`: the probe found an
empty slot at travelled distance `u` and the new record is placed
there. -/
theorem insert_case1_inv {K V : Type} [DecidableEq K] {cap e : Nat}
    (hcap : cap = 2 ^ e)
    {hashFn : K → Nat} {m : Map K V} (hInv : Inv hashFn cap m)
    {k : K} (v : V) (habs : ∀ b ∈ m.buckets, ¬ b.key = k)
    (hlen : m.buckets.length < cap) {u : Nat} (hu : u < cap)
    (hall : ∀ u' < u, occupiedIdx m.hash_table
        ((desiredIdx cap (hashWith hashFn k) + u') % cap) ∧
      u' ≤ slotDist cap m.hash_table
        ((desiredIdx cap (hashWith hashFn k) + u') % cap))
    (hempty : ¬ occupiedIdx m.hash_table
      ((desiredIdx cap (hashWith hashFn k) + u) % cap)) :
    Inv hashFn cap ⟨m.buckets ++ [⟨k, v, hashWith hashFn k⟩],
      m.hash_table.set ((desiredIdx cap (hashWith hashFn k) + u) % cap)
        ⟨hashWith hashFn k, m.buckets.length⟩⟩ := by
  set h := hashWith hashFn k with hh
  set d := desiredIdx cap h with hd
  set p := (d + u) % cap with hp
  set n := m.buckets.length with hn
  set T := m.hash_table.set p ⟨h, n⟩ with hT
  set B := m.buckets ++ [(⟨k, v, h⟩ : Bucket K V)] with hB
  have hplt : p < cap := probe_lt hcap _ _
  have hhlt : h < 32768 := hashWith_lt hashFn k
  have hTp : T.getD p emptyHI = ⟨h, n⟩ := by
    rw [hT]; exact getD_set_self _ _ _ _ (by rw [hInv.htLen]; exact hplt)
  have hTq : ∀ q, q ≠ p → T.getD q emptyHI = m.hash_table.getD q emptyHI := by
    intro q hq
    rw [hT]; exact getD_set_ne _ _ _ (Ne.symm hq)
  have hToccp : occupiedIdx T p := occ_of_hash_lt (by rw [hTp]) hhlt
  have hTdp : slotDist cap T p = u := by
    unfold slotDist slotHash
    rw [hTp]
    rw [hp, hd, dist_probe hcap, Nat.mod_eq_of_lt hu]
  have hBget : ∀ j, j < n → B.get? j = m.buckets.get? j := by
    intro j hj
    rw [hB]; exact List.get?_append hj
  have hBn : B.get? n = some ⟨k, v, h⟩ := by
    rw [hB, hn]; exact List.get?_concat_length _ _
  have hBlen : B.length = n + 1 := by rw [hB]; simp
  constructor
  · -- htLen
    rw [hT]; simp [hInv.htLen]
  · -- bsLen
    rw [hBlen]; omega
  · -- bHash
    intro b hb
    rw [hB, List.mem_append] at hb
    rcases hb with hb | hb
    · exact hInv.bHash b hb
    · rw [List.mem_singleton] at hb
      subst hb
      rfl
  · -- nodup
    rw [hB, List.map_append, List.nodup_append]
    refine ⟨hInv.nodup, by simp, ?_⟩
    intro a ha hmem
    simp only [List.map_singleton, List.mem_singleton] at hmem
    subst hmem
    rw [List.mem_map] at ha
    obtain ⟨b, hb, hbk⟩ := ha
    exact habs b hb hbk
  · -- refOk
    intro i hi hocc
    by_cases hip : i = p
    · subst hip
      refine ⟨⟨k, v, h⟩, ?_, ?_⟩
      · unfold slotRef
        rw [hTp]
        exact hBn
      · unfold slotHash
        rw [hTp]
    · rw [occ_congr (hTq i hip)] at hocc
      obtain ⟨b, hb, hbh⟩ := hInv.refOk i hi hocc
      refine ⟨b, ?_, ?_⟩
      · rw [slotRef_congr (hTq i hip), hBget _ (get?_lt_length hb)]
        exact hb
      · rw [slotHash_congr (hTq i hip)]
        exact hbh
  · -- surj
    intro j hj
    rw [hBlen] at hj
    rcases Nat.lt_or_ge j n with hjn | hjn
    · obtain ⟨i, hi, hocc, href⟩ := hInv.surj j hjn
      have hip : i ≠ p := by
        intro hip
        rw [hip] at hocc
        exact hempty hocc
      refine ⟨i, hi, ?_, ?_⟩
      · rw [occ_congr (hTq i hip)]; exact hocc
      · rw [slotRef_congr (hTq i hip)]; exact href
    · have hjn' : j = n := by omega
      subst hjn'
      refine ⟨p, hplt, hToccp, ?_⟩
      unfold slotRef
      rw [hTp]
  · -- inj
    intro i hi i' hi' hocc hocc' href
    by_cases hip : i = p
    · by_cases hip' : i' = p
      · rw [hip, hip']
      · exfalso
        rw [occ_congr (hTq i' hip')] at hocc'
        obtain ⟨b, hb, -⟩ := hInv.refOk i' hi' hocc'
        have h1 : slotRef T i = n := by unfold slotRef; rw [hip, hTp]
        rw [h1, slotRef_congr (hTq i' hip')] at href
        have h2 := get?_lt_length hb
        rw [← href] at h2
        omega
    · by_cases hip' : i' = p
      · exfalso
        rw [occ_congr (hTq i hip)] at hocc
        obtain ⟨b, hb, -⟩ := hInv.refOk i hi hocc
        have h1 : slotRef T i' = n := by unfold slotRef; rw [hip', hTp]
        rw [h1, slotRef_congr (hTq i hip)] at href
        have h2 := get?_lt_length hb
        rw [href] at h2
        omega
      · rw [occ_congr (hTq i hip)] at hocc
        rw [occ_congr (hTq i' hip')] at hocc'
        rw [slotRef_congr (hTq i hip), slotRef_congr (hTq i' hip')] at href
        exact hInv.inj i hi i' hi' hocc hocc' href
  · -- rh
    intro q hq hoccs hds
    by_cases hsp : stepIdx cap q = p
    · -- the successor is the freshly filled slot
      rw [hsp] at hoccs hds ⊢
      rw [hTdp] at hds ⊢
      have hq1 : q = (d + (u - 1)) % cap := by
        have h1 : stepIdx cap ((d + (u - 1)) % cap) = (d + (u - 1 + 1)) % cap :=
          step_probe hcap _ _
        have h2 : u - 1 + 1 = u := by omega
        rw [h2] at h1
        rw [← hp] at h1
        exact stepIdx_inj hcap hq (probe_lt hcap _ _) (by rw [hsp, h1])
      have hqp : q ≠ p := by
        rw [hq1, hp]
        intro heq
        have := probe_inj hcap (by omega) hu heq
        omega
      have hold := hall (u - 1) (by omega)
      rw [← hq1] at hold
      refine ⟨?_, ?_⟩
      · rw [occ_congr (hTq q hqp)]
        exact hold.1
      · have hTd : slotDist cap T q = slotDist cap m.hash_table q := by
          unfold slotDist
          rw [slotHash_congr (hTq q hqp)]
        rw [hTd]
        omega
    · -- the successor slot is unchanged
      rw [occ_congr (hTq _ hsp)] at hoccs
      have hds' : 0 < slotDist cap m.hash_table (stepIdx cap q) := by
        have := slotHash_congr (hTq _ hsp)
        unfold slotDist at hds ⊢
        rwa [this] at hds
      have hold := hInv.rh q hq hoccs hds'
      by_cases hqp : q = p
      · exfalso
        rw [hqp] at hold
        exact hempty hold.1
      · refine ⟨?_, ?_⟩
        · rw [occ_congr (hTq q hqp)]
          exact hold.1
        · unfold slotDist
          rw [slotHash_congr (hTq _ hsp), slotHash_congr (hTq q hqp)]
          exact hold.2
  · -- fullZ
    intro hfull
    rw [hBlen] at hfull
    rcases Nat.eq_zero_or_pos u with hu0 | hu0
    · exact ⟨p, hplt, hToccp, by rw [hTdp, hu0]⟩
    · -- the slot after the filled one is occupied at distance zero
      have hcap2 : 2 ≤ cap := by omega
      set W := stepIdx cap p with hW
      have hWlt : W < cap := by
        rw [hW, stepIdx_eq hcap]
        exact Nat.mod_lt _ (by omega)
      have hWp : W ≠ p := by
        intro heq
        rw [hW, stepIdx_eq hcap] at heq
        have h1 : (p + 1) % cap = (p + 1) % cap := rfl
        have h2 : p + 1 < cap ∨ p + 1 = cap := by omega
        rcases h2 with h2 | h2
        · rw [Nat.mod_eq_of_lt h2] at heq; omega
        · rw [h2, Nat.mod_self] at heq; omega
      have hWocc : occupiedIdx m.hash_table W := by
        by_contra hWe
        exact hWp (unique_empty hInv.surj (by omega) hWlt hplt hWe hempty)
      have hWd : slotDist cap m.hash_table W = 0 := by
        by_contra hWd
        have := hInv.rh p hplt (by rw [← hW]; exact hWocc)
          (by rw [← hW]; omega)
        exact hempty this.1
      refine ⟨W, hWlt, ?_, ?_⟩
      · rw [occ_congr (hTq W hWp)]
        exact hWocc
      · unfold slotDist
        rw [slotHash_congr (hTq W hWp)]
        exact hWd

end InsertCase1

section InsertCase2

/-- Invariant preservation for case 2 of `insert`: at travelled distance
`u` the probe met an occupant with a smaller stored probe distance, and
the displacement chain rotated the segment up to the first empty slot
(`jstar` positions ahead) forward by one, placing the new record at the
segment's start. -/
theorem insert_case2_inv {K V : Type} [DecidableEq K] {cap e : Nat}
    (hcap : cap = 2 ^ e)
    {hashFn : K → Nat} {m : Map K V} (hInv : Inv hashFn cap m)
    {k : K} (v : V) (habs : ∀ b ∈ m.buckets, ¬ b.key = k)
    (hlen : m.buckets.length < cap) {u : Nat} (hu1 : 1 ≤ u) (hu : u < cap)
    (hall : ∀ u' < u, occupiedIdx m.hash_table
        ((desiredIdx cap (hashWith hashFn k) + u') % cap) ∧
      u' ≤ slotDist cap m.hash_table
        ((desiredIdx cap (hashWith hashFn k) + u') % cap))
    (hrich : slotDist cap m.hash_table
      ((desiredIdx cap (hashWith hashFn k) + u) % cap) < u)
    {jstar : Nat} (hj1 : 1 ≤ jstar) (hjc : jstar < cap)
    (hsegocc : ∀ i2 < jstar, occupiedIdx m.hash_table
      (((desiredIdx cap (hashWith hashFn k) + u) % cap + i2) % cap))
    (hsegempty : ¬ occupiedIdx m.hash_table
      (((desiredIdx cap (hashWith hashFn k) + u) % cap + jstar) % cap))
    {T : List HashIndex} (hTlen : T.length = cap)
    (hTseg : ∀ i2 ≤ jstar,
      T.getD (((desiredIdx cap (hashWith hashFn k) + u) % cap + i2) % cap)
          emptyHI =
        if i2 = 0 then ⟨hashWith hashFn k, m.buckets.length⟩
        else m.hash_table.getD
          (((desiredIdx cap (hashWith hashFn k) + u) % cap + (i2 - 1)) % cap)
          emptyHI)
    (hTout : ∀ q < cap,
      (∀ i2 ≤ jstar,
        q ≠ ((desiredIdx cap (hashWith hashFn k) + u) % cap + i2) % cap) →
      T.getD q emptyHI = m.hash_table.getD q emptyHI) :
    Inv hashFn cap ⟨m.buckets ++ [⟨k, v, hashWith hashFn k⟩], T⟩ := by
  set h := hashWith hashFn k with hh
  set d := desiredIdx cap h with hd
  set p := (d + u) % cap with hp
  set n := m.buckets.length with hn
  set B := m.buckets ++ [(⟨k, v, h⟩ : Bucket K V)] with hB
  have hplt : p < cap := probe_lt hcap _ _
  have hhlt : h < 32768 := hashWith_lt hashFn k
  have hcap2 : 2 ≤ cap := by omega
  -- the slot just before `p` lies on the probe path, hence is occupied;
  -- therefore the segment cannot wrap onto it
  have harith : (p + (cap - 1)) % cap = (d + (u - 1)) % cap := by
    rw [hp, probe_shift]
    have h1 : u + (cap - 1) = (u - 1) + cap := by omega
    rw [h1]
    exact probe_add_cap hcap d (u - 1)
  have hprev := hall (u - 1) (by omega)
  have hjc2 : jstar ≤ cap - 2 := by
    by_contra hjx
    have hje : jstar = cap - 1 := by omega
    rw [hje, harith] at hsegempty
    exact hsegempty hprev.1
  have hdistinct : ∀ a < cap, ∀ b < cap, a ≠ b →
      (p + a) % cap ≠ (p + b) % cap := by
    intro a ha b hb hab heq
    exact hab (probe_inj hcap ha hb heq)
  have hsegstep : ∀ i2 : Nat, stepIdx cap ((p + i2) % cap) = (p + (i2 + 1)) % cap :=
    fun i2 => step_probe hcap p i2
  have hp0 : (p + 0) % cap = p := probe_zero hcap hplt
  have hT0 : T.getD p emptyHI = ⟨h, n⟩ := by
    have := hTseg 0 (by omega)
    rwa [hp0, if_pos rfl] at this
  have hTi2 : ∀ i2, 1 ≤ i2 → i2 ≤ jstar →
      T.getD ((p + i2) % cap) emptyHI =
        m.hash_table.getD ((p + (i2 - 1)) % cap) emptyHI := by
    intro i2 h1 h2
    have := hTseg i2 h2
    rwa [if_neg (by omega)] at this
  have hToccp : occupiedIdx T p := occ_of_hash_lt (by rw [hT0]) hhlt
  have hToccseg : ∀ i2 ≤ jstar, occupiedIdx T ((p + i2) % cap) := by
    intro i2 h2
    rcases Nat.eq_zero_or_pos i2 with rfl | h1
    · rwa [hp0]
    · rw [occ_congr (hTi2 i2 h1 h2)]
      exact hsegocc (i2 - 1) (by omega)
  have hdT0 : slotDist cap T p = u := by
    unfold slotDist slotHash
    rw [hT0]
    rw [hp, hd, dist_probe hcap, Nat.mod_eq_of_lt hu]
  have hDoldlt : ∀ i2 < jstar,
      slotDist cap m.hash_table ((p + i2) % cap) < n := by
    intro i2 h2
    exact occ_dist_lt_len hcap hInv.refOk hInv.inj hInv.rh
      (probe_lt hcap _ _) (hsegocc i2 h2)
  have hdTseg : ∀ i2, 1 ≤ i2 → i2 ≤ jstar →
      slotDist cap T ((p + i2) % cap) =
        slotDist cap m.hash_table ((p + (i2 - 1)) % cap) + 1 := by
    intro i2 h1 h2
    unfold slotDist
    rw [slotHash_congr (hTi2 i2 h1 h2)]
    have hq : (p + (i2 - 1)) % cap < cap := probe_lt hcap _ _
    have hstep : stepIdx cap ((p + (i2 - 1)) % cap) = (p + i2) % cap := by
      rw [hsegstep]
      congr 1
      omega
    rw [← hstep, hIdxDistance_succ hcap _ _ hq]
    have hbound := hDoldlt (i2 - 1) (by omega)
    unfold slotDist at hbound
    rw [Nat.mod_eq_of_lt (by omega)]
  have hBget : ∀ j, j < n → B.get? j = m.buckets.get? j := by
    intro j hj
    rw [hB]; exact List.get?_append hj
  have hBn : B.get? n = some ⟨k, v, h⟩ := by
    rw [hB, hn]; exact List.get?_concat_length _ _
  have hBlen : B.length = n + 1 := by rw [hB]; simp
  constructor
  · exact hTlen
  · rw [hBlen]; omega
  · intro b hb
    rw [hB, List.mem_append] at hb
    rcases hb with hb | hb
    · exact hInv.bHash b hb
    · rw [List.mem_singleton] at hb
      subst hb
      rfl
  · rw [hB, List.map_append, List.nodup_append]
    refine ⟨hInv.nodup, by simp, ?_⟩
    intro a ha hmem
    simp only [List.map_singleton, List.mem_singleton] at hmem
    subst hmem
    rw [List.mem_map] at ha
    obtain ⟨b, hb, hbk⟩ := ha
    exact habs b hb hbk
  · -- refOk
    intro i hi hocc
    by_cases hseg : ∃ i2, i2 ≤ jstar ∧ i = (p + i2) % cap
    · obtain ⟨i2, hi2, rfl⟩ := hseg
      rcases Nat.eq_zero_or_pos i2 with rfl | h1
      · rw [hp0]
        refine ⟨⟨k, v, h⟩, ?_, ?_⟩
        · unfold slotRef
          rw [hT0]
          exact hBn
        · unfold slotHash
          rw [hT0]
      · have hoccold := hsegocc (i2 - 1) (by omega)
        obtain ⟨b, hb, hbh⟩ := hInv.refOk _ (probe_lt hcap _ _) hoccold
        refine ⟨b, ?_, ?_⟩
        · rw [slotRef_congr (hTi2 i2 h1 hi2), hBget _ (get?_lt_length hb)]
          exact hb
        · rw [slotHash_congr (hTi2 i2 h1 hi2)]
          exact hbh
    · push_neg at hseg
      have hout := hTout i hi (fun i2 h2 => hseg i2 h2)
      rw [occ_congr hout] at hocc
      obtain ⟨b, hb, hbh⟩ := hInv.refOk i hi hocc
      refine ⟨b, ?_, ?_⟩
      · rw [slotRef_congr hout, hBget _ (get?_lt_length hb)]
        exact hb
      · rw [slotHash_congr hout]
        exact hbh
  · -- surj
    intro j hj
    rw [hBlen] at hj
    rcases Nat.lt_or_ge j n with hjn | hjn
    · obtain ⟨i, hi, hocc, href⟩ := hInv.surj j hjn
      by_cases hseg : ∃ i2, i2 ≤ jstar ∧ i = (p + i2) % cap
      · obtain ⟨i2, hi2, rfl⟩ := hseg
        have hi2' : i2 < jstar := by
          rcases Nat.eq_or_lt_of_le hi2 with rfl | h2
          · exact absurd hocc hsegempty
          · exact h2
        refine ⟨(p + (i2 + 1)) % cap, probe_lt hcap _ _, ?_, ?_⟩
        · exact hToccseg (i2 + 1) (by omega)
        · rw [slotRef_congr (hTi2 (i2 + 1) (by omega) (by omega))]
          have harg : i2 + 1 - 1 = i2 := by omega
          rw [harg]
          exact href
      · push_neg at hseg
        have hout := hTout i hi (fun i2 h2 => hseg i2 h2)
        refine ⟨i, hi, ?_, ?_⟩
        · rw [occ_congr hout]; exact hocc
        · rw [slotRef_congr hout]; exact href
    · have hjn' : j = n := by omega
      subst hjn'
      refine ⟨p, hplt, hToccp, ?_⟩
      unfold slotRef
      rw [hT0]
  · -- inj
    intro i hi i' hi' hocc hocc' href
    -- classify each occupied slot of `T` as the fresh record at `p` or a
    -- shifted/unchanged old record at a source position
    have hclassify : ∀ q, q < cap → occupiedIdx T q → slotRef T q = n →
        q = p := by
      intro q hqlt hqocc hqref
      by_cases hseg : ∃ i2, i2 ≤ jstar ∧ q = (p + i2) % cap
      · obtain ⟨i2, hi2, rfl⟩ := hseg
        rcases Nat.eq_zero_or_pos i2 with rfl | h1
        · rw [hp0]
        · exfalso
          rw [occ_congr (hTi2 i2 h1 hi2)] at hqocc
          obtain ⟨b, hb, -⟩ := hInv.refOk _ (probe_lt hcap _ _) hqocc
          rw [slotRef_congr (hTi2 i2 h1 hi2)] at hqref
          have := get?_lt_length hb
          rw [hqref] at this
          omega
      · exfalso
        push_neg at hseg
        have hout := hTout _ hqlt (fun i2 h2 => hseg i2 h2)
        rw [occ_congr hout] at hqocc
        obtain ⟨b, hb, -⟩ := hInv.refOk _ hqlt hqocc
        rw [slotRef_congr hout] at hqref
        have := get?_lt_length hb
        rw [hqref] at this
        omega
    have hsource : ∀ q, q < cap → occupiedIdx T q → slotRef T q ≠ n →
        ∃ σ, σ < cap ∧ occupiedIdx m.hash_table σ ∧
          T.getD q emptyHI = m.hash_table.getD σ emptyHI ∧
          ((∃ i2, 1 ≤ i2 ∧ i2 ≤ jstar ∧ q = (p + i2) % cap ∧
              σ = (p + (i2 - 1)) % cap) ∨
            (σ = q ∧ ∀ i2 ≤ jstar, q ≠ (p + i2) % cap)) := by
      intro q hqlt hqocc hqref
      by_cases hseg : ∃ i2, i2 ≤ jstar ∧ q = (p + i2) % cap
      · obtain ⟨i2, hi2, rfl⟩ := hseg
        rcases Nat.eq_zero_or_pos i2 with rfl | h1
        · exfalso
          apply hqref
          unfold slotRef
          rw [hp0, hT0]
        · refine ⟨(p + (i2 - 1)) % cap, probe_lt hcap _ _, ?_,
            hTi2 i2 h1 hi2, Or.inl ⟨i2, h1, hi2, rfl, rfl⟩⟩
          rw [← occ_congr (hTi2 i2 h1 hi2)]
          exact hqocc
      · push_neg at hseg
        have hout := hTout _ hqlt (fun i2 h2 => hseg i2 h2)
        refine ⟨q, hqlt, ?_, hout, Or.inr ⟨rfl, fun i2 h2 => hseg i2 h2⟩⟩
        rw [← occ_congr hout]
        exact hqocc
    by_cases hin : slotRef T i = n
    · by_cases hin' : slotRef T i' = n
      · rw [hclassify i hi hocc hin, hclassify i' hi' hocc' hin']
      · exfalso
        rw [href] at hin
        exact hin' hin
    · by_cases hin' : slotRef T i' = n
      · exfalso
        rw [← href] at hin'
        exact hin hin'
      · obtain ⟨σ, hσlt, hσocc, hσeq, hσcase⟩ := hsource i hi hocc hin
        obtain ⟨σ', hσlt', hσocc', hσeq', hσcase'⟩ := hsource i' hi' hocc' hin'
        have hrefs : slotRef m.hash_table σ = slotRef m.hash_table σ' := by
          rw [← slotRef_congr hσeq, ← slotRef_congr hσeq']
          exact href
        have hσσ := hInv.inj σ hσlt σ' hσlt' hσocc hσocc' hrefs
        rcases hσcase with ⟨i2, h1, h2, rfl, rfl⟩ | ⟨rfl, hnot⟩
        · rcases hσcase' with ⟨i2', h1', h2', rfl, rfl⟩ | ⟨rfl, hnot'⟩
          · have : i2 - 1 = i2' - 1 :=
              probe_inj hcap (by omega) (by omega) hσσ
            have : i2 = i2' := by omega
            rw [this]
          · exfalso
            exact hnot' (i2 - 1) (by omega) hσσ.symm
        · rcases hσcase' with ⟨i2', h1', h2', rfl, rfl⟩ | ⟨rfl, hnot'⟩
          · exfalso
            exact hnot (i2' - 1) (by omega) hσσ
          · exact hσσ
  · -- rh
    intro q hq hoccs hds
    by_cases hqs : ∃ i2, i2 ≤ jstar ∧ stepIdx cap q = (p + i2) % cap
    · obtain ⟨i2, hi2, hstep⟩ := hqs
      rcases Nat.eq_zero_or_pos i2 with rfl | h1
      · -- the successor is the segment head `p`
        rw [hp0] at hstep
        have hq1 : q = (p + (cap - 1)) % cap := by
          apply stepIdx_inj hcap hq (probe_lt hcap _ _)
          rw [hstep, hsegstep]
          have harg : cap - 1 + 1 = cap := by omega
          rw [harg]
          have : (p + cap) % cap = (p + 0) % cap := by
            have := probe_add_cap hcap p 0
            simpa using this
          rw [this, hp0]
        have hqnotseg : ∀ i3 ≤ jstar, q ≠ (p + i3) % cap := by
          intro i3 h3
          rw [hq1]
          exact hdistinct (cap - 1) (by omega) i3 (by omega) (by omega)
        have hout := hTout q hq hqnotseg
        have hoccq : occupiedIdx m.hash_table q := by
          rw [hq1, harith]; exact hprev.1
        have hdq : u - 1 ≤ slotDist cap m.hash_table q := by
          rw [hq1, harith]; exact hprev.2
        refine ⟨?_, ?_⟩
        · rw [occ_congr hout]
          exact hoccq
        · rw [hstep, hdT0]
          have hTdq : slotDist cap T q = slotDist cap m.hash_table q := by
            unfold slotDist
            rw [slotHash_congr hout]
          rw [hTdq]
          omega
      · -- the successor is a shifted slot
        have hq1 : q = (p + (i2 - 1)) % cap := by
          apply stepIdx_inj hcap hq (probe_lt hcap _ _)
          rw [hstep, hsegstep]
          congr 1
          omega
        rw [hstep] at hoccs hds ⊢
        rw [hdTseg i2 h1 hi2] at hds ⊢
        rw [hq1]
        refine ⟨hToccseg (i2 - 1) (by omega), ?_⟩
        rcases Nat.eq_or_lt_of_le h1 with h1' | h1'
        · -- i2 = 1 : the predecessor is the fresh record with distance u
          have h2' : i2 - 1 = 0 := by omega
          rw [h2', hp0, hdT0]
          omega
        · -- i2 ≥ 2 : both are shifted old records
          rw [hdTseg (i2 - 1) (by omega) (by omega)]
          have harg : i2 - 1 - 1 = i2 - 2 := by omega
          rw [harg]
          rcases Nat.eq_zero_or_pos
              (slotDist cap m.hash_table ((p + (i2 - 1)) % cap)) with hz | hz
          · omega
          · have hstep2 : stepIdx cap ((p + (i2 - 2)) % cap) =
                (p + (i2 - 1)) % cap := by
              rw [hsegstep]
              congr 1
              omega
            have hold := hInv.rh ((p + (i2 - 2)) % cap) (probe_lt hcap _ _)
              (by rw [hstep2]; exact hsegocc (i2 - 1) (by omega))
              (by rw [hstep2]; omega)
            rw [hstep2] at hold
            omega
    · -- the successor slot is unchanged
      push_neg at hqs
      have houts := hTout _ (by
        rw [stepIdx_eq hcap]
        exact Nat.mod_lt _ (by omega)) (fun i2 h2 => hqs i2 h2)
      rw [occ_congr houts] at hoccs
      have hds' : 0 < slotDist cap m.hash_table (stepIdx cap q) := by
        unfold slotDist at hds ⊢
        rwa [slotHash_congr houts] at hds
      have hold := hInv.rh q hq hoccs hds'
      by_cases hq2 : ∃ i2, i2 ≤ jstar ∧ q = (p + i2) % cap
      · obtain ⟨i2, hi2, rfl⟩ := hq2
        have hi2j : i2 = jstar := by
          by_contra hne
          exact hqs (i2 + 1) (by omega) (hsegstep i2)
        subst hi2j
        exfalso
        exact hsegempty hold.1
      · push_neg at hq2
        have houtq := hTout q hq (fun i2 h2 => hq2 i2 h2)
        refine ⟨?_, ?_⟩
        · rw [occ_congr houtq]
          exact hold.1
        · unfold slotDist
          rw [slotHash_congr houts, slotHash_congr houtq]
          exact hold.2
  · -- fullZ
    intro hfull
    rw [hBlen] at hfull
    set E := (p + jstar) % cap with hE
    set W := (p + (jstar + 1)) % cap with hW
    have hWlt : W < cap := probe_lt hcap _ _
    have hWits : ∀ i2 ≤ jstar, W ≠ (p + i2) % cap := by
      intro i2 h2
      rw [hW]
      exact hdistinct (jstar + 1) (by omega) i2 (by omega) (by omega)
    have hWE : W ≠ E := by
      rw [hW, hE]
      exact hdistinct (jstar + 1) (by omega) jstar (by omega) (by omega)
    have hWocc : occupiedIdx m.hash_table W := by
      by_contra hWe
      exact hWE (unique_empty hInv.surj (by omega) hWlt (probe_lt hcap _ _)
        hWe hsegempty)
    have hWd : slotDist cap m.hash_table W = 0 := by
      by_contra hWd
      have hstepE : stepIdx cap E = W := by
        rw [hE, hsegstep]
      have := hInv.rh E (probe_lt hcap _ _) (by rw [hstepE]; exact hWocc)
        (by rw [hstepE]; omega)
      exact hsegempty this.1
    have hout := hTout W hWlt hWits
    refine ⟨W, hWlt, ?_, ?_⟩
    · rw [occ_congr hout]
      exact hWocc
    · unfold slotDist
      rw [slotHash_congr hout]
      exact hWd

end InsertCase2

section InsertDriver

variable {K V : Type} [DecidableEq K]

theorem set_get?_self {α : Type} {l : List α} {i : Nat} {a : α}
    (h : l.get? i = some a) : l.set i a = l := by
  have hlt : i < l.length := get?_lt_length h
  apply List.ext_get?
  intro n
  by_cases hn : i = n
  · subst hn
    rw [List.get?_set_eq_of_lt _ hlt]
    exact h.symm
  · rw [List.get?_set_ne _ _ hn]

/-- Under the invariant with a non-full store, not every slot is
occupied. -/
theorem not_all_occ {cap e : Nat} (hcap : cap = 2 ^ e)
    {hashFn : K → Nat} {m : Map K V} (hInv : Inv hashFn cap m)
    (hlen : m.buckets.length < cap) (s : Nat) (hs : s < cap) :
    ¬ (∀ u' < cap, occupiedIdx m.hash_table ((s + u') % cap)) := by
  intro hallc
  have hall : ∀ i < cap, occupiedIdx m.hash_table i := by
    intro i hi
    obtain ⟨j, hj, hji⟩ := probe_offset hcap hs hi
    rw [← hji]
    exact hallc j hj
  have := all_occ_imp_len hInv.refOk hInv.inj hall
  omega

/-- The probe loop of `insert` on an absent key: it terminates within the
fuel, appends the new bucket, and preserves the invariant. -/
theorem insertLoop_absent {cap e : Nat} (hcap : cap = 2 ^ e)
    (he16 : cap ≤ 65536)
    {hashFn : K → Nat} {m : Map K V} (hInv : Inv hashFn cap m)
    {k : K} (v : V) (habs : ∀ b ∈ m.buckets, ¬ b.key = k)
    (hlen : m.buckets.length < cap) :
    ∀ fuel u, u + fuel = cap + 1 →
      (∀ u' < u, occupiedIdx m.hash_table
          ((desiredIdx cap (hashWith hashFn k) + u') % cap) ∧
        u' ≤ slotDist cap m.hash_table
          ((desiredIdx cap (hashWith hashFn k) + u') % cap)) →
      ∃ T, insertLoop cap (hashWith hashFn k) k v fuel
          ((desiredIdx cap (hashWith hashFn k) + u) % cap) u m =
        some (Except.ok none,
          ⟨m.buckets ++ [⟨k, v, hashWith hashFn k⟩], T⟩) ∧
        Inv hashFn cap ⟨m.buckets ++ [⟨k, v, hashWith hashFn k⟩], T⟩ := by
  set h := hashWith hashFn k with hh
  set d := desiredIdx cap h with hd
  have hdlt : d < cap := desiredIdx_lt hcap h
  intro fuel
  induction fuel with
  | zero =>
    intro u hfu hall
    exfalso
    exact not_all_occ hcap hInv hlen d hdlt
      (fun u' hu' => (hall u' (by omega)).1)
  | succ f ih =>
    intro u hfu hall
    have hucap : u < cap := by
      by_contra hcon
      have hu' : u = cap ∨ u = cap + 1 := by omega
      have hue : u = cap := by
        rcases hu' with h1 | h1
        · exact h1
        · omega
      exact not_all_occ hcap hInv hlen d hdlt
        (fun u' hu' => (hall u' (by omega)).1)
    set p := (d + u) % cap with hp
    have hplt : p < cap := probe_lt hcap _ _
    rw [insertLoop]
    by_cases hocc : occupiedIdx m.hash_table p
    · rw [if_neg (by unfold occupiedIdx at hocc; rw [hocc]; simp)]
      by_cases hrich : hIdxDistance cap (m.hash_table.getD p emptyHI).hash p < u
      · -- case 2: displacement
        rw [if_pos hrich]
        have hrich' : slotDist cap m.hash_table p < u := hrich
        have hu1 : 1 ≤ u := by
          by_contra hu0
          have : u = 0 := by omega
          subst this
          omega
        -- the first empty offset ahead of p
        have hexists : ∃ j2, ¬ occupiedIdx m.hash_table ((p + j2) % cap) := by
          have hne := not_all_occ hcap hInv hlen p hplt
          push_neg at hne
          obtain ⟨u', hu', hnocc⟩ := hne
          exact ⟨u', hnocc⟩
        set jstar := Nat.find hexists with hjs
        have hPj : ¬ occupiedIdx m.hash_table ((p + jstar) % cap) :=
          Nat.find_spec hexists
        have hjmin : ∀ i2 < jstar, occupiedIdx m.hash_table ((p + i2) % cap) := by
          intro i2 h2
          by_contra hcon
          exact Nat.find_min hexists (by omega) hcon
        have hj1 : 1 ≤ jstar := by
          by_contra hj0
          have : jstar = 0 := by omega
          rw [this, probe_zero hcap hplt] at hPj
          exact hPj hocc
        have hjc : jstar < cap := by
          have hne := not_all_occ hcap hInv hlen p hplt
          push_neg at hne
          obtain ⟨u', hu', hnocc⟩ := hne
          have := Nat.find_min' hexists hnocc
          omega
        have hmk : HashIndex.make h m.buckets.length =
            ⟨h, m.buckets.length⟩ := make_eq h (by omega)
        rw [hmk]
        obtain ⟨T, hrun, hTlen, hseg, hout⟩ := displaceLoop_spec hcap jstar
          m.hash_table (cap + 1) p ⟨h, m.buckets.length⟩ hInv.htLen hplt hjc
          (by omega) hjmin hPj
        rw [hrun]
        refine ⟨T, rfl, ?_⟩
        exact insert_case2_inv hcap hInv v habs hlen hu1 hucap hall hrich'
          hj1 hjc hjmin hPj hTlen hseg hout
      · rw [if_neg hrich]
        have hcont : ∃ T, insertLoop cap h k v f (stepIdx cap p) (u + 1) m =
            some (Except.ok none,
              ⟨m.buckets ++ [⟨k, v, h⟩], T⟩) ∧
            Inv hashFn cap ⟨m.buckets ++ [⟨k, v, h⟩], T⟩ := by
          have hstep : stepIdx cap p = (d + (u + 1)) % cap := by
            rw [hp]; exact step_probe hcap _ _
          rw [hstep]
          apply ih (u + 1) (by omega)
          intro u' hu'
          rcases Nat.lt_or_ge u' u with h1 | h1
          · exact hall u' h1
          · have hue : u' = u := by omega
            subst hue
            rw [← hp]
            refine ⟨hocc, ?_⟩
            unfold slotDist slotHash
            omega
        by_cases hhash : (m.hash_table.getD p emptyHI).hash = h
        · rw [if_pos hhash]
          obtain ⟨b', hb', -⟩ := hInv.refOk p hplt hocc
          unfold slotRef at hb'
          rw [hb']
          dsimp only
          rw [if_neg (habs b' (List.get?_mem hb'))]
          exact hcont
        · rw [if_neg hhash]
          exact hcont
    · -- case 1: empty slot
      rw [if_pos (by
        unfold occupiedIdx at hocc
        simp only [Bool.not_eq_false] at hocc
        exact hocc)]
      have hmk : HashIndex.make h m.buckets.length =
          ⟨h, m.buckets.length⟩ := make_eq h (by omega)
      rw [hmk]
      exact ⟨_, rfl, insert_case1_inv hcap hInv v habs hlen hucap hall hocc⟩

/-- `insert` of an absent key into a non-full map: returns `Ok(None)`,
appends the new bucket, and preserves the invariant. -/
theorem insert_absent {cap e : Nat} (hcap : cap = 2 ^ e)
    (he16 : cap ≤ 65536)
    {hashFn : K → Nat} {m : Map K V} (hInv : Inv hashFn cap m)
    {k : K} (v : V) (habs : ∀ b ∈ m.buckets, ¬ b.key = k)
    (hlen : m.buckets.length < cap) :
    ∃ T, insert hashFn cap m k v =
        some (Except.ok none,
          ⟨m.buckets ++ [⟨k, v, hashWith hashFn k⟩], T⟩) ∧
      Inv hashFn cap ⟨m.buckets ++ [⟨k, v, hashWith hashFn k⟩], T⟩ := by
  unfold insert
  rw [if_neg (by omega)]
  have h0 := insertLoop_absent hcap he16 hInv v habs hlen (cap + 1) 0
    (by omega) (by omega)
  rwa [probe_zero hcap (desiredIdx_lt hcap _)] at h0

/-- Invariant preservation for case 3 of `insert` (value update in
place). -/
theorem insert_case3_inv {cap : Nat}
    {hashFn : K → Nat} {m : Map K V} (hInv : Inv hashFn cap m)
    {j : Nat} {b : Bucket K V} (hj : m.buckets.get? j = some b) (v : V) :
    Inv hashFn cap ⟨m.buckets.set j ⟨b.key, v, b.hash⟩, m.hash_table⟩ := by
  set nb : Bucket K V := ⟨b.key, v, b.hash⟩ with hnb
  have hjlt : j < m.buckets.length := get?_lt_length hj
  have hget : ∀ j', j' ≠ j →
      (m.buckets.set j nb).get? j' = m.buckets.get? j' := by
    intro j' hj'
    exact List.get?_set_ne _ _ (Ne.symm hj')
  have hgetj : (m.buckets.set j nb).get? j = some nb :=
    List.get?_set_eq_of_lt _ hjlt
  have hkeys : (m.buckets.set j nb).map Bucket.key = m.buckets.map Bucket.key := by
    rw [List.map_set]
    apply set_get?_self
    rw [List.get?_map, hj]
    rfl
  constructor
  · exact hInv.htLen
  · rw [List.length_set]; exact hInv.bsLen
  · intro b' hb'
    rcases List.mem_or_eq_of_mem_set hb' with hmem | heq
    · exact hInv.bHash b' hmem
    · subst heq
      have := hInv.bHash b (List.get?_mem hj)
      rw [hnb]
      exact this
  · rw [hkeys]; exact hInv.nodup
  · intro i hi hocc
    obtain ⟨b', hb', hbh⟩ := hInv.refOk i hi hocc
    by_cases hrj : slotRef m.hash_table i = j
    · refine ⟨nb, by rw [hrj]; exact hgetj, ?_⟩
      rw [hrj] at hb'
      rw [hj] at hb'
      injection hb' with hbb
      rw [hbh, ← hbb]
    · exact ⟨b', by rw [hget _ hrj]; exact hb', hbh⟩
  · intro j' hj'
    rw [List.length_set] at hj'
    exact hInv.surj j' hj'
  · exact hInv.inj
  · exact hInv.rh
  · intro hfull
    rw [List.length_set] at hfull
    exact hInv.fullZ hfull

/-- The probe loop of `insert` on a present key reaches the key's slot and
updates the value in place. -/
theorem insertLoop_present {cap e : Nat} (hcap : cap = 2 ^ e)
    {hashFn : K → Nat} {m : Map K V} (hInv : Inv hashFn cap m)
    {k : K} (v : V) {j : Nat} {b : Bucket K V}
    (hj : m.buckets.get? j = some b) (hbk : b.key = k)
    {i : Nat} (hi : i < cap) (hocc : occupiedIdx m.hash_table i)
    (href : slotRef m.hash_table i = j) :
    ∀ fuel u, slotDist cap m.hash_table i + 1 ≤ u + fuel →
      u ≤ slotDist cap m.hash_table i →
      insertLoop cap (slotHash m.hash_table i) k v fuel
        ((desiredIdx cap (slotHash m.hash_table i) + u) % cap) u m =
        some (Except.ok (some b.value),
          ⟨m.buckets.set j ⟨b.key, v, b.hash⟩, m.hash_table⟩) := by
  set D := slotDist cap m.hash_table i with hD
  set h := slotHash m.hash_table i with hh
  set d := desiredIdx cap h with hd
  have hDlt : D < cap := hIdxDistance_lt hcap _ _
  intro fuel
  induction fuel with
  | zero => intro u hfu hu; omega
  | succ f ih =>
    intro u hfu hu
    have hplt : (d + u) % cap < cap := probe_lt hcap _ _
    have hguard : hIdxDistance cap h ((d + u) % cap) = u := by
      rw [hd, dist_probe hcap, Nat.mod_eq_of_lt (by omega)]
    have hpath := rh_path hcap hInv.rh hi hocc u (by omega)
    rw [← hh, ← hd] at hpath
    have hpocc : occupiedIdx m.hash_table ((d + u) % cap) := hpath.1
    rw [insertLoop]
    rw [if_neg (by unfold occupiedIdx at hpocc; rw [hpocc]; simp)]
    have hnotrich : ¬ hIdxDistance cap
        (m.hash_table.getD ((d + u) % cap) emptyHI).hash ((d + u) % cap) < u := by
      have := hpath.2
      unfold slotDist slotHash at this
      omega
    rw [if_neg hnotrich]
    rcases Nat.eq_or_lt_of_le hu with heq | hlt
    · -- at the target slot
      have hpi : (d + u) % cap = i := by
        rw [heq, hD, hd, hh]
        exact probe_reconstruct hcap _ i hi
      rw [if_pos (show (m.hash_table.getD ((d + u) % cap) emptyHI).hash = h by
        rw [hpi, hh]; rfl)]
      have hrefp : (m.hash_table.getD ((d + u) % cap) emptyHI).b_idx = j := by
        rw [hpi]; exact href
      rw [hrefp, hj]
      dsimp only
      rw [if_pos hbk]
    · -- before the target slot
      have hcont : insertLoop cap h k v f
          (stepIdx cap ((d + u) % cap)) (u + 1) m =
          some (Except.ok (some b.value),
            ⟨m.buckets.set j ⟨b.key, v, b.hash⟩, m.hash_table⟩) := by
        rw [step_probe hcap]
        exact ih (u + 1) (by omega) (by omega)
      by_cases hhash : (m.hash_table.getD ((d + u) % cap) emptyHI).hash = h
      · rw [if_pos hhash]
        obtain ⟨b', hb', hbh⟩ := hInv.refOk _ hplt hpocc
        unfold slotRef at hb'
        rw [hb']
        dsimp only
        have hbk' : ¬ b'.key = k := by
          intro hk
          have hjj := nodup_key_inj hInv.nodup hb' hj (by rw [hk, ← hbk])
          have hpi := hInv.inj _ hplt i hi hpocc hocc (by
            unfold slotRef; rw [hjj]; exact href.symm)
          rw [hpi, hh] at hguard
          have : slotDist cap m.hash_table i = u := hguard
          omega
        rw [if_neg hbk']
        exact hcont
      · rw [if_neg hhash]
        exact hcont

/-- `insert` of a present key into a non-full map: returns
`Ok(Some(previous value))`, updates the stored value in place, leaves the
bucket count unchanged, and preserves the invariant. -/
theorem insert_present {cap e : Nat} (hcap : cap = 2 ^ e)
    {hashFn : K → Nat} {m : Map K V} (hInv : Inv hashFn cap m)
    {k : K} (v : V) {j : Nat} {b : Bucket K V}
    (hj : m.buckets.get? j = some b) (hbk : b.key = k)
    (hlen : m.buckets.length < cap) :
    insert hashFn cap m k v = some (Except.ok (some b.value),
        ⟨m.buckets.set j ⟨b.key, v, b.hash⟩, m.hash_table⟩) ∧
      Inv hashFn cap ⟨m.buckets.set j ⟨b.key, v, b.hash⟩, m.hash_table⟩ := by
  refine ⟨?_, insert_case3_inv hInv hj v⟩
  have hjlt : j < m.buckets.length := get?_lt_length hj
  obtain ⟨i, hi, hocc, href⟩ := hInv.surj j hjlt
  have hbmem : b ∈ m.buckets := List.get?_mem hj
  have hbh : b.hash = hashWith hashFn b.key := hInv.bHash b hbmem
  have hsh : slotHash m.hash_table i = hashWith hashFn k := by
    obtain ⟨b', hb', hbh'⟩ := hInv.refOk i hi hocc
    rw [href, hj] at hb'
    injection hb' with hbb
    rw [hbh', ← hbb, hbh, hbk]
  unfold insert
  rw [if_neg (by omega)]
  have h0 := insertLoop_present hcap hInv v hj hbk hi hocc href (cap + 1) 0
    (by unfold slotDist
        have := hIdxDistance_lt hcap (slotHash m.hash_table i) i
        omega)
    (by omega)
  rw [hsh] at h0
  rw [← h0]
  congr 1
  rw [probe_zero hcap (desiredIdx_lt hcap _)]

end InsertDriver

section RemoveHelpers

theorem get?_dropLast {α : Type} {l : List α} {j : Nat} (hj : j < l.length - 1) :
    l.dropLast.get? j = l.get? j := by
  rw [List.dropLast_eq_take, List.get?_take hj]

theorem step_pred {cap e : Nat} (hcap : cap = 2 ^ e) {q : Nat} (hq : q < cap) :
    stepIdx cap ((q + (cap - 1)) % cap) = q := by
  rw [stepIdx_eq hcap, Nat.mod_add_mod]
  have h1 : q + (cap - 1) + 1 = q + cap := by
    have := cap_pos hcap
    omega
  rw [h1, Nat.add_mod_right, Nat.mod_eq_of_lt hq]

theorem getLast_of_get? {α : Type} {l : List α} {z : α} (h : l ≠ [])
    (hl : l.get? (l.length - 1) = some z) : l.getLast h = z := by
  have hlen : l.length - 1 < l.length := by
    have := List.length_pos.2 h
    omega
  have h1 : l.getLast h = l.get ⟨l.length - 1, hlen⟩ := List.getLast_eq_get l h
  have h2 : l.get? (l.length - 1) = some (l.get ⟨l.length - 1, hlen⟩) :=
    List.get?_eq_get hlen
  rw [hl] at h2
  rw [h1, ← Option.some.inj h2]

/-- `swap_pop` permutes: the original list is a permutation of the
removed element consed onto the result. -/
theorem swapPop_perm {α : Type} {l : List α} {i : Nat} {x : α} {l' : List α}
    (h : swapPop l i = some (x, l')) : l.Perm (x :: l') := by
  obtain ⟨hx, z, hz, rfl⟩ := swapPop_some h
  have hilt : i < l.length := get?_lt_length hx
  have hl0 : l ≠ [] := by
    intro hnil
    subst hnil
    exact Option.noConfusion hx
  by_cases hlast : i = l.length - 1
  · -- i is the last position
    have hxz : x = z := by
      rw [hlast] at hx
      rw [hx] at hz
      exact Option.some.inj hz
    subst hxz
    have hset : l.set i x = l := set_get?_self hx
    rw [hset]
    have hdec : l.dropLast ++ [x] = l := by
      have h1 := List.dropLast_concat_getLast hl0
      rwa [getLast_of_get? hl0 (by rw [← hlast]; exact hx)] at h1
    have hps := List.perm_append_singleton x l.dropLast
    rw [hdec] at hps
    exact hps
  · -- i is an interior position
    have hmid : i < l.length - 1 := by omega
    set A := l.take i with hA
    set Bf := l.drop (i + 1) with hBf
    have hBflen : Bf.length = l.length - (i + 1) := by
      rw [hBf, List.length_drop]
    have hBfne : Bf ≠ [] := by
      intro hnil
      rw [hnil] at hBflen
      simp at hBflen
      omega
    set B := Bf.dropLast with hB
    have hBfz : Bf = B ++ [z] := by
      have h1 := List.dropLast_concat_getLast hBfne
      have h2 : Bf.getLast hBfne = z := by
        apply getLast_of_get? hBfne
        rw [hBf, List.get?_drop, hBflen]
        have harg2 : i + 1 + (l.length - (i + 1) - 1) = l.length - 1 := by
          omega
        rw [harg2]
        exact hz
      rw [h2] at h1
      exact h1.symm
    have hldec : l = A ++ x :: Bf := by
      have h1 : l.get ⟨i, hilt⟩ = x := by
        have h2 : l.get? i = some (l.get ⟨i, hilt⟩) := List.get?_eq_get hilt
        rw [hx] at h2
        exact (Option.some.inj h2).symm
      rw [hA, hBf, ← h1]
      rw [← List.drop_eq_get_cons hilt]
      exact (List.take_append_drop i l).symm
    have hsetdec : (l.set i z).dropLast = A ++ z :: B := by
      rw [List.set_eq_take_cons_drop z hilt, ← hA, ← hBf, hBfz]
      have h1 : A ++ z :: (B ++ [z]) = (A ++ z :: B) ++ [z] := by simp
      rw [h1, List.dropLast_concat]
    rw [hsetdec]
    have p1 : l.Perm (x :: (A ++ Bf)) := by
      rw [hldec]
      exact List.perm_middle
    have p2 : (A ++ Bf).Perm (z :: (A ++ B)) := by
      rw [hBfz]
      have h1 : A ++ (B ++ [z]) = (A ++ B) ++ [z] := by
        simp [List.append_assoc]
      rw [h1]
      exact List.perm_append_singleton z (A ++ B)
    have p3 : (A ++ z :: B).Perm (z :: (A ++ B)) := List.perm_middle
    exact p1.trans (List.Perm.cons x (p2.trans p3.symm))

end RemoveHelpers

section RepointSpec

theorem pred_step {cap e : Nat} (hcap : cap = 2 ^ e) {G : Nat} (hG : G < cap) :
    (stepIdx cap G + (cap - 1)) % cap = G := by
  rw [stepIdx_eq hcap, Nat.mod_add_mod]
  have h1 : G + 1 + (cap - 1) = G + cap := by
    have := cap_pos hcap
    omega
  rw [h1, Nat.add_mod_right, Nat.mod_eq_of_lt hG]

theorem repointLoop_spec {cap e : Nat} (hcap : cap = 2 ^ e) (len fb bh : Nat) :
    ∀ r fuel s (ht : List HashIndex), s < cap → r < cap → r < fuel →
      (∀ i2 < r, slotRef ht ((s + i2) % cap) < len) →
      len ≤ slotRef ht ((s + r) % cap) →
      repointLoop cap len fb bh fuel s ht =
        some (ht.set ((s + r) % cap) (HashIndex.make bh fb)) := by
  intro r
  induction r with
  | zero =>
    intro fuel s ht hs hrc hrf hall hit
    obtain ⟨f, rfl⟩ : ∃ f, fuel = f + 1 := ⟨fuel - 1, by omega⟩
    rw [probe_zero hcap hs] at hit ⊢
    unfold slotRef at hit
    rw [repointLoop]
    rw [if_pos hit]
  | succ r ih =>
    intro fuel s ht hs hrc hrf hall hit
    obtain ⟨f, rfl⟩ : ∃ f, fuel = f + 1 := ⟨fuel - 1, by omega⟩
    rw [repointLoop]
    have h0 := hall 0 (by omega)
    rw [probe_zero hcap hs] at h0
    rw [if_neg (by unfold slotRef at h0; omega)]
    have hstep := ih f (stepIdx cap s) ht (by
        rw [stepIdx_eq hcap]; exact Nat.mod_lt _ (cap_pos hcap))
      (by omega) (by omega)
      (by
        intro i2 h2
        rw [stepIdx_eq hcap]
        have h3 : ((s + 1) % cap + i2) % cap = (s + (1 + i2)) % cap := probe_shift cap s 1 i2
        rw [h3]
        exact hall (1 + i2) (by omega))
      (by
        rw [stepIdx_eq hcap]
        have h3 : ((s + 1) % cap + r) % cap = (s + (1 + r)) % cap := probe_shift cap s 1 r
        rw [h3]
        have h4 : 1 + r = r + 1 := by omega
        rw [h4]
        exact hit)
    rw [hstep]
    rw [stepIdx_eq hcap]
    have h3 : ((s + 1) % cap + r) % cap = (s + (1 + r)) % cap := probe_shift cap s 1 r
    rw [h3]
    have h4 : 1 + r = r + 1 := by omega
    rw [h4]

end RepointSpec

section ShiftPhase

variable {K V : Type}

/-- One shift step of the backward-shift loop preserves the intermediate
state, with the gap advanced by one. -/
theorem shiftStep_preserve {cap e : Nat} (hcap : cap = 2 ^ e)
    {hashFn : K → Nat} {bs : List (Bucket K V)} {ht : List HashIndex} {G : Nat}
    (hS : ShiftState hashFn cap bs ht G)
    (hocc : occupiedIdx ht (stepIdx cap G))
    (hd : 0 < slotDist cap ht (stepIdx cap G)) :
    ShiftState hashFn cap bs
      ((ht.set G (ht.getD (stepIdx cap G) emptyHI)).set (stepIdx cap G)
        (ht.getD (stepIdx cap G) emptyHI).clearSlot)
      (stepIdx cap G) := by
  have hGlt := hS.Glt
  have hG'lt : stepIdx cap G < cap := by
    rw [stepIdx_eq hcap]; exact Nat.mod_lt _ (cap_pos hcap)
  set G' := stepIdx cap G with hG'
  set R := ht.getD G' emptyHI with hR
  set ht2 := (ht.set G R).set G' R.clearSlot with hht2
  have hGG' : G ≠ G' := by
    intro heq
    rw [← heq] at hocc
    exact hS.Gempty hocc
  have hlen1 : (ht.set G R).length = cap := by simp [hS.htLen]
  have h2G' : ht2.getD G' emptyHI = R.clearSlot := by
    rw [hht2]
    exact getD_set_self _ _ _ _ (by rw [hlen1]; exact hG'lt)
  have h2G : ht2.getD G emptyHI = R := by
    rw [hht2, getD_set_ne _ _ _ (Ne.symm hGG')]
    exact getD_set_self _ _ _ _ (by rw [hS.htLen]; exact hGlt)
  have h2q : ∀ q, q ≠ G → q ≠ G' → ht2.getD q emptyHI = ht.getD q emptyHI := by
    intro q hq hq'
    rw [hht2, getD_set_ne _ _ _ (Ne.symm hq'), getD_set_ne _ _ _ (Ne.symm hq)]
  have hocc2G : occupiedIdx ht2 G := by
    unfold occupiedIdx at hocc ⊢
    rw [h2G]
    exact hocc
  have hnocc2G' : ¬ occupiedIdx ht2 G' := by
    unfold occupiedIdx
    rw [h2G']
    rw [emptySlot_clearSlot]
    simp
  have hd2G : slotDist cap ht2 G = slotDist cap ht G' - 1 := by
    unfold slotDist
    rw [slotHash_congr h2G]
    unfold slotDist at hd
    have h3 := hIdxDistance_back hcap (slotHash ht G') G hGlt (by
      rw [← hG']
      exact hd)
    rw [← hG'] at h3
    exact h3
  have hdist2 : ∀ q, q ≠ G → q ≠ G' →
      slotDist cap ht2 q = slotDist cap ht q := by
    intro q hq hq'
    unfold slotDist
    rw [slotHash_congr (h2q q hq hq')]
  have hocci2 : ∀ q, q ≠ G → q ≠ G' →
      (occupiedIdx ht2 q ↔ occupiedIdx ht q) := by
    intro q hq hq'
    exact occ_congr (h2q q hq hq')
  constructor
  · rw [hht2]; simp [hS.htLen]
  · exact hG'lt
  · exact hnocc2G'
  · -- refOk
    intro i hi hocci
    by_cases hiG : i = G
    · subst hiG
      obtain ⟨b, hb, hbh⟩ := hS.refOk G' hG'lt hocc
      exact ⟨b, by rw [slotRef_congr h2G]; exact hb,
        by rw [slotHash_congr h2G]; exact hbh⟩
    · by_cases hiG' : i = G'
      · exact absurd hocci (hiG' ▸ hnocc2G')
      · rw [hocci2 i hiG hiG'] at hocci
        obtain ⟨b, hb, hbh⟩ := hS.refOk i hi hocci
        exact ⟨b, by rw [slotRef_congr (h2q i hiG hiG')]; exact hb,
          by rw [slotHash_congr (h2q i hiG hiG')]; exact hbh⟩
  · -- surj
    intro j hj
    obtain ⟨σ, hσlt, hσocc, hσref⟩ := hS.surj j hj
    by_cases hσG' : σ = G'
    · refine ⟨G, hGlt, hocc2G, ?_⟩
      rw [slotRef_congr h2G, ← hσG']
      exact hσref
    · have hσG : σ ≠ G := by
        intro heq
        rw [heq] at hσocc
        exact hS.Gempty hσocc
      refine ⟨σ, hσlt, ?_, ?_⟩
      · rw [hocci2 σ hσG hσG']
        exact hσocc
      · rw [slotRef_congr (h2q σ hσG hσG')]
        exact hσref
  · -- inj
    intro i hi i' hi' hocci hocci' href
    have hmap : ∀ q, q < cap → occupiedIdx ht2 q →
        ∃ τ, τ < cap ∧ occupiedIdx ht τ ∧
          slotRef ht2 q = slotRef ht τ ∧
          ((q = G ∧ τ = G') ∨ (q ≠ G ∧ q ≠ G' ∧ τ = q)) := by
      intro q hqlt hqocc
      by_cases hqG : q = G
      · subst hqG
        exact ⟨G', hG'lt, hocc, slotRef_congr h2G, Or.inl ⟨rfl, rfl⟩⟩
      · by_cases hqG' : q = G'
        · exact absurd hqocc (hqG' ▸ hnocc2G')
        · refine ⟨q, hqlt, ?_, slotRef_congr (h2q q hqG hqG'), Or.inr ⟨hqG, hqG', rfl⟩⟩
          rw [← hocci2 q hqG hqG']
          exact hqocc
    obtain ⟨τ, hτlt, hτocc, hτref, hτcase⟩ := hmap i hi hocci
    obtain ⟨τ', hτlt', hτocc', hτref', hτcase'⟩ := hmap i' hi' hocci'
    have hττ : τ = τ' := hS.inj τ hτlt τ' hτlt' hτocc hτocc'
      (by rw [← hτref, ← hτref']; exact href)
    rcases hτcase with ⟨hq1, hq2⟩ | ⟨hq1, hq2, hq3⟩
    · rcases hτcase' with ⟨hq1', hq2'⟩ | ⟨hq1', hq2', hq3'⟩
      · rw [hq1, hq1']
      · exfalso
        apply hq2'
        rw [← hq3', ← hττ]
        exact hq2
    · rcases hτcase' with ⟨hq1', hq2'⟩ | ⟨hq1', hq2', hq3'⟩
      · exfalso
        apply hq2
        rw [← hq3, hττ]
        exact hq2'
      · rw [← hq3, ← hq3']
        exact hττ
  · -- rhx
    intro q hq hqG' hoccs hds
    by_cases hqG : q = G
    · exfalso
      rw [hqG, ← hG'] at hoccs
      exact hnocc2G' hoccs
    · by_cases hsG : stepIdx cap q = G
      · -- the successor of q is the new head position G
        have hq1 : q = (G + (cap - 1)) % cap := by
          apply stepIdx_inj hcap hq (probe_lt hcap _ _)
          rw [hsG, step_pred hcap hGlt]
        have hqne' : q ≠ G' := hqG'
        rw [hsG] at hoccs hds ⊢
        rw [hd2G] at hds ⊢
        have h2ge : 2 ≤ slotDist cap ht G' := by omega
        have hhole := hS.hole hocc (by rw [← hG']; exact h2ge)
        rw [← hG'] at hhole
        rw [← hq1] at hhole
        refine ⟨?_, ?_⟩
        · rw [hocci2 q hqG hqne']
          exact hhole.1
        · rw [hdist2 q hqG hqne']
          omega
      · -- unchanged pair
        have hsG' : stepIdx cap q ≠ G' := by
          intro heq
          exact hqG (stepIdx_inj hcap hq hGlt heq)
        rw [hocci2 _ hsG hsG'] at hoccs
        rw [hdist2 _ hsG hsG'] at hds
        have := hS.rhx q hq hqG hoccs hds
        refine ⟨?_, ?_⟩
        · rw [hocci2 q hqG hqG']
          exact this.1
        · rw [hdist2 _ hsG hsG', hdist2 q hqG hqG']
          exact this.2
  · -- hole
    intro hoccs hds
    have hpred : (G' + (cap - 1)) % cap = G := by
      rw [hG']
      exact pred_step hcap hGlt
    rw [hpred]
    set G2 := stepIdx cap G' with hG2
    have hG2lt : G2 < cap := by
      rw [hG2, stepIdx_eq hcap]; exact Nat.mod_lt _ (cap_pos hcap)
    by_cases hG2G : G2 = G
    · rw [hG2G] at hoccs hds ⊢
      exact ⟨hocc2G, by omega⟩
    · have hG2G' : G2 ≠ G' := by
        intro heq
        exact hGG' (stepIdx_inj hcap hGlt hG'lt (by rw [← hG', ← hG2, heq]))
      rw [hocci2 G2 hG2G hG2G'] at hoccs
      rw [hdist2 G2 hG2G hG2G'] at hds ⊢
      have hds' : 0 < slotDist cap ht G2 := by omega
      have := hS.rhx G' hG'lt (Ne.symm hGG') (by rw [← hG2]; exact hoccs)
        (by rw [← hG2]; omega)
      rw [← hG2] at this
      refine ⟨hocc2G, ?_⟩
      rw [hd2G]
      have h2 := this.2
      omega

end ShiftPhase

section ShiftLoop

variable {K V : Type}

/-- At a stopped shift state (the slot after the gap is empty or at its
ideal position) all slot/bucket clauses of the invariant hold, with the
local Robin Hood clause restored at every position. -/
theorem shiftStop_conclusion {cap : Nat}
    {hashFn : K → Nat} {bs : List (Bucket K V)} {ht : List HashIndex} {G : Nat}
    (hS : ShiftState hashFn cap bs ht G)
    (hstop : ¬ occupiedIdx ht (stepIdx cap G) ∨
      slotDist cap ht (stepIdx cap G) = 0) :
    ht.length = cap ∧
    (∀ i < cap, occupiedIdx ht i →
      ∃ b, bs.get? (slotRef ht i) = some b ∧ slotHash ht i = b.hash) ∧
    (∀ j < bs.length, ∃ i, i < cap ∧ occupiedIdx ht i ∧ slotRef ht i = j) ∧
    (∀ i < cap, ∀ i' < cap, occupiedIdx ht i → occupiedIdx ht i' →
      slotRef ht i = slotRef ht i' → i = i') ∧
    (∀ q < cap, occupiedIdx ht (stepIdx cap q) →
      0 < slotDist cap ht (stepIdx cap q) →
      occupiedIdx ht q ∧
        slotDist cap ht (stepIdx cap q) ≤ slotDist cap ht q + 1) := by
  refine ⟨hS.htLen, hS.refOk, hS.surj, hS.inj, ?_⟩
  intro q hq hoccs hds
  by_cases hqG : q = G
  · subst hqG
    rcases hstop with h | h
    · exact absurd hoccs h
    · omega
  · exact hS.rhx q hq hqG hoccs hds

/-- The backward-shift loop stops immediately when the slot after the gap
is empty or at its ideal position, returning the table unchanged. -/
theorem shiftLoop_stop {cap : Nat} {ht : List HashIndex} {G f : Nat}
    (hstop : ¬ occupiedIdx ht (stepIdx cap G) ∨
      slotDist cap ht (stepIdx cap G) = 0) :
    shiftLoop cap (f + 1) G ht = some ht := by
  rw [shiftLoop]
  by_cases hocc : occupiedIdx ht (stepIdx cap G)
  · rw [if_neg (by unfold occupiedIdx at hocc; rw [hocc]; simp)]
    rcases hstop with h | h
    · exact absurd hocc h
    · rw [if_neg (by unfold slotDist slotHash at h; omega)]
  · rw [if_pos (by
      unfold occupiedIdx at hocc
      simp only [Bool.not_eq_false] at hocc
      exact hocc)]

/-- Partial correctness of the backward-shift loop: started at the gap of
a `ShiftState`, whatever table it returns satisfies all slot/bucket
clauses of the invariant, with the Robin Hood clause restored
everywhere. -/
theorem shiftLoop_inv {cap e : Nat} (hcap : cap = 2 ^ e)
    {hashFn : K → Nat} {bs : List (Bucket K V)} :
    ∀ fuel G ht ht', ShiftState hashFn cap bs ht G →
      shiftLoop cap fuel G ht = some ht' →
      ht'.length = cap ∧
      (∀ i < cap, occupiedIdx ht' i →
        ∃ b, bs.get? (slotRef ht' i) = some b ∧ slotHash ht' i = b.hash) ∧
      (∀ j < bs.length, ∃ i, i < cap ∧ occupiedIdx ht' i ∧ slotRef ht' i = j) ∧
      (∀ i < cap, ∀ i' < cap, occupiedIdx ht' i → occupiedIdx ht' i' →
        slotRef ht' i = slotRef ht' i' → i = i') ∧
      (∀ q < cap, occupiedIdx ht' (stepIdx cap q) →
        0 < slotDist cap ht' (stepIdx cap q) →
        occupiedIdx ht' q ∧
          slotDist cap ht' (stepIdx cap q) ≤ slotDist cap ht' q + 1) := by
  intro fuel
  induction fuel with
  | zero =>
    intro G ht ht' hS heq
    exact absurd heq (by rw [shiftLoop]; simp)
  | succ f ih =>
    intro G ht ht' hS heq
    rw [shiftLoop] at heq
    by_cases hocc : occupiedIdx ht (stepIdx cap G)
    · rw [if_neg (by unfold occupiedIdx at hocc; rw [hocc]; simp)] at heq
      by_cases hd0 : 0 < hIdxDistance cap
          (ht.getD (stepIdx cap G) emptyHI).hash (stepIdx cap G)
      · rw [if_pos hd0] at heq
        have hS2 := shiftStep_preserve hcap hS hocc
          (by unfold slotDist slotHash; exact hd0)
        exact ih (stepIdx cap G) _ ht' hS2 heq
      · rw [if_neg hd0] at heq
        injection heq with h2
        subst h2
        exact shiftStop_conclusion hS
          (Or.inr (by unfold slotDist slotHash; omega))
    · rw [if_pos (by
        unfold occupiedIdx at hocc
        simp only [Bool.not_eq_false] at hocc
        exact hocc)] at heq
      injection heq with h2
      subst h2
      exact shiftStop_conclusion hS (Or.inl hocc)

/-- Termination of the backward-shift loop: when some position at probe
offset `r + 1 < cap` from the gap is empty or at its ideal position, the
loop returns within any fuel above `r + 1`. -/
theorem shiftLoop_some {cap e : Nat} (hcap : cap = 2 ^ e)
    {hashFn : K → Nat} {bs : List (Bucket K V)} :
    ∀ r G ht, ShiftState hashFn cap bs ht G →
      (¬ occupiedIdx ht ((G + (r + 1)) % cap) ∨
        slotDist cap ht ((G + (r + 1)) % cap) = 0) →
      r + 1 < cap →
      ∀ fuel, r + 1 < fuel → ∃ ht2, shiftLoop cap fuel G ht = some ht2 := by
  intro r
  induction r with
  | zero =>
    intro G ht hS hstop hrc fuel hf
    obtain ⟨f, rfl⟩ : ∃ f, fuel = f + 1 := ⟨fuel - 1, by omega⟩
    have hstep : (G + (0 + 1)) % cap = stepIdx cap G := by
      rw [stepIdx_eq hcap]
    rw [hstep] at hstop
    exact ⟨ht, shiftLoop_stop hstop⟩
  | succ rr ih =>
    intro G ht hS hstop hrc fuel hf
    obtain ⟨f, rfl⟩ : ∃ f, fuel = f + 1 := ⟨fuel - 1, by omega⟩
    by_cases hocc : occupiedIdx ht (stepIdx cap G)
    · by_cases hd0 : 0 < slotDist cap ht (stepIdx cap G)
      · -- one genuine shift step
        have hS2 := shiftStep_preserve hcap hS hocc hd0
        have hGlt := hS.Glt
        -- the stop position is untouched by the step
        have hpeq : (stepIdx cap G + (rr + 1)) % cap = (G + (rr + 1 + 1)) % cap := by
          rw [stepIdx_eq hcap]
          have h1 : ((G + 1) % cap + (rr + 1)) % cap = (G + (1 + (rr + 1))) % cap :=
            probe_shift cap G 1 (rr + 1)
          rw [h1]
          have h2 : 1 + (rr + 1) = rr + 1 + 1 := by omega
          rw [h2]
        have hpG : (G + (rr + 1 + 1)) % cap ≠ G := by
          intro hcon
          have hcon2 : (G + (rr + 1 + 1)) % cap = (G + 0) % cap := by
            rw [probe_zero hcap hGlt]; exact hcon
          have := probe_inj hcap (show rr + 1 + 1 < cap by omega)
            (show (0 : Nat) < cap by omega) hcon2
          omega
        have hpn : (G + (rr + 1 + 1)) % cap ≠ stepIdx cap G := by
          intro hcon
          rw [stepIdx_eq hcap] at hcon
          have := probe_inj hcap (show rr + 1 + 1 < cap by omega)
            (show (1 : Nat) < cap by omega) hcon
          omega
        have hgd : ((ht.set G (ht.getD (stepIdx cap G) emptyHI)).set (stepIdx cap G)
            (ht.getD (stepIdx cap G) emptyHI).clearSlot).getD
              ((G + (rr + 1 + 1)) % cap) emptyHI =
            ht.getD ((G + (rr + 1 + 1)) % cap) emptyHI := by
          rw [getD_set_ne _ _ _ (Ne.symm hpn), getD_set_ne _ _ _ (Ne.symm hpG)]
        have hstop2 : ¬ occupiedIdx ((ht.set G (ht.getD (stepIdx cap G) emptyHI)).set
              (stepIdx cap G) (ht.getD (stepIdx cap G) emptyHI).clearSlot)
              ((stepIdx cap G + (rr + 1)) % cap) ∨
            slotDist cap ((ht.set G (ht.getD (stepIdx cap G) emptyHI)).set
              (stepIdx cap G) (ht.getD (stepIdx cap G) emptyHI).clearSlot)
              ((stepIdx cap G + (rr + 1)) % cap) = 0 := by
          rw [hpeq]
          rcases hstop with h | h
          · exact Or.inl (by rw [occ_congr hgd]; exact h)
          · refine Or.inr ?_
            unfold slotDist
            rw [slotHash_congr hgd]
            unfold slotDist at h
            exact h
        obtain ⟨ht2, hrec⟩ := ih (stepIdx cap G) _ hS2 hstop2 (by omega) f (by omega)
        refine ⟨ht2, ?_⟩
        rw [shiftLoop]
        rw [if_neg (by unfold occupiedIdx at hocc; rw [hocc]; simp)]
        rw [if_pos (by unfold slotDist slotHash at hd0; exact hd0)]
        exact hrec
      · exact ⟨ht, shiftLoop_stop (Or.inr (by omega))⟩
    · exact ⟨ht, shiftLoop_stop (Or.inl hocc)⟩

end ShiftLoop

section RemoveSpec

variable {K V : Type} [DecidableEq K]

/-- Building the intermediate shift state: a table that agrees with the
invariant table except that slot `i` is cleared, with the bucket
positions reindexed by `ρ` (the repointing of the relocated bucket),
satisfies `ShiftState` with gap `i`. -/
theorem shiftState_build {cap e : Nat} (hcap : cap = 2 ^ e)
    {hashFn : K → Nat} {m : Map K V} (hInv : Inv hashFn cap m)
    {i j : Nat} (hilt : i < cap) (hocc : occupiedIdx m.hash_table i)
    (href : slotRef m.hash_table i = j)
    {bs : List (Bucket K V)} {ht1 : List HashIndex} (ρ : Nat → Nat)
    (hlen1 : ht1.length = cap)
    (hOcc : ∀ q < cap, (occupiedIdx ht1 q ↔ occupiedIdx m.hash_table q ∧ q ≠ i))
    (hHash : ∀ q < cap, q ≠ i → occupiedIdx m.hash_table q →
      slotHash ht1 q = slotHash m.hash_table q)
    (hRef : ∀ q < cap, q ≠ i → occupiedIdx m.hash_table q →
      slotRef ht1 q = ρ (slotRef m.hash_table q))
    (hρinj : ∀ r r', r < m.buckets.length → r' < m.buckets.length →
      r ≠ j → r' ≠ j → ρ r = ρ r' → r = r')
    (hρB : ∀ r < m.buckets.length, r ≠ j → bs.get? (ρ r) = m.buckets.get? r)
    (hρsurj : ∀ j2 < bs.length, ∃ r, r < m.buckets.length ∧ r ≠ j ∧ ρ r = j2) :
    ShiftState hashFn cap bs ht1 i := by
  have hrefne : ∀ q < cap, q ≠ i → occupiedIdx m.hash_table q →
      slotRef m.hash_table q ≠ j := by
    intro q hq hqi hqocc hcon
    exact hqi (hInv.inj q hq i hilt hqocc hocc (by rw [hcon, href]))
  constructor
  · exact hlen1
  · exact hilt
  · intro hcon
    exact ((hOcc i hilt).1 hcon).2 rfl
  · -- refOk
    intro q hq hqocc
    obtain ⟨hqocc0, hqi⟩ := (hOcc q hq).1 hqocc
    obtain ⟨b, hb, hbh⟩ := hInv.refOk q hq hqocc0
    have hrlt : slotRef m.hash_table q < m.buckets.length := get?_lt_length hb
    refine ⟨b, ?_, ?_⟩
    · rw [hRef q hq hqi hqocc0, hρB _ hrlt (hrefne q hq hqi hqocc0)]
      exact hb
    · rw [hHash q hq hqi hqocc0]
      exact hbh
  · -- surj
    intro j2 hj2
    obtain ⟨r, hrlt, hrj, hρr⟩ := hρsurj j2 hj2
    obtain ⟨σ, hσlt, hσocc, hσref⟩ := hInv.surj r hrlt
    have hσi : σ ≠ i := by
      intro hcon
      rw [hcon, href] at hσref
      exact hrj hσref.symm
    refine ⟨σ, hσlt, (hOcc σ hσlt).2 ⟨hσocc, hσi⟩, ?_⟩
    rw [hRef σ hσlt hσi hσocc, hσref, hρr]
  · -- inj
    intro q hq q' hq' hqocc hqocc' hreq
    obtain ⟨hqocc0, hqi⟩ := (hOcc q hq).1 hqocc
    obtain ⟨hqocc0', hqi'⟩ := (hOcc q' hq').1 hqocc'
    rw [hRef q hq hqi hqocc0, hRef q' hq' hqi' hqocc0'] at hreq
    obtain ⟨b, hb, -⟩ := hInv.refOk q hq hqocc0
    obtain ⟨b', hb', -⟩ := hInv.refOk q' hq' hqocc0'
    have h1 := hρinj _ _ (get?_lt_length hb) (get?_lt_length hb')
      (hrefne q hq hqi hqocc0) (hrefne q' hq' hqi' hqocc0') hreq
    exact hInv.inj q hq q' hq' hqocc0 hqocc0' h1
  · -- rhx
    intro q hq hqi hoccs hds
    have hslt : stepIdx cap q < cap := by
      rw [stepIdx_eq hcap]; exact Nat.mod_lt _ (cap_pos hcap)
    obtain ⟨hoccs0, hsi⟩ := (hOcc _ hslt).1 hoccs
    have hds0 : 0 < slotDist cap m.hash_table (stepIdx cap q) := by
      unfold slotDist at hds ⊢
      rw [hHash _ hslt hsi hoccs0] at hds
      exact hds
    have hrh := hInv.rh q hq hoccs0 hds0
    refine ⟨(hOcc q hq).2 ⟨hrh.1, hqi⟩, ?_⟩
    unfold slotDist
    rw [hHash _ hslt hsi hoccs0, hHash q hq hqi hrh.1]
    exact hrh.2
  · -- hole
    intro hoccs hds
    by_cases hsi : stepIdx cap i = i
    · rw [hsi] at hoccs
      exact absurd rfl ((hOcc i hilt).1 hoccs).2
    · have hslt : stepIdx cap i < cap := by
        rw [stepIdx_eq hcap]; exact Nat.mod_lt _ (cap_pos hcap)
      obtain ⟨hoccs0, -⟩ := (hOcc _ hslt).1 hoccs
      have hdeq : slotDist cap ht1 (stepIdx cap i) =
          slotDist cap m.hash_table (stepIdx cap i) := by
        unfold slotDist
        rw [hHash _ hslt hsi hoccs0]
      rw [hdeq] at hds
      have hrh1 := hInv.rh i hilt hoccs0 (by omega)
      have h12 := hrh1.2
      have hplt : (i + (cap - 1)) % cap < cap := Nat.mod_lt _ (cap_pos hcap)
      have hpstep : stepIdx cap ((i + (cap - 1)) % cap) = i := step_pred hcap hilt
      have hpi : (i + (cap - 1)) % cap ≠ i := by
        intro hcon
        rw [hcon] at hpstep
        exact hsi hpstep
      have hrh2 := hInv.rh ((i + (cap - 1)) % cap) hplt
        (by rw [hpstep]; exact hocc) (by rw [hpstep]; omega)
      rw [hpstep] at hrh2
      have h22 := hrh2.2
      refine ⟨(hOcc _ hplt).2 ⟨hrh2.1, hpi⟩, ?_⟩
      rw [hdeq]
      have hdp : slotDist cap ht1 ((i + (cap - 1)) % cap) =
          slotDist cap m.hash_table ((i + (cap - 1)) % cap) := by
        unfold slotDist
        rw [hHash _ hplt hpi hrh2.1]
      rw [hdp]
      omega

/-- Total correctness input for the backward-shift loop: either some
other slot is empty or ideally placed, or the slot after the gap sits at
distance at most one (the full-table spiral case).  Under either, the
loop returns within fuel `cap + 1`. -/
theorem shiftLoop_total {cap e : Nat} (hcap : cap = 2 ^ e)
    {hashFn : K → Nat} {bs : List (Bucket K V)} {ht1 : List HashIndex} {i : Nat}
    (hS : ShiftState hashFn cap bs ht1 i)
    (hstopIn : (∃ q, q < cap ∧ q ≠ i ∧ (¬ occupiedIdx ht1 q ∨
        slotDist cap ht1 q = 0)) ∨
      slotDist cap ht1 (stepIdx cap i) ≤ 1) :
    ∃ ht2, shiftLoop cap (cap + 1) i ht1 = some ht2 := by
  rcases hstopIn with ⟨q, hqlt, hqi, hqstop⟩ | hd1le
  · obtain ⟨t, htlt, hteq⟩ := probe_offset hcap hS.Glt hqlt
    have ht0' : t ≠ 0 := by
      intro hcon
      rw [hcon, probe_zero hcap hS.Glt] at hteq
      exact hqi hteq.symm
    obtain ⟨r, rfl⟩ : ∃ r, t = r + 1 := ⟨t - 1, by omega⟩
    have hstop : ¬ occupiedIdx ht1 ((i + (r + 1)) % cap) ∨
        slotDist cap ht1 ((i + (r + 1)) % cap) = 0 := by
      rw [hteq]
      exact hqstop
    exact shiftLoop_some hcap r i ht1 hS hstop (by omega) (cap + 1) (by omega)
  · by_cases hocc1 : occupiedIdx ht1 (stepIdx cap i)
    · by_cases hd1 : 0 < slotDist cap ht1 (stepIdx cap i)
      · -- the occupant after the gap sits at distance exactly one
        have hsi : stepIdx cap i ≠ i := by
          intro hcon
          rw [hcon] at hocc1
          exact hS.Gempty hocc1
        have hcap2 : 2 ≤ cap := by
          by_contra hc
          have hc1 : cap = 1 := by
            have := cap_pos hcap
            omega
          have hi0 : i = 0 := by
            have := hS.Glt
            omega
          apply hsi
          rw [hc1, hi0]
          decide
        have hS2 := shiftStep_preserve hcap hS hocc1 hd1
        have h2i : ((ht1.set i (ht1.getD (stepIdx cap i) emptyHI)).set
              (stepIdx cap i)
              (ht1.getD (stepIdx cap i) emptyHI).clearSlot).getD i emptyHI =
            ht1.getD (stepIdx cap i) emptyHI := by
          rw [getD_set_ne _ _ _ hsi]
          exact getD_set_self _ _ _ _ (by rw [hS.htLen]; exact hS.Glt)
        have hstop2 : ¬ occupiedIdx ((ht1.set i (ht1.getD (stepIdx cap i)
                emptyHI)).set (stepIdx cap i)
                (ht1.getD (stepIdx cap i) emptyHI).clearSlot)
              ((stepIdx cap i + (cap - 2 + 1)) % cap) ∨
            slotDist cap ((ht1.set i (ht1.getD (stepIdx cap i) emptyHI)).set
                (stepIdx cap i)
                (ht1.getD (stepIdx cap i) emptyHI).clearSlot)
              ((stepIdx cap i + (cap - 2 + 1)) % cap) = 0 := by
          have hoff : cap - 2 + 1 = cap - 1 := by omega
          rw [hoff, pred_step hcap hS.Glt]
          refine Or.inr ?_
          unfold slotDist
          rw [slotHash_congr h2i]
          have hback := hIdxDistance_back hcap (slotHash ht1 (stepIdx cap i)) i
            hS.Glt (by unfold slotDist at hd1; exact hd1)
          unfold slotDist at hd1le
          omega
        obtain ⟨ht3, hrec⟩ := shiftLoop_some hcap (cap - 2) (stepIdx cap i) _
          hS2 hstop2 (by omega) cap (by omega)
        refine ⟨ht3, ?_⟩
        rw [shiftLoop]
        rw [if_neg (by unfold occupiedIdx at hocc1; rw [hocc1]; simp)]
        rw [if_pos (by unfold slotDist slotHash at hd1; exact hd1)]
        exact hrec
      · exact ⟨ht1, shiftLoop_stop (Or.inr (by omega))⟩
    · exact ⟨ht1, shiftLoop_stop (Or.inl hocc1)⟩

/-- Assembling the invariant for the state after `remove_found` from the
output of the backward-shift loop. -/
theorem remove_assemble {cap e : Nat} (hcap : cap = 2 ^ e)
    {hashFn : K → Nat} {m : Map K V} (hInv : Inv hashFn cap m)
    {bs : List (Bucket K V)} {ht1 ht2 : List HashIndex} {i : Nat}
    {b : Bucket K V}
    (hS : ShiftState hashFn cap bs ht1 i)
    (hshift : shiftLoop cap (cap + 1) i ht1 = some ht2)
    (hperm : m.buckets.Perm (b :: bs)) :
    Inv hashFn cap (⟨bs, ht2⟩ : Map K V) := by
  obtain ⟨hLen2, hRef2, hSurj2, hInj2, hRh2⟩ :=
    shiftLoop_inv hcap (cap + 1) i ht1 ht2 hS hshift
  have hlen : m.buckets.length = bs.length + 1 := by
    have h1 := hperm.length_eq
    simpa using h1
  constructor
  · exact hLen2
  · show bs.length ≤ cap
    have := hInv.bsLen
    omega
  · intro b' hb'
    exact hInv.bHash b' (hperm.mem_iff.2 (List.mem_cons_of_mem _ hb'))
  · have h1 : ((b :: bs).map Bucket.key).Nodup :=
      ((hperm.map Bucket.key).nodup_iff).1 hInv.nodup
    rw [List.map_cons] at h1
    exact (List.nodup_cons.1 h1).2
  · exact hRef2
  · exact hSurj2
  · exact hInj2
  · exact hRh2
  · intro hcon
    exfalso
    have hcon' : bs.length = cap := hcon
    have h2 := hInv.bsLen
    omega

/-- The stop condition for the backward-shift loop holds in the cleared
(and repointed) table: a non-full map leaves an empty slot elsewhere; a
full map has an ideally-placed occupant, which either survives the
clearing or was the cleared slot itself, in which case the occupant after
the gap sits at distance at most one. -/
theorem removeStop_input {cap e : Nat} (hcap : cap = 2 ^ e)
    {hashFn : K → Nat} {m : Map K V} (hInv : Inv hashFn cap m)
    {i : Nat} (hilt : i < cap) (hocc : occupiedIdx m.hash_table i)
    {ht1 : List HashIndex}
    (hOcc : ∀ q < cap, (occupiedIdx ht1 q ↔ occupiedIdx m.hash_table q ∧ q ≠ i))
    (hHash : ∀ q < cap, q ≠ i → occupiedIdx m.hash_table q →
      slotHash ht1 q = slotHash m.hash_table q) :
    (∃ q, q < cap ∧ q ≠ i ∧ (¬ occupiedIdx ht1 q ∨ slotDist cap ht1 q = 0)) ∨
      slotDist cap ht1 (stepIdx cap i) ≤ 1 := by
  have hslt : stepIdx cap i < cap := by
    rw [stepIdx_eq hcap]; exact Nat.mod_lt _ (cap_pos hcap)
  by_cases hful : m.buckets.length = cap
  · obtain ⟨Z, hZlt, hZocc, hZd⟩ := hInv.fullZ hful
    by_cases hZi : Z = i
    · by_cases hocc1 : occupiedIdx m.hash_table (stepIdx cap i)
      · right
        by_cases hsi : stepIdx cap i = i
        · rw [hsi]
          have hc1 : cap = 1 := by
            rw [stepIdx_eq hcap] at hsi
            rcases Nat.lt_or_ge (i + 1) cap with h | h
            · rw [Nat.mod_eq_of_lt h] at hsi; omega
            · have h2 : i + 1 = cap := by omega
              rw [h2, Nat.mod_self] at hsi
              omega
          unfold slotDist hIdxDistance
          rw [hc1]
          rw [show (1 : Nat) - 1 = 0 from rfl, Nat.and_zero]
          omega
        · have hdeq : slotDist cap ht1 (stepIdx cap i) =
              slotDist cap m.hash_table (stepIdx cap i) := by
            unfold slotDist
            rw [hHash _ hslt hsi hocc1]
          rw [hdeq]
          rw [hZi] at hZd
          by_cases hd : 0 < slotDist cap m.hash_table (stepIdx cap i)
          · have hrh := hInv.rh i hilt hocc1 hd
            have h2 := hrh.2
            omega
          · omega
      · by_cases hsi : stepIdx cap i = i
        · rw [hsi] at hocc1
          exact absurd hocc hocc1
        · left
          refine ⟨stepIdx cap i, hslt, hsi, Or.inl ?_⟩
          intro hcon
          exact hocc1 (((hOcc _ hslt).1 hcon).1)
    · left
      refine ⟨Z, hZlt, hZi, Or.inr ?_⟩
      have hdeq : slotDist cap ht1 Z = slotDist cap m.hash_table Z := by
        unfold slotDist
        rw [hHash Z hZlt hZi hZocc]
      rw [hdeq]
      exact hZd
  · left
    have hE : ∃ E, E < cap ∧ ¬ occupiedIdx m.hash_table E := by
      by_contra hc
      push_neg at hc
      have hbl := hInv.bsLen
      have := all_occ_imp_len hInv.refOk hInv.inj hc
      omega
    obtain ⟨E, hElt, hEocc⟩ := hE
    have hEi : E ≠ i := by
      intro hcon
      rw [hcon] at hEocc
      exact hEocc hocc
    refine ⟨E, hElt, hEi, Or.inl ?_⟩
    intro hcon
    exact hEocc (((hOcc E hElt).1 hcon).1)

/-- `remove_found` under the invariant: it succeeds within the fuel,
returns exactly the key and value of the found bucket, preserves the
invariant, and the old store is a permutation of the deleted bucket
consed onto the new store. -/
theorem remove_found_spec {cap e : Nat} (hcap : cap = 2 ^ e)
    (he16 : cap ≤ 65536)
    {hashFn : K → Nat} {m : Map K V} (hInv : Inv hashFn cap m)
    {i j : Nat} {b : Bucket K V}
    (hilt : i < cap) (hocc : occupiedIdx m.hash_table i)
    (href : slotRef m.hash_table i = j)
    (hj : m.buckets.get? j = some b) :
    ∃ m', remove_found cap m i j = some ((b.key, b.value), m') ∧
      Inv hashFn cap m' ∧ m.buckets.Perm (b :: m'.buckets) := by
  have hbcap := hInv.bsLen
  have hjn : j < m.buckets.length := get?_lt_length hj
  obtain ⟨z, hz⟩ : ∃ z, m.buckets.get? (m.buckets.length - 1) = some z :=
    ⟨_, List.get?_eq_get (by omega)⟩
  set bs := (m.buckets.set j z).dropLast with hbs
  have hbslen : bs.length = m.buckets.length - 1 := by
    rw [hbs]; simp
  have hsp : swapPop m.buckets j = some (b, bs) := by
    rw [hbs]
    unfold swapPop
    rw [hj, hz]
  have hperm : m.buckets.Perm (b :: bs) := swapPop_perm hsp
  set ht0 := m.hash_table.set i ((m.hash_table.getD i emptyHI).clearSlot)
    with hht0
  have hht0len : ht0.length = cap := by
    rw [hht0]; simp [hInv.htLen]
  have h0i : ht0.getD i emptyHI = (m.hash_table.getD i emptyHI).clearSlot := by
    rw [hht0]
    exact getD_set_self _ _ _ _ (by rw [hInv.htLen]; exact hilt)
  have h0q : ∀ q, q ≠ i → ht0.getD q emptyHI = m.hash_table.getD q emptyHI := by
    intro q hq
    rw [hht0]
    exact getD_set_ne _ _ _ (Ne.symm hq)
  by_cases hjlast : j < m.buckets.length - 1
  · -- a bucket was relocated: the slot referencing it is repointed
    obtain ⟨g, hglt, hgocc, hgref⟩ := hInv.surj (m.buckets.length - 1) (by omega)
    have hgi : g ≠ i := by
      intro hcon
      rw [hcon, href] at hgref
      omega
    have hzg : slotHash m.hash_table g = z.hash := by
      obtain ⟨bz, hbz, hbzh⟩ := hInv.refOk g hglt hgocc
      rw [hgref, hz] at hbz
      rw [hbzh, ← Option.some.inj hbz]
    have hzmem : z ∈ m.buckets := List.get?_mem hz
    have hzhash : z.hash = hashWith hashFn z.key := hInv.bHash z hzmem
    have hzne : z.hash ≠ SENTINEL := by
      have h1 := hashWith_lt hashFn z.key
      rw [hzhash]
      unfold SENTINEL
      omega
    have hrlt : hIdxDistance cap z.hash g < cap := hIdxDistance_lt hcap _ _
    have hdlt : desiredIdx cap z.hash < cap := desiredIdx_lt hcap _
    have hdr : (desiredIdx cap z.hash + hIdxDistance cap z.hash g) % cap = g :=
      probe_reconstruct hcap z.hash g hglt
    have hdg : slotDist cap m.hash_table g = hIdxDistance cap z.hash g := by
      unfold slotDist
      rw [hzg]
    have hpath := rh_path hcap hInv.rh hglt hgocc
    rw [hzg, hdg] at hpath
    have hbsj : bs.get? j = some z := by
      rw [hbs]
      exact setDropLast_get?_self m.buckets z hjlast
    have hall : ∀ i2 < hIdxDistance cap z.hash g,
        slotRef ht0 ((desiredIdx cap z.hash + i2) % cap) < bs.length := by
      intro i2 h2
      rw [hbslen]
      have hplt2 : (desiredIdx cap z.hash + i2) % cap < cap := probe_lt hcap _ _
      have hpocc : occupiedIdx m.hash_table
          ((desiredIdx cap z.hash + i2) % cap) := (hpath i2 (by omega)).1
      have hpg : (desiredIdx cap z.hash + i2) % cap ≠ g := by
        intro hcon
        rw [← hdr] at hcon
        have := probe_inj hcap (by omega) hrlt hcon
        omega
      by_cases hpi : (desiredIdx cap z.hash + i2) % cap = i
      · rw [hpi]
        have h1 : slotRef ht0 i = slotRef m.hash_table i := by
          unfold slotRef
          rw [h0i]
          rfl
        rw [h1, href]
        exact hjlast
      · have h1 : slotRef ht0 ((desiredIdx cap z.hash + i2) % cap) =
            slotRef m.hash_table ((desiredIdx cap z.hash + i2) % cap) := by
          unfold slotRef
          rw [h0q _ hpi]
        rw [h1]
        obtain ⟨bp, hbp, -⟩ := hInv.refOk _ hplt2 hpocc
        have h2' : slotRef m.hash_table ((desiredIdx cap z.hash + i2) % cap) <
            m.buckets.length := get?_lt_length hbp
        have h3 : slotRef m.hash_table ((desiredIdx cap z.hash + i2) % cap) ≠
            m.buckets.length - 1 := by
          intro hcon
          apply hpg
          exact hInv.inj _ hplt2 g hglt hpocc hgocc (by rw [hcon, hgref])
        omega
    have hit : bs.length ≤
        slotRef ht0 ((desiredIdx cap z.hash + hIdxDistance cap z.hash g) % cap) := by
      rw [hdr, hbslen]
      have h1 : slotRef ht0 g = slotRef m.hash_table g := by
        unfold slotRef
        rw [h0q _ hgi]
      rw [h1, hgref]
    have hrp := repointLoop_spec hcap bs.length j z.hash
      (hIdxDistance cap z.hash g) (cap + 1) (desiredIdx cap z.hash) ht0
      hdlt hrlt (by omega) hall hit
    rw [hdr, make_eq z.hash (show j < 65536 by omega)] at hrp
    set ht1 := ht0.set g (⟨z.hash, j⟩ : HashIndex) with hht1
    have hlen1 : ht1.length = cap := by
      rw [hht1]; simp [hht0len]
    have h1g : ht1.getD g emptyHI = ⟨z.hash, j⟩ := by
      rw [hht1]
      exact getD_set_self _ _ _ _ (by rw [hht0len]; exact hglt)
    have h1q : ∀ q, q ≠ g → ht1.getD q emptyHI = ht0.getD q emptyHI := by
      intro q hq
      rw [hht1]
      exact getD_set_ne _ _ _ (Ne.symm hq)
    have hOcc : ∀ q < cap, (occupiedIdx ht1 q ↔
        occupiedIdx m.hash_table q ∧ q ≠ i) := by
      intro q hq
      by_cases hqg : q = g
      · subst hqg
        constructor
        · intro _
          exact ⟨hgocc, hgi⟩
        · intro _
          unfold occupiedIdx
          rw [h1g]
          rw [emptySlot_false_iff]
          exact hzne
      · by_cases hqi : q = i
        · subst hqi
          constructor
          · intro hcon
            unfold occupiedIdx at hcon
            rw [h1q _ hqg, h0i, emptySlot_clearSlot] at hcon
            exact Bool.noConfusion hcon
          · intro hcon
            exact absurd rfl hcon.2
        · constructor
          · intro hcon
            unfold occupiedIdx at hcon ⊢
            rw [h1q _ hqg, h0q _ hqi] at hcon
            exact ⟨hcon, hqi⟩
          · intro hcon
            unfold occupiedIdx at hcon ⊢
            rw [h1q _ hqg, h0q _ hqi]
            exact hcon.1
    have hHash : ∀ q < cap, q ≠ i → occupiedIdx m.hash_table q →
        slotHash ht1 q = slotHash m.hash_table q := by
      intro q hq hqi hqocc
      by_cases hqg : q = g
      · subst hqg
        rw [hzg]
        unfold slotHash
        rw [h1g]
      · unfold slotHash
        rw [h1q _ hqg, h0q _ hqi]
    have hRef : ∀ q < cap, q ≠ i → occupiedIdx m.hash_table q →
        slotRef ht1 q = if slotRef m.hash_table q = m.buckets.length - 1 then j
          else slotRef m.hash_table q := by
      intro q hq hqi hqocc
      by_cases hqg : q = g
      · subst hqg
        rw [hgref, if_pos rfl]
        unfold slotRef
        rw [h1g]
      · have hne : slotRef m.hash_table q ≠ m.buckets.length - 1 := by
          intro hcon
          exact hqg (hInv.inj q hq g hglt hqocc hgocc (by rw [hcon, hgref]))
        rw [if_neg hne]
        unfold slotRef
        rw [h1q _ hqg, h0q _ hqi]
    have hρinj : ∀ r r', r < m.buckets.length → r' < m.buckets.length →
        r ≠ j → r' ≠ j →
        (if r = m.buckets.length - 1 then j else r) =
          (if r' = m.buckets.length - 1 then j else r') → r = r' := by
      intro r r' h1 h2 h3 h4 h5
      by_cases hr : r = m.buckets.length - 1
      · by_cases hr' : r' = m.buckets.length - 1
        · rw [hr, hr']
        · rw [if_pos hr, if_neg hr'] at h5
          exact absurd h5.symm h4
      · by_cases hr' : r' = m.buckets.length - 1
        · rw [if_neg hr, if_pos hr'] at h5
          exact absurd h5 h3
        · rw [if_neg hr, if_neg hr'] at h5
          exact h5
    have hρB : ∀ r < m.buckets.length, r ≠ j →
        bs.get? (if r = m.buckets.length - 1 then j else r) =
          m.buckets.get? r := by
      intro r h1 h2
      by_cases hr : r = m.buckets.length - 1
      · rw [if_pos hr, hbsj, hr, hz]
      · rw [if_neg hr, hbs]
        exact setDropLast_get?_ne m.buckets z (by omega) h2
    have hρsurj : ∀ j2 < bs.length, ∃ r, r < m.buckets.length ∧ r ≠ j ∧
        (if r = m.buckets.length - 1 then j else r) = j2 := by
      intro j2 hj2
      rw [hbslen] at hj2
      by_cases hj2j : j2 = j
      · exact ⟨m.buckets.length - 1, by omega, by omega,
          by rw [if_pos rfl, hj2j]⟩
      · exact ⟨j2, by omega, hj2j, by rw [if_neg (by omega)]⟩
    have hS := shiftState_build hcap hInv hilt hocc href
      (fun r => if r = m.buckets.length - 1 then j else r)
      hlen1 hOcc hHash hRef hρinj hρB hρsurj
    have hstopIn := removeStop_input hcap hInv hilt hocc hOcc hHash
    obtain ⟨ht2, hshift⟩ := shiftLoop_total hcap hS hstopIn
    refine ⟨⟨bs, ht2⟩, ?_, ?_, hperm⟩
    · unfold remove_found
      rw [hsp]
      dsimp only
      rw [← hht0]
      rw [if_pos (show j < bs.length by omega)]
      rw [hbsj]
      dsimp only
      rw [hrp]
      dsimp only
      rw [hshift]
    · exact remove_assemble hcap hInv hS hshift hperm
  · -- the deleted bucket was the last one: no repointing
    have hOcc : ∀ q < cap, (occupiedIdx ht0 q ↔
        occupiedIdx m.hash_table q ∧ q ≠ i) := by
      intro q hq
      by_cases hqi : q = i
      · subst hqi
        constructor
        · intro hcon
          unfold occupiedIdx at hcon
          rw [h0i, emptySlot_clearSlot] at hcon
          exact Bool.noConfusion hcon
        · intro hcon
          exact absurd rfl hcon.2
      · constructor
        · intro hcon
          unfold occupiedIdx at hcon ⊢
          rw [h0q _ hqi] at hcon
          exact ⟨hcon, hqi⟩
        · intro hcon
          unfold occupiedIdx at hcon ⊢
          rw [h0q _ hqi]
          exact hcon.1
    have hHash : ∀ q < cap, q ≠ i → occupiedIdx m.hash_table q →
        slotHash ht0 q = slotHash m.hash_table q := by
      intro q hq hqi hqocc
      unfold slotHash
      rw [h0q _ hqi]
    have hRef : ∀ q < cap, q ≠ i → occupiedIdx m.hash_table q →
        slotRef ht0 q = slotRef m.hash_table q := by
      intro q hq hqi hqocc
      unfold slotRef
      rw [h0q _ hqi]
    have hρinj : ∀ r r', r < m.buckets.length → r' < m.buckets.length →
        r ≠ j → r' ≠ j → r = r' → r = r' :=
      fun r r' h1 h2 h3 h4 h5 => h5
    have hρB : ∀ r < m.buckets.length, r ≠ j →
        bs.get? r = m.buckets.get? r := by
      intro r h1 h2
      rw [hbs]
      exact setDropLast_get?_ne m.buckets z (by omega) h2
    have hρsurj : ∀ j2 < bs.length, ∃ r, r < m.buckets.length ∧ r ≠ j ∧
        r = j2 := by
      intro j2 hj2
      rw [hbslen] at hj2
      exact ⟨j2, by omega, by omega, rfl⟩
    have hS := shiftState_build hcap hInv hilt hocc href (fun r => r)
      hht0len hOcc hHash hRef hρinj hρB hρsurj
    have hstopIn := removeStop_input hcap hInv hilt hocc hOcc hHash
    obtain ⟨ht2, hshift⟩ := shiftLoop_total hcap hS hstopIn
    refine ⟨⟨bs, ht2⟩, ?_, ?_, hperm⟩
    · unfold remove_found
      rw [hsp]
      dsimp only
      rw [← hht0]
      rw [if_neg (show ¬ j < bs.length by omega)]
      dsimp only
      rw [hshift]
    · exact remove_assemble hcap hInv hS hshift hperm

/-- `Map::remove` on a present key: the stored value is returned, the
invariant is preserved, and the old store is a permutation of the deleted
bucket consed onto the new store. -/
theorem remove_present {cap e : Nat} (hcap : cap = 2 ^ e) (he16 : cap ≤ 65536)
    {hashFn : K → Nat} {m : Map K V} (hInv : Inv hashFn cap m)
    {j : Nat} {b : Bucket K V} {k : K}
    (hj : m.buckets.get? j = some b) (hbk : b.key = k) :
    ∃ m', remove hashFn cap m k = some (some b.value, m') ∧
      Inv hashFn cap m' ∧ m.buckets.Perm (b :: m'.buckets) := by
  obtain ⟨i, hilt, hiocc, hiref, hfind⟩ := find_present hcap hInv hj
  rw [hbk] at hfind
  obtain ⟨m', hrf, hInv', hperm⟩ :=
    remove_found_spec hcap he16 hInv hilt hiocc hiref hj
  refine ⟨m', ?_, hInv', hperm⟩
  unfold remove
  rw [hfind]
  dsimp only
  rw [hrf]

/-- `Map::remove` on an absent key returns `None` and leaves the map
unchanged. -/
theorem remove_absent {cap e : Nat} (hcap : cap = 2 ^ e)
    {hashFn : K → Nat} {m : Map K V} (hInv : Inv hashFn cap m)
    {k : K} (hk : ∀ b ∈ m.buckets, ¬ b.key = k) :
    remove hashFn cap m k = some (none, m) := by
  unfold remove
  rw [find_absent hcap hInv hk]

end RemoveSpec

section ReachableInv

variable {K V : Type} [DecidableEq K]

/-- `Map::new` satisfies the invariant. -/
theorem inv_new {cap e : Nat} (hcap : cap = 2 ^ e) (hashFn : K → Nat) :
    Inv hashFn cap (Map.new K V cap) := by
  have hc := cap_pos hcap
  have hgd : ∀ q, (List.replicate cap emptyHI).getD q emptyHI = emptyHI := by
    intro q
    by_cases hq : q < cap
    · have h1 : (List.replicate cap emptyHI).get? q = some emptyHI := by
        rw [List.get?_eq_getElem?]
        simp [List.getElem?_replicate, hq]
      exact getD_eq_of_get? _ h1
    · exact List.getD_eq_default _ _ (by simp only [List.length_replicate]; omega)
  have hocc : ∀ q, ¬ occupiedIdx (List.replicate cap emptyHI) q := by
    intro q hcon
    unfold occupiedIdx at hcon
    rw [hgd q] at hcon
    unfold emptyHI HashIndex.emptySlot SENTINEL at hcon
    simp at hcon
  constructor
  · simp [Map.new]
  · simp [Map.new]
  · intro b hb
    simp [Map.new] at hb
  · simp [Map.new]
  · intro i hi hocc2
    exact absurd hocc2 (hocc i)
  · intro j hj
    simp [Map.new] at hj
  · intro i hi i' hi' h1 h2
    exact absurd h1 (hocc i)
  · intro i hi h1
    exact absurd h1 (hocc _)
  · intro hcon
    simp [Map.new] at hcon
    omega

/-- `Map::clear` restores the invariant. -/
theorem inv_clearAll {cap e : Nat} (hcap : cap = 2 ^ e)
    {hashFn : K → Nat} {m : Map K V} (hInv : Inv hashFn cap m) :
    Inv hashFn cap m.clearAll := by
  have hc := cap_pos hcap
  have hocc : ∀ q, ¬ occupiedIdx (m.hash_table.map HashIndex.clearSlot) q := by
    intro q hcon
    unfold occupiedIdx at hcon
    by_cases hq : q < m.hash_table.length
    · have h1 : (m.hash_table.map HashIndex.clearSlot).get? q =
          some ((m.hash_table.get ⟨q, hq⟩).clearSlot) := by
        rw [List.get?_map, List.get?_eq_get hq]
        rfl
      rw [getD_eq_of_get? _ h1, emptySlot_clearSlot] at hcon
      exact Bool.noConfusion hcon
    · rw [List.getD_eq_default _ _
        (by simp only [List.length_map]; omega)] at hcon
      unfold emptyHI HashIndex.emptySlot SENTINEL at hcon
      simp at hcon
  constructor
  · show (m.hash_table.map HashIndex.clearSlot).length = cap
    simp [hInv.htLen]
  · show ([] : List (Bucket K V)).length ≤ cap
    simp
  · intro b hb
    simp [Map.clearAll] at hb
  · show (([] : List (Bucket K V)).map Bucket.key).Nodup
    simp
  · intro i hi hocc2
    exact absurd hocc2 (hocc i)
  · intro j hj
    simp [Map.clearAll] at hj
  · intro i hi i' hi' h1 h2
    exact absurd h1 (hocc i)
  · intro i hi h1
    exact absurd h1 (hocc _)
  · intro hcon
    simp [Map.clearAll] at hcon
    omega

/-- Every reachable state satisfies the invariant. -/
theorem reachable_inv {cap e : Nat} (hcap : cap = 2 ^ e) (he16 : cap ≤ 65536)
    {hashFn : K → Nat} {m : Map K V} (hr : Reachable hashFn cap m) :
    Inv hashFn cap m := by
  induction hr with
  | new => exact inv_new hcap hashFn
  | @ins m0 r m' k v hr0 heq ih =>
    by_cases hful : m0.buckets.length = cap
    · have h1 : insert hashFn cap m0 k v =
          some (Except.error (k, v), m0) := by
        unfold insert
        rw [if_pos hful]
      rw [h1] at heq
      injection heq with h2
      injection h2 with h3 h4
      rw [← h4]
      exact ih
    · have hlen : m0.buckets.length < cap := by
        have := ih.bsLen
        omega
      by_cases hk : ∃ b ∈ m0.buckets, b.key = k
      · obtain ⟨b, hbmem, hbk⟩ := hk
        obtain ⟨j, hj⟩ := List.mem_iff_get?.1 hbmem
        obtain ⟨h1, h2⟩ := insert_present hcap ih v hj hbk hlen
        rw [h1] at heq
        injection heq with h3
        injection h3 with h4 h5
        rw [← h5]
        exact h2
      · have habs : ∀ b ∈ m0.buckets, ¬ b.key = k := by
          intro b hb hcon
          exact hk ⟨b, hb, hcon⟩
        obtain ⟨T, h1, h2⟩ := insert_absent hcap he16 ih v habs hlen
        rw [h1] at heq
        injection heq with h3
        injection h3 with h4 h5
        rw [← h5]
        exact h2
  | @del m0 r m' k hr0 heq ih =>
    by_cases hk : ∃ b ∈ m0.buckets, b.key = k
    · obtain ⟨b, hbmem, hbk⟩ := hk
      obtain ⟨j, hj⟩ := List.mem_iff_get?.1 hbmem
      obtain ⟨m'', h1, h2, -⟩ := remove_present hcap he16 ih hj hbk
      rw [h1] at heq
      injection heq with h3
      injection h3 with h4 h5
      rw [← h5]
      exact h2
    · have habs : ∀ b ∈ m0.buckets, ¬ b.key = k := by
        intro b hb hcon
        exact hk ⟨b, hb, hcon⟩
      have h1 := remove_absent hcap ih habs
      rw [h1] at heq
      injection heq with h3
      injection h3 with h4 h5
      rw [← h5]
      exact ih
  | @clr m0 hr0 ih =>
    exact inv_clearAll hcap ih

end ReachableInv

section SimProof

variable {K V : Type} [DecidableEq K]

theorem sim_length {m : Map K V} {l : List (K × V)} (h : Sim m l) :
    m.buckets.length = l.length := by
  have h1 := h.length_eq
  simpa using h1

theorem sim_mem_of_bucket {m : Map K V} {l : List (K × V)} (h : Sim m l)
    {b : Bucket K V} (hb : b ∈ m.buckets) : (b.key, b.value) ∈ l :=
  h.mem_iff.1 (List.mem_map_of_mem _ hb)

theorem sim_bucket_of_mem {m : Map K V} {l : List (K × V)} (h : Sim m l)
    {p : K × V} (hp : p ∈ l) :
    ∃ b ∈ m.buckets, b.key = p.1 ∧ b.value = p.2 := by
  obtain ⟨b, hb, hbp⟩ := List.mem_map.1 (h.mem_iff.2 hp)
  exact ⟨b, hb, by rw [← hbp], by rw [← hbp]⟩

/-- Substituting the unique entry of key `k` equals a positional update
of the entry list. -/
theorem map_subst_eq_set {A : List (K × V)} {j : Nat} {k : K} {w : V}
    (hj : A.get? j = some (k, w)) (hnd : (A.map Prod.fst).Nodup) (v : V) :
    A.map (fun p => if p.1 = k then (k, v) else p) = A.set j (k, v) := by
  apply List.ext_get?
  intro n
  by_cases hn : n = j
  · subst hn
    rw [List.get?_map, hj]
    rw [List.get?_set_eq_of_lt _ (get?_lt_length hj)]
    dsimp only [Option.map]
    rw [if_pos rfl]
  · rw [List.get?_map, List.get?_set_ne _ _ (Ne.symm hn)]
    cases hAn : A.get? n with
    | none => rfl
    | some p =>
      have hp1 : ¬ p.1 = k := by
        intro hcon
        have h1 : (A.map Prod.fst).get? j = some k := by
          rw [List.get?_map, hj]
          rfl
        have h2 : (A.map Prod.fst).get? n = some k := by
          rw [List.get?_map, hAn]
          dsimp only [Option.map]
          rw [hcon]
        have hnlt : n < (A.map Prod.fst).length := by
          rw [List.length_map]
          exact get?_lt_length hAn
        exact hn (List.get?_inj hnlt hnd (by rw [h2, h1]))
      dsimp only [Option.map]
      rw [if_neg hp1]

/-- The central simulation: a run of operations on a reachable map that
agrees with the reference list, whose reference sizes stay below the
capacity at every prefix, succeeds and agrees with the reference run. -/
theorem run_sim {cap e : Nat} (hcap : cap = 2 ^ e) (he16 : cap ≤ 65536)
    {hashFn : K → Nat} :
    ∀ (ops : List (Op K V)) (l : List (K × V)) (m : Map K V),
      Reachable hashFn cap m → Sim m l →
      (∀ pre suf, pre ++ suf = ops → (refRun pre l).length < cap) →
      ∃ m', run hashFn cap ops m = some m' ∧ Reachable hashFn cap m' ∧
        Sim m' (refRun ops l) := by
  intro ops
  induction ops with
  | nil =>
    intro l m hr hsim hb
    exact ⟨m, rfl, hr, hsim⟩
  | cons op ops ih =>
    intro l m hr hsim hb
    have hInv := reachable_inv hcap he16 hr
    have hlen : m.buckets.length < cap := by
      have h1 : l.length < cap := hb [] (op :: ops) rfl
      have h2 := sim_length hsim
      omega
    cases op with
    | ins k v =>
      by_cases hk : ∃ b ∈ m.buckets, b.key = k
      · obtain ⟨b, hbmem, hbk⟩ := hk
        subst hbk
        obtain ⟨j, hj⟩ := List.mem_iff_get?.1 hbmem
        obtain ⟨heq, hInv1⟩ := insert_present hcap hInv v hj rfl hlen
        have hr1 : Reachable hashFn cap
            (⟨m.buckets.set j ⟨b.key, v, b.hash⟩, m.hash_table⟩ : Map K V) :=
          Reachable.ins hr heq
        have hany : l.any (fun p => p.1 = b.key) = true := by
          rw [List.any_eq_true]
          refine ⟨(b.key, b.value), sim_mem_of_bucket hsim hbmem, ?_⟩
          simp
        have hAj : (m.buckets.map (fun b2 => (b2.key, b2.value))).get? j =
            some (b.key, b.value) := by
          rw [List.get?_map, hj]
          rfl
        have hnd : ((m.buckets.map (fun b2 => (b2.key, b2.value))).map
            Prod.fst).Nodup := by
          rw [List.map_map]
          exact hInv.nodup
        have hsim1 : Sim
            (⟨m.buckets.set j ⟨b.key, v, b.hash⟩, m.hash_table⟩ : Map K V)
            (refInsert l b.key v) := by
          unfold Sim refInsert
          rw [if_pos hany]
          show ((m.buckets.set j ⟨b.key, v, b.hash⟩).map
            (fun b2 => (b2.key, b2.value))).Perm _
          rw [List.map_set]
          dsimp only
          rw [← map_subst_eq_set hAj hnd v]
          exact hsim.map _
        obtain ⟨m', hrun, hr', hsim'⟩ := ih (refInsert l b.key v) _ hr1 hsim1
          (by
            intro pre suf hps
            exact hb (Op.ins b.key v :: pre) suf (by rw [List.cons_append, hps]))
        refine ⟨m', ?_, hr', hsim'⟩
        unfold run
        rw [heq]
        exact hrun
      · have habs : ∀ b ∈ m.buckets, ¬ b.key = k :=
          fun b hb hcon => hk ⟨b, hb, hcon⟩
        obtain ⟨T, heq, hInv1⟩ := insert_absent hcap he16 hInv v habs hlen
        have hr1 : Reachable hashFn cap
            (⟨m.buckets ++ [⟨k, v, hashWith hashFn k⟩], T⟩ : Map K V) :=
          Reachable.ins hr heq
        have hany : ¬ l.any (fun p => p.1 = k) = true := by
          intro hc
          rw [List.any_eq_true] at hc
          obtain ⟨p, hp, hpk⟩ := hc
          obtain ⟨b2, hb2, hb2k, -⟩ := sim_bucket_of_mem hsim hp
          simp at hpk
          exact habs b2 hb2 (by rw [hb2k, hpk])
        have hsim1 : Sim
            (⟨m.buckets ++ [⟨k, v, hashWith hashFn k⟩], T⟩ : Map K V)
            (refInsert l k v) := by
          unfold Sim refInsert
          rw [if_neg hany]
          show ((m.buckets ++ [(⟨k, v, hashWith hashFn k⟩ : Bucket K V)]).map
            (fun b2 => (b2.key, b2.value))).Perm (l ++ [(k, v)])
          rw [List.map_append]
          exact hsim.append (List.Perm.refl _)
        obtain ⟨m', hrun, hr', hsim'⟩ := ih (refInsert l k v) _ hr1 hsim1
          (by
            intro pre suf hps
            exact hb (Op.ins k v :: pre) suf (by rw [List.cons_append, hps]))
        refine ⟨m', ?_, hr', hsim'⟩
        unfold run
        rw [heq]
        exact hrun
    | del k =>
      by_cases hkp : ∃ b ∈ m.buckets, b.key = k
      · obtain ⟨b, hbmem, hbk⟩ := hkp
        subst hbk
        obtain ⟨j, hj⟩ := List.mem_iff_get?.1 hbmem
        obtain ⟨m1, heq, hInv1, hperm⟩ := remove_present hcap he16 hInv hj rfl
        have hr1 : Reachable hashFn cap m1 := Reachable.del hr heq
        have hsim1 : Sim m1 (refRemove l b.key) := by
          unfold Sim refRemove
          have hfilter1 : (l.filter (fun p => ¬ p.1 = b.key)).Perm
              ((m.buckets.map (fun b2 => (b2.key, b2.value))).filter
                (fun p => ¬ p.1 = b.key)) :=
            hsim.symm.filter _
          have hpA : (m.buckets.map (fun b2 => (b2.key, b2.value))).Perm
              ((b.key, b.value) ::
                m1.buckets.map (fun b2 => (b2.key, b2.value))) := by
            have h1 := hperm.map (fun b2 => (b2.key, b2.value))
            rw [List.map_cons] at h1
            exact h1
          have hfilter2 := hpA.filter (fun p => ¬ p.1 = b.key)
          rw [List.filter_cons_of_neg (by simp)] at hfilter2
          have hnd1 : (Bucket.key b :: m1.buckets.map Bucket.key).Nodup := by
            have h1 : ((b :: m1.buckets).map Bucket.key).Nodup :=
              ((hperm.map Bucket.key).nodup_iff).1 hInv.nodup
            rw [List.map_cons] at h1
            exact h1
          have hA1self : ((m1.buckets.map (fun b2 => (b2.key, b2.value))).filter
              (fun p => ¬ p.1 = b.key)) =
              m1.buckets.map (fun b2 => (b2.key, b2.value)) := by
            rw [List.filter_eq_self]
            intro p hp
            obtain ⟨b2, hb2, hbp⟩ := List.mem_map.1 hp
            have hb2k : b2.key ∈ m1.buckets.map Bucket.key :=
              List.mem_map_of_mem _ hb2
            have hne : ¬ b2.key = b.key := by
              intro hcon
              rw [hcon] at hb2k
              exact (List.nodup_cons.1 hnd1).1 hb2k
            rw [← hbp]
            simp [hne]
          rw [hA1self] at hfilter2
          exact (hfilter1.trans hfilter2).symm
        obtain ⟨m', hrun, hr', hsim'⟩ := ih (refRemove l b.key) m1 hr1 hsim1
          (by
            intro pre suf hps
            exact hb (Op.del b.key :: pre) suf (by rw [List.cons_append, hps]))
        refine ⟨m', ?_, hr', hsim'⟩
        unfold run
        rw [heq]
        exact hrun
      · have habs : ∀ b ∈ m.buckets, ¬ b.key = k :=
          fun b hb hcon => hkp ⟨b, hb, hcon⟩
        have heq := remove_absent hcap hInv habs
        have hsim1 : Sim m (refRemove l k) := by
          unfold Sim refRemove
          have hself : l.filter (fun p => ¬ p.1 = k) = l := by
            rw [List.filter_eq_self]
            intro p hp
            obtain ⟨b2, hb2, hb2k, -⟩ := sim_bucket_of_mem hsim hp
            have hne : ¬ p.1 = k := by
              intro hcon
              exact habs b2 hb2 (by rw [hb2k, hcon])
            simp [hne]
          rw [hself]
          exact hsim
        obtain ⟨m', hrun, hr', hsim'⟩ := ih (refRemove l k) m hr hsim1
          (by
            intro pre suf hps
            exact hb (Op.del k :: pre) suf (by rw [List.cons_append, hps]))
        refine ⟨m', ?_, hr', hsim'⟩
        unfold run
        rw [heq]
        exact hrun

/-- A run of removals from a reachable state reaches a reachable state. -/
theorem runRemoves_reachable {cap : Nat} {hashFn : K → Nat} :
    ∀ (ks : List K) (m m' : Map K V), Reachable hashFn cap m →
      runRemoves hashFn cap ks m = some m' → Reachable hashFn cap m' := by
  intro ks
  induction ks with
  | nil =>
    intro m m' hr heq
    unfold runRemoves at heq
    injection heq with h1
    rw [← h1]
    exact hr
  | cons k ks ih =>
    intro m m' hr heq
    unfold runRemoves at heq
    cases hrm : remove hashFn cap m k with
    | none =>
      rw [hrm] at heq
      exact absurd heq (by simp)
    | some p =>
      obtain ⟨r, m1⟩ := p
      rw [hrm] at heq
      exact ih m1 m' (Reachable.del hr hrm) heq

end SimProof

section ConcreteReachable

/-- Inserting `(0, 10)` into the fresh map of capacity 4. -/
theorem insert0_new : insert idFn 4 (Map.new Nat Nat 4) 0 10 =
    some (Except.ok none, oneMap4) := by rfl

/-- Inserting `(1, 20)` into `oneMap4`. -/
theorem insert1_one : insert idFn 4 oneMap4 1 20 =
    some (Except.ok none, twoMap4) := by rfl

/-- Inserting `(2, 30)` into `twoMap4`. -/
theorem insert2_two : insert idFn 4 twoMap4 2 30 =
    some (Except.ok none, threeMap4) := by rfl

/-- Removing key `0` from `twoMap4`. -/
theorem remove0_two : remove idFn 4 twoMap4 0 =
    some (some 10, oneMap4After) := by rfl

theorem reachable_oneMap4 : Reachable idFn 4 oneMap4 :=
  Reachable.ins Reachable.new insert0_new

theorem reachable_twoMap4 : Reachable idFn 4 twoMap4 :=
  Reachable.ins reachable_oneMap4 insert1_one

theorem reachable_threeMap4 : Reachable idFn 4 threeMap4 :=
  Reachable.ins reachable_twoMap4 insert2_two

theorem reachable_oneMap4After : Reachable idFn 4 oneMap4After :=
  Reachable.del reachable_twoMap4 remove0_two

/-- Inserting `(0, 10)` then `(1, 20)` under the constant hash. -/
theorem insert0_new_zero : insert zeroFn 4 (Map.new Nat Nat 4) 0 10 =
    some (Except.ok none,
      (⟨[⟨0, 10, 0⟩], [⟨0, 0⟩, ⟨32768, 0⟩, ⟨32768, 0⟩, ⟨32768, 0⟩]⟩ :
        Map Nat Nat)) := by rfl

theorem insert1_zero : insert zeroFn 4
    (⟨[⟨0, 10, 0⟩], [⟨0, 0⟩, ⟨32768, 0⟩, ⟨32768, 0⟩, ⟨32768, 0⟩]⟩ :
      Map Nat Nat) 1 20 = some (Except.ok none, collide2) := by rfl

theorem reachable_collide2 : Reachable zeroFn 4 collide2 :=
  Reachable.ins (Reachable.ins Reachable.new insert0_new_zero) insert1_zero

end ConcreteReachable

section ClaimC3A

variable {K V : Type} [DecidableEq K]

/-- C3 (amended): on a map that is NOT full, `insert` has the claimed
semantics: inserting an already-present key returns `Ok(Some prev)` (the
previous value) and leaves `len()` unchanged; inserting a new key returns
`Ok(None)` and increases `len()` by exactly one.  (The non-fullness
hypothesis is necessary: on a full map the capacity check at the top of
`insert` fires even for a present key — see the counterexample.) -/
theorem insert_semantics {cap e : Nat} (hcap : cap = 2 ^ e)
    (he16 : cap ≤ 65536) {hashFn : K → Nat} {m : Map K V}
    (hInv : Inv hashFn cap m) (hlen : m.buckets.length < cap) (k : K) (v : V) :
    (∀ j b, m.buckets.get? j = some b → b.key = k →
      ∃ m', insert hashFn cap m k v = some (Except.ok (some b.value), m') ∧
        m'.buckets.length = m.buckets.length) ∧
    ((∀ b ∈ m.buckets, ¬ b.key = k) →
      ∃ m', insert hashFn cap m k v = some (Except.ok none, m') ∧
        m'.buckets.length = m.buckets.length + 1) := by
  constructor
  · intro j b hj hbk
    obtain ⟨h1, -⟩ := insert_present hcap hInv v hj hbk hlen
    exact ⟨_, h1, by simp⟩
  · intro habs
    obtain ⟨T, h1, -⟩ := insert_absent hcap he16 hInv v habs hlen
    exact ⟨_, h1, by simp⟩

/-- Witness for `insert_semantics` on the concrete reachable two-entry
map of capacity 4. -/
theorem insert_semantics_witness :
    twoMap4.buckets.length < 4 ∧
    ((∀ j b, twoMap4.buckets.get? j = some b → b.key = 1 →
      ∃ m', insert idFn 4 twoMap4 1 99 = some (Except.ok (some b.value), m') ∧
        m'.buckets.length = twoMap4.buckets.length) ∧
    ((∀ b ∈ twoMap4.buckets, ¬ b.key = 1) →
      ∃ m', insert idFn 4 twoMap4 1 99 = some (Except.ok none, m') ∧
        m'.buckets.length = twoMap4.buckets.length + 1)) :=
  ⟨by decide,
    insert_semantics (show (4 : Nat) = 2 ^ 2 from rfl) (by omega)
      (reachable_inv (show (4 : Nat) = 2 ^ 2 from rfl) (by omega)
        reachable_twoMap4)
      (by decide) 1 99⟩

end ClaimC3A

section ClaimC4

variable {K V : Type} [DecidableEq K]

/-- C4: after any sequence of removes from any reachable state, `find`
succeeds for every still-present key, returning the unique slot that
references the key's live bucket: the backward-shift deletion of
`remove_found` never orphans a live entry's probe run. -/
theorem removes_preserve_find {cap e : Nat} (hcap : cap = 2 ^ e)
    (he16 : cap ≤ 65536) {hashFn : K → Nat} {m : Map K V}
    (hr : Reachable hashFn cap m) (ks : List K) {m' : Map K V}
    (hrun : runRemoves hashFn cap ks m = some m')
    {j : Nat} {b : Bucket K V} (hb : m'.buckets.get? j = some b) :
    ∃ i, i < cap ∧ find hashFn cap m' b.key = some (some (i, j)) := by
  have hr' := runRemoves_reachable ks m m' hr hrun
  have hInv' := reachable_inv hcap he16 hr'
  obtain ⟨i, hilt, -, -, hfind⟩ := find_present hcap hInv' hb
  exact ⟨i, hilt, hfind⟩

/-- Witness for `removes_preserve_find`: after removing key `0` from the
two-entry map, key `1` (swap-relocated and repointed) is still found. -/
theorem removes_preserve_find_witness :
    runRemoves idFn 4 [0] twoMap4 = some oneMap4After ∧
    oneMap4After.buckets.get? 0 = some (⟨1, 20, 1⟩ : Bucket Nat Nat) ∧
    ∃ i, i < 4 ∧ find idFn 4 oneMap4After (Bucket.key (⟨1, 20, 1⟩ : Bucket Nat Nat)) =
      some (some (i, 0)) :=
  ⟨by rfl, by rfl,
    removes_preserve_find (show (4 : Nat) = 2 ^ 2 from rfl) (by omega)
      reachable_twoMap4 [0] (by rfl) (by rfl)⟩

end ClaimC4

section ClaimC6

variable {K V : Type} [DecidableEq K]

/-- C6: in every state reachable by `new`/`insert`/`remove`/`clear`, the
Robin Hood ordering invariant holds: every occupant with positive probe
distance has an occupied predecessor (no internal hole in a run) whose
probe distance it exceeds by at most one, so occupants' probe distances
are non-decreasing-by-more-than-one along each contiguous run. -/
theorem reachable_rh {cap e : Nat} (hcap : cap = 2 ^ e) (he16 : cap ≤ 65536)
    {hashFn : K → Nat} {m : Map K V} (hr : Reachable hashFn cap m) :
    ∀ i < cap, occupiedIdx m.hash_table (stepIdx cap i) →
      0 < slotDist cap m.hash_table (stepIdx cap i) →
      occupiedIdx m.hash_table i ∧
        slotDist cap m.hash_table (stepIdx cap i) ≤
          slotDist cap m.hash_table i + 1 :=
  (reachable_inv hcap he16 hr).rh

/-- Witness for `reachable_rh` on a concrete reachable state with a
hash collision: the occupant of slot 1 sits at probe distance 1, and the
clause instantiated at slot 0 holds. -/
theorem reachable_rh_witness :
    (0 : Nat) < 4 ∧ occupiedIdx collide2.hash_table (stepIdx 4 0) ∧
    0 < slotDist 4 collide2.hash_table (stepIdx 4 0) ∧
    (occupiedIdx collide2.hash_table 0 ∧
      slotDist 4 collide2.hash_table (stepIdx 4 0) ≤
        slotDist 4 collide2.hash_table 0 + 1) :=
  ⟨by decide, by decide, by decide,
    reachable_rh (show (4 : Nat) = 2 ^ 2 from rfl) (by omega)
      reachable_collide2 0 (by decide) (by decide) (by decide)⟩

end ClaimC6

section ClaimC7

variable {K V : Type} [DecidableEq K]

/-- C7: in every reachable state, every occupied slot references a live
bucket (its index is within the store) whose stored truncated hash equals
the slot's stored truncated hash, and no two occupied slots reference the
same bucket index; `insert`, `remove` (including the repointing after the
swap-removal) and `clear` preserve this consistency. -/
theorem reachable_slot_consistency {cap e : Nat} (hcap : cap = 2 ^ e)
    (he16 : cap ≤ 65536) {hashFn : K → Nat} {m : Map K V}
    (hr : Reachable hashFn cap m) :
    (∀ i < cap, occupiedIdx m.hash_table i →
      ∃ b, m.buckets.get? (slotRef m.hash_table i) = some b ∧
        slotHash m.hash_table i = b.hash) ∧
    (∀ i < cap, ∀ i' < cap, occupiedIdx m.hash_table i →
      occupiedIdx m.hash_table i' →
      slotRef m.hash_table i = slotRef m.hash_table i' → i = i') :=
  ⟨(reachable_inv hcap he16 hr).refOk, (reachable_inv hcap he16 hr).inj⟩

/-- Witness for `reachable_slot_consistency` on the state reached after
a swap-removal with repointing. -/
theorem reachable_slot_consistency_witness :
    (∀ i < 4, occupiedIdx oneMap4After.hash_table i →
      ∃ b, oneMap4After.buckets.get? (slotRef oneMap4After.hash_table i) = some b ∧
        slotHash oneMap4After.hash_table i = b.hash) ∧
    (∀ i < 4, ∀ i' < 4, occupiedIdx oneMap4After.hash_table i →
      occupiedIdx oneMap4After.hash_table i' →
      slotRef oneMap4After.hash_table i = slotRef oneMap4After.hash_table i' →
        i = i') :=
  reachable_slot_consistency (show (4 : Nat) = 2 ^ 2 from rfl) (by omega)
    reachable_oneMap4After

end ClaimC7

section ClaimC8

variable {K V : Type} [DecidableEq K]

/-- C8: from any reachable state every operation terminates within the
fuel `capacity + 1` that the embedding assigns to each of the probe,
displacement, repointing and backward-shift loops (a `none` result models
exhausting that fuel, i.e. more than `capacity + 1` iterations): `find`,
`insert` (including on a full map, where the capacity check returns
immediately) and `remove` all return `some`. -/
theorem ops_terminate {cap e : Nat} (hcap : cap = 2 ^ e) (he16 : cap ≤ 65536)
    {hashFn : K → Nat} {m : Map K V} (hr : Reachable hashFn cap m) :
    (∀ k, (find hashFn cap m k).isSome = true) ∧
    (∀ k v, (insert hashFn cap m k v).isSome = true) ∧
    (∀ k, (remove hashFn cap m k).isSome = true) := by
  have hInv := reachable_inv hcap he16 hr
  have hfind : ∀ k, (find hashFn cap m k).isSome = true := by
    intro k
    by_cases hk : ∃ b ∈ m.buckets, b.key = k
    · obtain ⟨b, hbmem, hbk⟩ := hk
      obtain ⟨j, hj⟩ := List.mem_iff_get?.1 hbmem
      obtain ⟨i, -, -, -, hfind⟩ := find_present hcap hInv hj
      rw [hbk] at hfind
      rw [hfind]
      rfl
    · rw [find_absent hcap hInv (fun b hb hcon => hk ⟨b, hb, hcon⟩)]
      rfl
  refine ⟨hfind, ?_, ?_⟩
  · intro k v
    by_cases hful : m.buckets.length = cap
    · have h1 : insert hashFn cap m k v = some (Except.error (k, v), m) := by
        unfold insert
        rw [if_pos hful]
      rw [h1]
      rfl
    · have hlen : m.buckets.length < cap := by
        have := hInv.bsLen
        omega
      by_cases hk : ∃ b ∈ m.buckets, b.key = k
      · obtain ⟨b, hbmem, hbk⟩ := hk
        obtain ⟨j, hj⟩ := List.mem_iff_get?.1 hbmem
        obtain ⟨h1, -⟩ := insert_present hcap hInv v hj hbk hlen
        rw [h1]
        rfl
      · obtain ⟨T, h1, -⟩ := insert_absent hcap he16 hInv v
          (fun b hb hcon => hk ⟨b, hb, hcon⟩) hlen
        rw [h1]
        rfl
  · intro k
    by_cases hk : ∃ b ∈ m.buckets, b.key = k
    · obtain ⟨b, hbmem, hbk⟩ := hk
      obtain ⟨j, hj⟩ := List.mem_iff_get?.1 hbmem
      obtain ⟨m', h1, -, -⟩ := remove_present hcap he16 hInv hj hbk
      rw [h1]
      rfl
    · rw [remove_absent hcap hInv (fun b hb hcon => hk ⟨b, hb, hcon⟩)]
      rfl

/-- Witness for `ops_terminate` on the concrete reachable two-entry
map. -/
theorem ops_terminate_witness :
    (∀ k, (find idFn 4 twoMap4 k).isSome = true) ∧
    (∀ k v, (insert idFn 4 twoMap4 k v).isSome = true) ∧
    (∀ k, (remove idFn 4 twoMap4 k).isSome = true) :=
  ops_terminate (show (4 : Nat) = 2 ^ 2 from rfl) (by omega) reachable_twoMap4

end ClaimC8

section ClaimC1

variable {K V : Type} [DecidableEq K]

/-- C1: for every sequence of insert/remove requests whose reference-map
size stays below the capacity at every prefix, the run from the fresh map
succeeds and, at every point (i.e. after every prefix), the map's
observable behavior matches the capacity-unbounded reference association
list exactly: `len()` equals the reference size (whose keys are distinct,
so it counts the distinct currently-present keys), `get k` returns
exactly the reference lookup (the most recently inserted value for `k`,
or absence if `k` was removed after its last insert or never inserted),
and `find k` reports absence exactly when the reference does. -/
theorem run_matches_reference {cap e : Nat} (hcap : cap = 2 ^ e)
    (he16 : cap ≤ 65536) {hashFn : K → Nat} (ops : List (Op K V))
    (hbound : ∀ pre suf, pre ++ suf = ops →
      (refRun pre ([] : List (K × V))).length < cap) :
    ∀ pre suf, pre ++ suf = ops →
      ∃ m', run hashFn cap pre (Map.new K V cap) = some m' ∧
        m'.buckets.length = (refRun pre ([] : List (K × V))).length ∧
        ((refRun pre ([] : List (K × V))).map Prod.fst).Nodup ∧
        (∀ k, get hashFn cap m' k =
          some (refLookup (refRun pre ([] : List (K × V))) k)) ∧
        (∀ k, (find hashFn cap m' k = some none ↔
          refLookup (refRun pre ([] : List (K × V))) k = none)) := by
  intro pre suf hps
  have hb' : ∀ p2 s2, p2 ++ s2 = pre →
      (refRun p2 ([] : List (K × V))).length < cap := by
    intro p2 s2 h2
    exact hbound p2 (s2 ++ suf) (by rw [← List.append_assoc, h2, hps])
  have hsim0 : Sim (Map.new K V cap) ([] : List (K × V)) := List.Perm.nil
  obtain ⟨m', hrun, hr', hsim'⟩ := run_sim hcap he16 pre [] (Map.new K V cap)
    Reachable.new hsim0 hb'
  have hInv' := reachable_inv hcap he16 hr'
  have habs_of_none : ∀ k,
      refLookup (refRun pre ([] : List (K × V))) k = none →
      ∀ b ∈ m'.buckets, ¬ b.key = k := by
    intro k hlk b2 hb2 hcon
    have h1 : (b2.key, b2.value) ∈ refRun pre ([] : List (K × V)) :=
      sim_mem_of_bucket hsim' hb2
    unfold refLookup at hlk
    rw [Option.map_eq_none'] at hlk
    have h2 := List.find?_eq_none.1 hlk (b2.key, b2.value) h1
    simp at h2
    exact h2 hcon
  have hpos_of_some : ∀ k v0,
      refLookup (refRun pre ([] : List (K × V))) k = some v0 →
      ∃ j b, m'.buckets.get? j = some b ∧ b.key = k ∧ b.value = v0 := by
    intro k v0 hlk
    unfold refLookup at hlk
    cases hf : (refRun pre ([] : List (K × V))).find? (fun p => p.1 = k) with
    | none =>
      rw [hf] at hlk
      exact absurd hlk (by simp)
    | some p =>
      rw [hf, Option.map_some'] at hlk
      have hpv : p.2 = v0 := Option.some.inj hlk
      have hpk : p.1 = k := by
        have h1 := List.find?_some hf
        simpa using h1
      obtain ⟨b2, hb2mem, hb2k, hb2v⟩ :=
        sim_bucket_of_mem hsim' (List.mem_of_find?_eq_some hf)
      obtain ⟨j, hj⟩ := List.mem_iff_get?.1 hb2mem
      exact ⟨j, b2, hj, by rw [hb2k, hpk], by rw [hb2v, hpv]⟩
  refine ⟨m', hrun, ?_, ?_, ?_, ?_⟩
  · exact sim_length hsim'
  · have h2 : ((m'.buckets.map (fun b => (b.key, b.value))).map
        Prod.fst).Nodup := by
      rw [List.map_map]
      exact hInv'.nodup
    exact ((hsim'.map Prod.fst).nodup_iff).1 h2
  · intro k
    cases hlk : refLookup (refRun pre ([] : List (K × V))) k with
    | none =>
      rw [get_absent hcap hInv' (habs_of_none k hlk)]
    | some v0 =>
      obtain ⟨j, b2, hj, hb2k, hb2v⟩ := hpos_of_some k v0 hlk
      have h1 := get_present hcap hInv' hj
      rw [hb2k] at h1
      rw [h1, hb2v]
  · intro k
    cases hlk : refLookup (refRun pre ([] : List (K × V))) k with
    | none =>
      rw [find_absent hcap hInv' (habs_of_none k hlk)]
      simp
    | some v0 =>
      obtain ⟨j, b2, hj, hb2k, hb2v⟩ := hpos_of_some k v0 hlk
      obtain ⟨i, -, -, -, hfind⟩ := find_present hcap hInv' hj
      rw [hb2k] at hfind
      rw [hfind]
      simp

/-- Witness for `run_matches_reference` on the request sequence
"insert (0,10), then remove 0" at capacity 4. -/
theorem run_matches_reference_witness :
    (∀ pre suf, pre ++ suf = ([Op.ins 0 10, Op.del 0] : List (Op Nat Nat)) →
      (refRun pre ([] : List (Nat × Nat))).length < 4) ∧
    (∃ m', run idFn 4 [Op.ins 0 10, Op.del 0] (Map.new Nat Nat 4) = some m' ∧
      m'.buckets.length =
        (refRun [Op.ins 0 10, Op.del 0] ([] : List (Nat × Nat))).length ∧
      ((refRun [Op.ins 0 10, Op.del 0] ([] : List (Nat × Nat))).map
        Prod.fst).Nodup ∧
      (∀ k, get idFn 4 m' k =
        some (refLookup (refRun [Op.ins 0 10, Op.del 0]
          ([] : List (Nat × Nat))) k)) ∧
      (∀ k, (find idFn 4 m' k = some none ↔
        refLookup (refRun [Op.ins 0 10, Op.del 0]
          ([] : List (Nat × Nat))) k = none))) := by
  have hb : ∀ pre suf,
      pre ++ suf = ([Op.ins 0 10, Op.del 0] : List (Op Nat Nat)) →
      (refRun pre ([] : List (Nat × Nat))).length < 4 := by
    intro pre suf h
    rcases pre with - | ⟨o1, pre1⟩
    · decide
    · rcases pre1 with - | ⟨o2, pre2⟩
      · injection h with h1 h2
        subst h1
        decide
      · rcases pre2 with - | ⟨o3, pre3⟩
        · injection h with h1 h2
          injection h2 with h3 h4
          subst h1
          subst h3
          decide
        · exfalso
          have hlen := congrArg List.length h
          simp at hlen
  refine ⟨hb, ?_⟩
  exact run_matches_reference (show (4 : Nat) = 2 ^ 2 from rfl) (by omega)
    [Op.ins 0 10, Op.del 0] hb [Op.ins 0 10, Op.del 0] [] (by simp)

end ClaimC1

end FcHashMap
